import Mathlib

/-!
# Bluestein's algorithm for prime-length DFTs (`dft/bluestein.c`)

A shallow embedding of `dft/bluestein.c` and proofs about it.

Conventions of the embedding:

* C `int` values are Lean `Int`s; the arithmetic the C code performs on the `int`s
  `h`, `x`, `n2`, `ksq`, `2*n - 1`, the strides `i*is`, `i*os` and the positions
  `2*i`, `2*i+1`, `2*(nb-i)`, `2*(nb-i)+1` of `mktwiddle` is followed by `wrap32`
  (signed 32-bit wrap-around). The counts `2*n`, `2*nb` of the allocations are `int`
  products too: an allocation is granted only when the product is representable.
  Loop counters run over `0 .. n-1`, and the positions `2*i`, `2*i+1` in
  `bluestein_sequence` and `apply` are computed exactly: `i` is below `n` or `nb`
  there and the arrays of `2*n` and `2*nb` reals have been allocated.
* `while`/`for` loops whose trip count is not known beforehand take a `fuel`
  argument and return `none` when the fuel runs out.
* The arrays `w`, `W`, `b` (`R *`) are maps from a position to a value; a freshly
  `MALLOC`ed array starts from an arbitrary map supplied by the caller of the
  embedded function. The caller's input and output arrays live in one memory, a
  map from addresses to values, and `ri`, `ii`, `ro`, `io` are addresses in it.
* The scalar type `R` is a parameter `K`, a field whose sums and products stand for
  those of `R`; the trigonometric collaborator (`X(cos2pi)`, `X(sin2pi)`) and the
  quotient `1.0 / nb` as the machine computes it are a parameter of type `trig K`.
* A child plan is the function it computes on the `nb` complex entries it is given;
  calls into the allocator, the planner and the children are recorded as events.
-/

namespace Bluestein

/-! ## Machine integers -/

/-- Signed 32-bit wrap-around: the representative of `z` modulo `2^32` in
`[-2^31, 2^31)`. -/
def wrap32 (z : Int) : Int := (z + 2147483648) % 4294967296 - 2147483648

/-- The value is representable as a signed 32-bit `int`. -/
def in_int32 (z : Int) : Prop := -2147483648 ≤ z ∧ z ≤ 2147483647

instance (z : Int) : Decidable (in_int32 z) := by
  unfold in_int32
  infer_instance

/-- The position `2*i` of an interleaved array, computed in `int`. Array positions
are natural numbers; a negative `int`, which only an overflow produces, lies outside
every array and is read as position 0. -/
def pos_re (i : Int) : Nat := (wrap32 (2 * i)).toNat

/-- The position `2*i+1` of an interleaved array, computed in `int`. -/
def pos_im (i : Int) : Nat := (wrap32 (wrap32 (2 * i) + 1)).toNat

/-! ## The allocator -/

/-- `MALLOC(2 * m * sizeof(R), ...)`: the number of reals asked for is the `int`
product `2 * m`. Modelled from the spec (the allocator is a collaborator, and a call
"aborts due to memory exhaustion in the allocator"): the request is granted when the
product is representable and not negative. When `2 * m` overflows (with wrap-around
it is negative for every `2^30 ≤ m < 2^31`, a size that no allocator grants) the
call that asks does not return. -/
def malloc_ok (m : Int) : Bool := decide (0 ≤ 2 * m ∧ in_int32 (2 * m))

/-! ## `pow2_atleast` -/

/-- The loop of `pow2_atleast`, entered with the current value of `h`:
`for (...; h < x; h = 2 * h) ; return h;`. -/
def pow2_atleast_loop : Nat → Int → Int → Option Int
  | 0, _, _ => none
  | fuel + 1, h, x =>
    if h < x then pow2_atleast_loop fuel (wrap32 (2 * h)) x else some h

/-- `static int pow2_atleast(int x)`: the loop started at `h = 1`. -/
def pow2_atleast (fuel : Nat) (x : Int) : Option Int := pow2_atleast_loop fuel 1 x

/-! ## `bluestein_sequence` -/

/-- The floating-point collaborators: `cos2pi m n` is `X(cos2pi)(m, n)`, meant to be
`cos (2 * pi * m / n)`, and likewise `sin2pi`; `recip nb` is the value of the C
expression `1.0 / nb` in the type `R`, that is the quotient as the division of the
machine rounds it, meant to be `1 / nb`. -/
structure trig (K : Type) where
  cos2pi : Int → Int → K
  sin2pi : Int → Int → K
  recip : Int → K

/-- Array write `a[i] = v`. -/
def store {K : Type} (a : Nat → K) (i : Nat) (v : K) : Nat → K :=
  fun j => if j = i then v else a j

/-- The inner loop `while (ksq > n2) ksq -= n2;`. -/
def reduce_ksq : Nat → Int → Int → Option Int
  | 0, _, _ => none
  | fuel + 1, ksq, n2 =>
    if ksq > n2 then reduce_ksq fuel (wrap32 (ksq - n2)) n2 else some ksq

/-- The statement `ksq = ksq + 2*k - 1; while (ksq > n2) ksq -= n2;` of iteration `k`. -/
def next_ksq (fuel : Nat) (n2 : Int) (k : Nat) (ksq : Int) : Option Int :=
  reduce_ksq fuel (wrap32 (wrap32 (ksq + wrap32 (2 * (k : Int))) - 1)) n2

/-- The `for (k = ...; k < n; ++k)` loop of `bluestein_sequence` with `todo`
iterations left, entered at index `k` with running value `ksq` and array `w`. -/
def bluestein_sequence_loop {K : Type} (fuel : Nat) (T : trig K) (n2 : Int) :
    Nat → Nat → Int → (Nat → K) → Option (Nat → K)
  | 0, _, _, w => some w
  | todo + 1, k, ksq, w =>
    match next_ksq fuel n2 k ksq with
    | none => none
    | some ksq1 =>
      bluestein_sequence_loop fuel T n2 todo (k + 1) ksq1
        (store (store w (2 * k) (T.cos2pi ksq1 n2)) (2 * k + 1) (T.sin2pi ksq1 n2))

/-- `static void bluestein_sequence(int n, R *w)`: `n2 = 2 * n`, `ksq = 1`, then the
loop over `k = 0 .. n-1`. Returns the array `w` after the call. -/
def bluestein_sequence {K : Type} (fuel : Nat) (T : trig K) (n : Int) (w : Nat → K) :
    Option (Nat → K) :=
  bluestein_sequence_loop fuel T (wrap32 (2 * n)) n.toNat 0 1 w

/-- A collaborator that records the integer numerator it is called with. -/
def numerator_trig : trig Int := ⟨fun m _ => m, fun m _ => m, fun _ => 0⟩

/-- The value the running `ksq` has when entry `k` is written, in closed form:
`k^2 mod 2n`, except that a positive multiple of `2n` is left at `2n` (the loop
subtracts only while `ksq > n2`). -/
def chirp_numerator (n : Int) (k : Nat) : Int :=
  if 0 < k ∧ 2 * n ∣ (k : Int) ^ 2 then 2 * n else (k : Int) ^ 2 % (2 * n)

/-! ## Problems, planner and child plans -/

/-- One dimension of a tensor (`iodim`): length and input/output strides. -/
structure iodim where
  n : Int
  is : Int
  os : Int
  deriving DecidableEq

/-- A `tensor`: its rank `rnk` and its dimensions `dims[0 .. rnk-1]`. -/
structure tensor where
  rnk : Int
  dims : List iodim
  deriving DecidableEq

/-- The dimension `t->dims[i]`. -/
def tensor.dim (t : tensor) (i : Nat) : iodim := t.dims.getD i ⟨0, 0, 0⟩

/-- A complex DFT problem (`problem_dft`): size tensor, vector tensor and the four
array pointers (as addresses). -/
structure problem_dft where
  sz : tensor
  vecsz : tensor
  ri : Int
  ii : Int
  ro : Int
  io : Int
  deriving DecidableEq

/-- A `problem`: either a complex DFT problem or a problem of some other kind.
Modelled from the spec: `DFTP(p_)` holds exactly for the first kind
("the problem is a complex DFT"). -/
inductive problem where
  | dft (p : problem_dft)
  | other
  deriving DecidableEq

/-- A child `plan_dft` as its owner sees it: `apply re im` is the pair of output
arrays (real parts, imaginary parts) the child writes for the input arrays `re`,
`im`, all indexed by the logical position `0 .. nb-1`. -/
structure plan_dft (K : Type) where
  apply : (Nat → K) → (Nat → K) → (Nat → K) × (Nat → K)

/-- The planner as this solver uses it. Modelled from the spec: `no_ugly` is
`NO_UGLYP(plnr)` ("the planning context" does not allow "this algorithm's class"),
`mkplan_d` is `X(mkplan_d)(plnr, ·)` ("requestPlan(problemDescriptor) → plan-or-absent"). -/
structure planner (K : Type) where
  no_ugly : Bool
  mkplan_d : problem → Option (plan_dft K)

/-- Modelled from the spec: `X(is_prime)`, the "boolean primality test over problem
size". -/
def is_prime (n : Int) : Bool := decide (Nat.Prime n.toNat)

/-- Modelled from the spec: `X(mktensor_1d)(n, is, os)`, the rank-1 tensor with one
dimension of length `n` and strides `is`, `os`. -/
def mktensor_1d (n is os : Int) : tensor := ⟨1, [⟨n, is, os⟩]⟩

/-- Modelled from the spec: `X(mkproblem_dft_d)(sz, vecsz, ri, ii, ro, io)`, the
complex DFT problem with these tensors and pointers; dimensions of length 1 carry
no loop and are dropped from the vector tensor ("unvectorized"). -/
def mkproblem_dft_d (sz vecsz : tensor) (ri ii ro io : Int) : problem :=
  let d := vecsz.dims.filter (fun x => x.n ≠ 1)
  problem.dft ⟨sz, ⟨d.length, d⟩, ri, ii, ro, io⟩

/-! ## Applicability -/

/-- `static int applicable0(const problem *p_)`. -/
def applicable0 (p_ : problem) : Bool :=
  match p_ with
  | problem.dft p =>
    true && p.sz.rnk == 1 && p.vecsz.rnk == 0 && is_prime (p.sz.dim 0).n
  | problem.other => false

/-- `static int applicable(const solver *ego, const problem *p_, const planner *plnr)`;
the solver argument is unused. -/
def applicable {K : Type} (p_ : problem) (plnr : planner K) : Bool :=
  if plnr.no_ugly then false
  else if !applicable0 p_ then false
  else true

/-! ## The plan -/

/-- The plan `P`. A pointer field `w`/`W` is `none` when it is null and otherwise
holds the contents of the array it points to. -/
structure P (K : Type) where
  n : Int
  nb : Int
  w : Option (Nat → K)
  W : Option (Nat → K)
  cldf : plan_dft K
  cldb : plan_dft K
  is : Int
  os : Int

/-- `for (i = lo; i < hi; ++i) body` on a state: `body lo`, ..., `body (hi-1)` in order. -/
def for_range {σ : Type} (body : Nat → σ → σ) (lo : Nat) : Nat → σ → σ
  | 0, s => s
  | hi + 1, s => if lo ≤ hi then body hi (for_range body lo hi s) else s

/-- `cld->apply(cld, a, a+1, a, a+1)` for a child planned for length `nb` with
stride 2, in place on the interleaved array `a` (real parts at even positions): the
child reads the `nb` complex entries of `a` and overwrites them. -/
def child_apply {K : Type} [Zero K] (cld : plan_dft K) (nb : Nat) (a : Nat → K) : Nat → K :=
  let r := cld.apply (fun j => if j < nb then a (2 * j) else 0)
    (fun j => if j < nb then a (2 * j + 1) else 0)
  fun m => if m < 2 * nb then (if m % 2 = 0 then r.1 (m / 2) else r.2 (m / 2)) else a m

/-- `cld->apply(cld, a+1, a, a+1, a)`: the same call with the two array roles
exchanged on input and output. -/
def child_apply_swapped {K : Type} [Zero K] (cld : plan_dft K) (nb : Nat) (a : Nat → K) :
    Nat → K :=
  let r := cld.apply (fun j => if j < nb then a (2 * j + 1) else 0)
    (fun j => if j < nb then a (2 * j) else 0)
  fun m => if m < 2 * nb then (if m % 2 = 0 then r.2 (m / 2) else r.1 (m / 2)) else a m

/-- How a call ends: it returns (`done`), or it stops at the assertion `A(...)`, or
a loop runs out of fuel, or a null pointer is dereferenced, or the allocator does not
grant a request. -/
inductive Outcome (α : Type) where
  | done (a : α)
  | assert_failed
  | out_of_fuel
  | null_deref
  | alloc_failed

/-- The array `W` of `mktwiddle` just before the child transform, with
`R nbinv = 1.0 / nb`: zero fill, then `W[2*i] = w[2*i] * nbinv` and
`W[2*i+1] = w[2*i+1] * nbinv` for `i < n`, then `W[2*(nb-i)] = w[2*i] * nbinv` and
`W[2*(nb-i)+1] = w[2*i+1] * nbinv` for `1 ≤ i < n`. The positions are `int`s. -/
def mktwiddle_fill {K : Type} [Field K] (T : trig K) (n nb : Int) (w W0 : Nat → K) :
    Nat → K :=
  let nbinv : K := T.recip nb
  let W := for_range (fun i W => store (store W (pos_im i) 0) (pos_re i) 0) 0 nb.toNat W0
  let W := for_range (fun i W =>
    store (store W (pos_re i) (w (pos_re i) * nbinv)) (pos_im i) (w (pos_im i) * nbinv))
    0 n.toNat W
  for_range (fun i W =>
    store (store W (pos_re (wrap32 (nb - i))) (w (pos_re i) * nbinv))
      (pos_im (wrap32 (nb - i))) (w (pos_im i) * nbinv)) 1 n.toNat W


/-- `static void mktwiddle(P *p)`; `w0`, `W0` are the initial contents of the two
freshly allocated arrays `w` (`2*n` reals) and `W` (`2*nb` reals). -/
def mktwiddle {K : Type} [Field K] (fuel : Nat) (T : trig K) (p : P K) (w0 W0 : Nat → K) :
    Outcome (P K) :=
  if !malloc_ok p.n then Outcome.alloc_failed
  else if !malloc_ok p.nb then Outcome.alloc_failed
  else
    match bluestein_sequence fuel T p.n w0 with
    | none => Outcome.out_of_fuel
    | some w =>
      Outcome.done { p with
        w := some w,
        W := some (child_apply p.cldf p.nb.toNat (mktwiddle_fill T p.n p.nb w W0)) }

/-- The scratch array `b` of `apply` after the loops that load it:
`b[i] = x[i] * conj(w[i])` for `i < n`, zero for `n ≤ i < nb`. -/
def apply_load {K : Type} [Field K] (ego : P K) (w : Nat → K) (mem : Int → K) (ri ii : Int)
    (b0 : Nat → K) : Nat → K :=
  let b := for_range (fun i b =>
    let xr := mem (ri + wrap32 (i * ego.is))
    let xi := mem (ii + wrap32 (i * ego.is))
    let wr := w (2 * i)
    let wi := w (2 * i + 1)
    store (store b (2 * i) (xr * wr + xi * wi)) (2 * i + 1) (xi * wr - xr * wi)) 0 ego.n.toNat b0
  for_range (fun i b => store (store b (2 * i + 1) 0) (2 * i) 0) ego.n.toNat ego.nb.toNat b

/-- The loop "convolution: pointwise multiplication" of `apply`. -/
def apply_pointwise {K : Type} [Field K] (nb : Nat) (W b : Nat → K) : Nat → K :=
  for_range (fun i b =>
    let xr := b (2 * i)
    let xi := b (2 * i + 1)
    let wr := W (2 * i)
    let wi := W (2 * i + 1)
    store (store b (2 * i) (xr * wr - xi * wi)) (2 * i + 1) (xi * wr + xr * wi)) 0 nb b

/-- Memory write `p[off] = v` at address `p + off`. -/
def poke {K : Type} (mem : Int → K) (addr : Int) (v : K) : Int → K :=
  fun a => if a = addr then v else mem a

/-- The last loop of `apply`: `ro[i*os]`, `io[i*os]` get `b[i] * conj(w[i])`. -/
def apply_unload {K : Type} [Field K] (ego : P K) (w b : Nat → K) (mem : Int → K)
    (ro io : Int) : Int → K :=
  for_range (fun i m =>
    let xr := b (2 * i)
    let xi := b (2 * i + 1)
    let wr := w (2 * i)
    let wi := w (2 * i + 1)
    poke (poke m (ro + wrap32 (i * ego.os)) (xr * wr + xi * wi))
      (io + wrap32 (i * ego.os)) (xi * wr - xr * wi)) 0 ego.n.toNat mem

/-- `static void apply(const plan *ego_, R *ri, R *ii, R *ro, R *io)` on the caller's
memory `mem`; `b0` is the initial content of the scratch array `b` (`2*nb` reals).
`none` when the call does not complete: the allocator does not grant `b`, or `w` or
`W` is null (the plan is not awake). Returns the memory after the call. -/
def apply {K : Type} [Field K] (ego : P K) (mem : Int → K) (ri ii ro io : Int)
    (b0 : Nat → K) : Option (Int → K) :=
  if !malloc_ok ego.nb then none
  else
    match ego.w, ego.W with
    | some w, some W =>
      let nb := ego.nb.toNat
      let b := apply_load ego w mem ri ii b0
      let b := child_apply ego.cldf nb b
      let b := apply_pointwise nb W b
      let b := child_apply_swapped ego.cldb nb b
      some (apply_unload ego w b mem ro io)
    | _, _ => none

/-- The output layout of a call `apply(ego, ri, ii, ro, io)` is well formed: the `2n`
locations `ro[i*os]`, `io[i*os]` (`i < n`) are pairwise different. -/
def outputs_distinct {K : Type} (ego : P K) (ro io : Int) : Prop :=
  ∀ i, i < ego.n.toNat → ∀ j, j < ego.n.toNat →
    ro + wrap32 (i * ego.os) ≠ io + wrap32 (j * ego.os) ∧
    (i ≠ j → wrap32 (i * ego.os) ≠ wrap32 (j * ego.os))

instance {K : Type} (ego : P K) (ro io : Int) : Decidable (outputs_distinct ego ro io) := by
  unfold outputs_distinct
  infer_instance

/-- A child plan is a linear map on complex vectors of length `nb`: the transform of
`a * x + c * y` (complex scalars `a = (ar, ai)`, `c = (cr, ci)`) is `a` times the
transform of `x` plus `c` times the transform of `y`, at each of the `nb` outputs. -/
def child_linear {K : Type} [Field K] (nb : Nat) (cld : plan_dft K) : Prop :=
  ∀ (ar ai cr ci : K) (xr xi yr yi : Nat → K) (k : Nat), k < nb →
    (cld.apply (fun j => ar * xr j - ai * xi j + (cr * yr j - ci * yi j))
        (fun j => ar * xi j + ai * xr j + (cr * yi j + ci * yr j))).1 k =
      ar * (cld.apply xr xi).1 k - ai * (cld.apply xr xi).2 k
        + (cr * (cld.apply yr yi).1 k - ci * (cld.apply yr yi).2 k) ∧
    (cld.apply (fun j => ar * xr j - ai * xi j + (cr * yr j - ci * yi j))
        (fun j => ar * xi j + ai * xr j + (cr * yi j + ci * yr j))).2 k =
      ar * (cld.apply xr xi).2 k + ai * (cld.apply xr xi).1 k
        + (cr * (cld.apply yr yi).2 k + ci * (cld.apply yr yi).1 k)

/-- On interleaved arrays: `z = a * u + c * v` as complex vectors, on the first `N`
complex entries (`a = (ar, ai)`, `c = (cr, ci)`). -/
def combination {K : Type} [Field K] (ar ai cr ci : K) (N : Nat) (u v z : Nat → K) : Prop :=
  ∀ i, i < N →
    z (2 * i) = ar * u (2 * i) - ai * u (2 * i + 1) + (cr * v (2 * i) - ci * v (2 * i + 1)) ∧
    z (2 * i + 1) = ar * u (2 * i + 1) + ai * u (2 * i) + (cr * v (2 * i + 1) + ci * v (2 * i))

/-! ## Exact arithmetic

The statements about the transform that `apply` computes take the scalar type to be
the real numbers and read an interleaved array as a vector of complex numbers. -/

/-- Entry `i` of an interleaved array, as a complex number. -/
def cpx (b : Nat → ℝ) (i : Nat) : ℂ := ⟨b (2 * i), b (2 * i + 1)⟩

/-- The collaborators are exact: `cos2pi m n = cos (2 pi m / n)`,
`sin2pi m n = sin (2 pi m / n)`, and the quotient `1.0 / nb` is `1 / nb` for every
power of two `nb` (as it is in binary floating point). -/
def trig_exact (T : trig ℝ) : Prop :=
  (∀ m n : Int, T.cos2pi m n = Real.cos (2 * Real.pi * m / n) ∧
    T.sin2pi m n = Real.sin (2 * Real.pi * m / n)) ∧
  ∀ e : Nat, T.recip (2 ^ e) = 1 / 2 ^ e

/-- The child plan computes the unnormalised forward DFT of length `nb`:
`B[k] = sum_j b[j] * exp(-2 pi i j k / nb)`. -/
def computes_dft (nb : Nat) (cld : plan_dft ℝ) : Prop :=
  ∀ (re im : Nat → ℝ) (k : Nat), k < nb →
    (⟨(cld.apply re im).1 k, (cld.apply re im).2 k⟩ : ℂ) =
      ∑ j in Finset.range nb,
        (⟨re j, im j⟩ : ℂ) * Complex.exp (-(2 * Real.pi * Complex.I * j * k / nb))

/-- The child plan, called with the real and imaginary arrays exchanged on input and
output, computes the unnormalised inverse DFT of length `nb`:
`b[k] = sum_j B[j] * exp(+2 pi i j k / nb)`. -/
def computes_inverse_swapped (nb : Nat) (cld : plan_dft ℝ) : Prop :=
  ∀ (re im : Nat → ℝ) (k : Nat), k < nb →
    (⟨(cld.apply im re).2 k, (cld.apply im re).1 k⟩ : ℂ) =
      ∑ j in Finset.range nb,
        (⟨re j, im j⟩ : ℂ) * Complex.exp (2 * Real.pi * Complex.I * j * k / nb)

/-! ## Lifecycle -/

/-- The two owned child plans. -/
inductive Child where
  | cldf
  | cldb
  deriving DecidableEq

/-- The allocations of this file. -/
inductive Obj where
  | buf
  | w
  | W
  deriving DecidableEq

/-- Calls into the collaborators (allocator, planner, child plans), in program order. -/
inductive Event where
  | malloc (o : Obj)
  | ifree (o : Obj)
  | child_awake (c : Child) (flg : Int)
  | mkplan_d (c : Child) (ok : Bool)
  | plan_destroy (c : Child)
  deriving DecidableEq

/-- `X(ifree0)(p)`: frees `p` unless it is null. -/
def ifree0 {α : Type} (o : Obj) (p : Option α) : List Event :=
  match p with
  | some _ => [Event.ifree o]
  | none => []

/-- `static void awake(plan *ego_, int flg)`: the calls it makes and how it ends.
Modelled from the spec: `AWAKE(cld, flg)` is the `wake(boolean direction)` call of
a child plan. -/
def awake {K : Type} [Field K] (fuel : Nat) (T : trig K) (ego : P K) (flg : Int)
    (w0 W0 : Nat → K) : List Event × Outcome (P K) :=
  let tr := [Event.child_awake Child.cldf flg, Event.child_awake Child.cldb flg]
  if flg ≠ 0 then
    if ego.w.isSome then (tr, Outcome.assert_failed)
    else if !malloc_ok ego.n then (tr ++ [Event.malloc Obj.w], Outcome.alloc_failed)
    else (tr ++ [Event.malloc Obj.w, Event.malloc Obj.W], mktwiddle fuel T ego w0 W0)
  else
    (tr ++ ifree0 Obj.w ego.w ++ ifree0 Obj.W ego.W,
      Outcome.done { ego with w := none, W := none })

/-- One call on a plan: `awake(ego, flg)` with the initial contents of the arrays
it may allocate, or `apply(ego, ri, ii, ro, io)` on a memory with the initial
content of its scratch array. -/
inductive Op (K : Type) where
  | awake (flg : Int) (w0 W0 : Nat → K)
  | apply (mem : Int → K) (ri ii ro io : Int) (b0 : Nat → K)

/-- The plan after one call, or how the call failed. `apply` leaves the plan as it is. -/
def step {K : Type} [Field K] (fuel : Nat) (T : trig K) (ego : P K) : Op K → Outcome (P K)
  | Op.awake flg w0 W0 => (awake fuel T ego flg w0 W0).2
  | Op.apply mem ri ii ro io b0 =>
    match apply ego mem ri ii ro io b0 with
    | some _ => Outcome.done ego
    | none => if malloc_ok ego.nb then Outcome.null_deref else Outcome.alloc_failed

/-- A sequence of calls on a plan, stopping at the first one that fails. -/
def run {K : Type} [Field K] (fuel : Nat) (T : trig K) : P K → List (Op K) → Outcome (P K)
  | ego, [] => Outcome.done ego
  | ego, op :: ops =>
    match step fuel T ego op with
    | Outcome.done ego1 => run fuel T ego1 ops
    | Outcome.assert_failed => Outcome.assert_failed
    | Outcome.out_of_fuel => Outcome.out_of_fuel
    | Outcome.null_deref => Outcome.null_deref
    | Outcome.alloc_failed => Outcome.alloc_failed

/-- The calls `wake, sleep, wake, sleep, ...` (`m` of them), call `i` allocating
arrays with initial contents `g i`. -/
def alternating {K : Type} (g : Nat → (Nat → K) × (Nat → K)) : Nat → List (Op K)
  | 0 => []
  | m + 1 => alternating g m ++ [Op.awake (if m % 2 = 0 then 1 else 0) (g m).1 (g m).2]

/-- Collaborators at the angle 0, where `cos2pi` and `sin2pi` are `1` and `0`, with
the exact quotient: a concrete input on which the statements below are instantiated. -/
def sample_trig (K : Type) [Field K] : trig K :=
  ⟨fun _ _ => 1, fun _ _ => 0, fun nb => 1 / (nb : K)⟩

/-- A planner that grants every request with a child that copies its input, and a
rank-1 complex DFT problem of length `n` on interleaved arrays: concrete inputs on
which the statements below are instantiated. -/
def sample_planner (K : Type) : planner K :=
  ⟨false, fun _ => some ⟨fun re im => (re, im)⟩⟩

/-- See `sample_planner`. -/
def sample_problem (n : Int) : problem :=
  problem.dft ⟨mktensor_1d n 2 2, ⟨0, []⟩, 0, 1, 0, 1⟩

/-- The sleeping plan `mkplan` builds for `sample_problem 3` with `sample_planner`. -/
def sample_plan (K : Type) : P K :=
  { n := 3, nb := 8, w := none, W := none, cldf := ⟨fun re im => (re, im)⟩,
    cldb := ⟨fun re im => (re, im)⟩, is := 2, os := 2 }

/-- The sample plan with some chirp sequence and kernel in place (an awake plan). -/
def sample_awake_plan (K : Type) [One K] : P K :=
  { sample_plan K with w := some (fun _ => 1), W := some (fun _ => 1) }

/-! ## Plan factory -/

/-- `X(plan_destroy_internal)(cld)`: destroys the child unless the pointer is null.
Modelled from the spec: "release all partial resources (buffer, and whichever
sub-plan succeeded)". -/
def plan_destroy_internal {α : Type} (c : Child) (cld : Option α) : List Event :=
  match cld with
  | some _ => [Event.plan_destroy c]
  | none => []

/-- The label `nada` of `mkplan`: `buf` is non-null there. -/
def nada {K : Type} (cldf cldb : Option (plan_dft K)) : List Event :=
  ifree0 Obj.buf (some ()) ++ plan_destroy_internal Child.cldf cldf
    ++ plan_destroy_internal Child.cldb cldb

/-- The problem of the first `X(mkplan_d)` call: `buf` is address 0, so the pointers
`buf, buf+1, buf, buf+1` are `0, 1, 0, 1`. -/
def forward_problem (nb : Int) : problem :=
  mkproblem_dft_d (mktensor_1d nb 2 2) (mktensor_1d 1 0 0) 0 1 0 1

/-- The problem of the second `X(mkplan_d)` call: pointers `buf+1, buf, buf+1, buf`. -/
def backward_problem (nb : Int) : problem :=
  mkproblem_dft_d (mktensor_1d nb 2 2) (mktensor_1d 1 0 0) 1 0 1 0

/-- `static plan *mkplan(const solver *ego, const problem *p_, planner *plnr)`.
The outer `none` is a call that does not return (`pow2_atleast` out of fuel, or the
allocator does not grant `buf`, `2*nb` reals); otherwise the calls made and the plan
returned (`none` for the null plan). -/
def mkplan {K : Type} (fuel : Nat) (p_ : problem) (plnr : planner K) :
    Option (List Event × Option (P K)) :=
  if !applicable p_ plnr then some ([], none)
  else
    match p_ with
    | problem.other => some ([], none)
    | problem.dft p =>
      let n := (p.sz.dim 0).n
      match pow2_atleast fuel (wrap32 (wrap32 (2 * n) - 1)) with
      | none => none
      | some nb =>
        if !malloc_ok nb then none
        else
          match plnr.mkplan_d (forward_problem nb) with
          | none =>
            some ([Event.malloc Obj.buf, Event.mkplan_d Child.cldf false]
              ++ nada (K := K) none none, none)
          | some cldf =>
            match plnr.mkplan_d (backward_problem nb) with
            | none =>
              some ([Event.malloc Obj.buf, Event.mkplan_d Child.cldf true,
                Event.mkplan_d Child.cldb false] ++ nada (some cldf) none, none)
            | some cldb =>
              some ([Event.malloc Obj.buf, Event.mkplan_d Child.cldf true,
                Event.mkplan_d Child.cldb true, Event.ifree Obj.buf],
                some { n := n, nb := nb, w := none, W := none, cldf := cldf, cldb := cldb,
                       is := (p.sz.dim 0).is, os := (p.sz.dim 0).os })

/-! ## Intermediate values -/

/-- The value of `h` in `pow2_atleast` after `i` executions of `h = 2 * h`. -/
def pow2_atleast_h : Nat → Int
  | 0 => 1
  | i + 1 => wrap32 (2 * pow2_atleast_h i)

/-- The running value `ksq` of `bluestein_sequence(n, w)` at the end of iteration `k`
of its loop (`none` when an inner reduction loop ran out of fuel). -/
def ksq_after (fuel : Nat) (n : Int) : Nat → Option Int
  | 0 => next_ksq fuel (wrap32 (2 * n)) 0 1
  | k + 1 =>
    match ksq_after fuel n k with
    | none => none
    | some ksq => next_ksq fuel (wrap32 (2 * n)) (k + 1) ksq

/-- The running value `ksq` at the start of iteration `k`: the initial `1`, or the
value at the end of iteration `k - 1`. -/
def ksq_before (fuel : Nat) (n : Int) : Nat → Option Int
  | 0 => some 1
  | k + 1 => ksq_after fuel n k

/-- Every `ksq - n2` that `while (ksq > n2) ksq -= n2;` computes, started at `ksq`,
is representable. -/
def reduce_in_range : Nat → Int → Int → Prop
  | 0, _, _ => True
  | fuel + 1, ksq, n2 =>
    if ksq > n2 then in_int32 (ksq - n2) ∧ reduce_in_range fuel (wrap32 (ksq - n2)) n2
    else True

/-- Every value that iteration `k` of the loop of `bluestein_sequence` computes from
the running value `ksq` is representable: `2*k`, `ksq + 2*k`, `ksq + 2*k - 1` and each
`ksq - n2` of the reduction loop (each operation on the machine values before it). -/
def step_in_range (fuel : Nat) (n2 : Int) (k : Nat) (ksq : Int) : Prop :=
  in_int32 (2 * (k : Int)) ∧ in_int32 (ksq + wrap32 (2 * (k : Int))) ∧
    in_int32 (wrap32 (ksq + wrap32 (2 * (k : Int))) - 1) ∧
    reduce_in_range fuel (wrap32 (wrap32 (ksq + wrap32 (2 * (k : Int))) - 1)) n2

/-- Modular power `a ^ e % m` by repeated squaring, for exponents `e < 2 ^ fuel`. -/
def powmod (a m : Nat) : Nat → Nat → Nat
  | 0, _ => 1 % m
  | f + 1, e =>
    if e = 0 then 1 % m
    else if e % 2 = 0 then powmod a m f (e / 2) ^ 2 % m
    else powmod a m f (e / 2) ^ 2 % m * a % m

/-! ## Binary floating point -/

/-- The loop behind `ilog2`: halve while the value is at least 2. -/
def ilog2_loop : Nat → Nat → Nat
  | 0, _ => 0
  | f + 1, n => if n < 2 then 0 else ilog2_loop f (n / 2) + 1

/-- The position of the leading binary digit: `2^(ilog2 n) ≤ n < 2^(ilog2 n + 1)` for
`n > 0`. -/
def ilog2 (n : Nat) : Nat := ilog2_loop n n

/-- The quotient `a / b` rounded to the nearest integer, a tie to the even one. -/
def div_round_even (a b : Nat) : Nat :=
  if 2 * (a % b) < b then a / b
  else if b < 2 * (a % b) then a / b + 1
  else if a / b % 2 = 0 then a / b
  else a / b + 1

/-- The IEEE 754 binary64 quotient `1.0 / nb` for an `int` `nb > 0` (round to
nearest, ties to even): with `2^l ≤ nb < 2^(l+1)` the quotient lies in
`(2^-(l+1), 2^-l]` and is rounded to a multiple of `2^-(l+53)`. -/
def recip_binary64 (nb : Int) : ℚ :=
  (div_round_even (2 ^ (ilog2 nb.toNat + 53)) nb.toNat : ℚ) / 2 ^ (ilog2 nb.toNat + 53)

/-- Collaborators for binary64 scalars at the angle 0, where `cos2pi` and `sin2pi`
are `1` and `0`; the quotient `1.0 / nb` is the binary64 one. -/
def binary64_trig : trig ℚ := ⟨fun _ _ => 1, fun _ _ => 0, recip_binary64⟩

/-! # Theorems -/

/-! ## Machine integers and `pow2_atleast` -/

theorem wrap32_eq_self (z : Int) (h1 : -2147483648 ≤ z) (h2 : z < 2147483648) : wrap32 z = z := by
  unfold wrap32; omega

theorem malloc_ok_iff (m : Int) : malloc_ok m = true ↔ 0 ≤ m ∧ m ≤ 1073741823 := by
  unfold malloc_ok in_int32
  rw [decide_eq_true_iff]
  omega

theorem pos_re_eq (i : Nat) (h : (i : Int) ≤ 1073741823) : pos_re i = 2 * i := by
  unfold pos_re
  rw [wrap32_eq_self _ (by omega) (by omega)]
  omega

theorem pos_im_eq (i : Nat) (h : (i : Int) ≤ 1073741823) : pos_im i = 2 * i + 1 := by
  unfold pos_im
  rw [wrap32_eq_self (2 * (i : Int)) (by omega) (by omega), wrap32_eq_self _ (by omega) (by omega)]
  omega

theorem pos_re_sub (nb : Int) (i : Nat) (h0 : (i : Int) ≤ nb) (h : nb ≤ 1073741823) :
    pos_re (wrap32 (nb - i)) = 2 * (nb.toNat - i) := by
  unfold pos_re
  rw [wrap32_eq_self (nb - i) (by omega) (by omega), wrap32_eq_self _ (by omega) (by omega)]
  omega

theorem pos_im_sub (nb : Int) (i : Nat) (h0 : (i : Int) ≤ nb) (h : nb ≤ 1073741823) :
    pos_im (wrap32 (nb - i)) = 2 * (nb.toNat - i) + 1 := by
  unfold pos_im
  rw [wrap32_eq_self (nb - i) (by omega) (by omega),
    wrap32_eq_self (2 * (nb - (i : Int))) (by omega) (by omega),
    wrap32_eq_self _ (by omega) (by omega)]
  omega

theorem pow2_atleast_loop_spec (x : Int) (hx : x ≤ 2 ^ 30) :
    ∀ (fuel e : Nat), e ≤ 30 → 31 ≤ fuel + e → (∀ e' : Nat, e' < e → (2:Int) ^ e' < x) →
      ∃ e2 : Nat, pow2_atleast_loop fuel (2 ^ e) x = some (2 ^ e2) ∧ x ≤ 2 ^ e2 ∧ e2 ≤ 30 ∧
        ∀ e' : Nat, e' < e2 → (2:Int) ^ e' < x := by
  intro fuel
  induction fuel with
  | zero => intro e he hf; omega
  | succ fuel ih =>
    intro e he hf hlt
    by_cases hh : (2:Int) ^ e < x
    · have he30 : e < 30 := by
        by_contra hcon
        have : e = 30 := by omega
        subst this
        omega
      have hpow : (2:Int) ^ (e + 1) ≤ 2 ^ 30 := pow_le_pow_right₀ (by norm_num) (by omega)
      have hpos : (0:Int) < 2 ^ (e + 1) := by positivity
      have h30 : (2:Int) ^ 30 = 1073741824 := by norm_num
      have hw : wrap32 (2 * 2 ^ e) = 2 ^ (e + 1) := by
        have h2 : (2:Int) * 2 ^ e = 2 ^ (e + 1) := by ring
        rw [h2, wrap32_eq_self] <;> omega
      have := ih (e + 1) (by omega) (by omega) (by
        intro e' he'
        rcases Nat.lt_succ_iff_lt_or_eq.mp he' with h | h
        · exact hlt e' h
        · subst h; exact hh)
      simpa [pow2_atleast_loop, hh, hw] using this
    · exact ⟨e, by simp [pow2_atleast_loop, hh], by omega, he, hlt⟩

theorem pow2_atleast_loop_zero (x : Int) (hx : 0 < x) :
    ∀ fuel : Nat, pow2_atleast_loop fuel 0 x = none := by
  intro fuel
  induction fuel with
  | zero => rfl
  | succ fuel ih =>
    have hw : wrap32 (2 * 0) = 0 := by decide
    rw [pow2_atleast_loop, if_pos hx, hw]
    exact ih

theorem pow2_atleast_loop_overflow (x : Int) (hx : 2 ^ 30 < x) (d : Nat) :
    ∀ (e fuel : Nat), e + d = 30 → pow2_atleast_loop fuel (2 ^ e) x = none := by
  have h30 : (2:Int) ^ 30 = 1073741824 := by norm_num
  induction d with
  | zero =>
    intro e fuel he
    have he30 : e = 30 := by omega
    subst he30
    match fuel with
    | 0 => rfl
    | 1 =>
      rw [pow2_atleast_loop, if_pos hx]
      rfl
    | fuel + 2 =>
      have h1 : wrap32 (2 * 2 ^ 30) = -2147483648 := by decide
      have h2 : wrap32 (2 * -2147483648) = 0 := by decide
      have h4 : ((-2147483648:Int) < x) := by omega
      rw [pow2_atleast_loop, if_pos hx, h1, pow2_atleast_loop, if_pos h4, h2]
      exact pow2_atleast_loop_zero _ (by omega) _
  | succ d ih =>
    intro e fuel he
    match fuel with
    | 0 => rfl
    | fuel + 1 =>
      have hpow : (2:Int) ^ (e + 1) ≤ 2 ^ 30 := pow_le_pow_right₀ (by norm_num) (by omega)
      have hpos : (0:Int) < 2 ^ (e + 1) := by positivity
      have h2 : (2:Int) * 2 ^ e = 2 ^ (e + 1) := by ring
      have hw : wrap32 (2 * 2 ^ e) = 2 ^ (e + 1) := by
        rw [h2, wrap32_eq_self] <;> omega
      have hlt : (2:Int) ^ e < x := by omega
      rw [pow2_atleast_loop, if_pos hlt, hw]
      exact ih (e + 1) fuel (by omega)

theorem pow2_atleast_loop_ge (x : Int) :
    ∀ (fuel : Nat) (h r : Int), pow2_atleast_loop fuel h x = some r → x ≤ r := by
  intro fuel
  induction fuel with
  | zero => intro h r hr; exact absurd hr (by simp [pow2_atleast_loop])
  | succ fuel ih =>
    intro h r hr
    rw [pow2_atleast_loop] at hr
    by_cases hlt : h < x
    · rw [if_pos hlt] at hr
      exact ih _ r hr
    · rw [if_neg hlt] at hr
      simp only [Option.some.injEq] at hr
      omega

/-- A value returned by `pow2_atleast` is at least the argument, and the argument
is at most `2^30`. -/
theorem pow2_atleast_some (fuel : Nat) (x r : Int) (h : pow2_atleast fuel x = some r) :
    x ≤ r ∧ x ≤ 1073741824 := by
  refine ⟨pow2_atleast_loop_ge x fuel 1 r h, ?_⟩
  by_contra hcon
  have := pow2_atleast_loop_overflow x (by norm_num; omega) 30 0 fuel (by norm_num)
  simp only [pow_zero] at this
  rw [pow2_atleast, this] at h
  exact absurd h (by simp)

theorem pow2_atleast_loop_mono (x : Int) (d : Nat) :
    ∀ (fuel : Nat) (h r : Int), pow2_atleast_loop fuel h x = some r →
      pow2_atleast_loop (fuel + d) h x = some r := by
  intro fuel
  induction fuel with
  | zero => intro h r hr; exact absurd hr (by simp [pow2_atleast_loop])
  | succ fuel ih =>
    intro h r hr
    have e : fuel + 1 + d = (fuel + d) + 1 := by omega
    rw [e, pow2_atleast_loop]
    rw [pow2_atleast_loop] at hr
    by_cases hlt : h < x
    · rw [if_pos hlt] at hr ⊢
      exact ih _ _ hr
    · rw [if_neg hlt] at hr ⊢
      exact hr

theorem pow2_atleast_pow (fuel : Nat) (x r : Int) (h : pow2_atleast fuel x = some r) :
    ∃ e : Nat, r = 2 ^ e ∧ x ≤ 2 ^ e ∧ e ≤ 30 ∧ ∀ e' : Nat, e' < e → (2:Int) ^ e' < x := by
  have hx := (pow2_atleast_some fuel x r h).2
  have h30 : (2:Int) ^ 30 = 1073741824 := by norm_num
  obtain ⟨e, he, hle, he30, hmin⟩ := pow2_atleast_loop_spec x (by omega) (fuel + 31) 0
    (by omega) (by omega) (by intro e' he'; omega)
  have hm := pow2_atleast_loop_mono x 31 fuel 1 r h
  rw [pow_zero, hm] at he
  exact ⟨e, Option.some.inj he, hle, he30, hmin⟩

/-- C4 as stated fails for large lengths: for `n = 2^29 + 1` the argument `2n - 1`
is `2^30 + 1`, the doubling of `h = 2^30` overflows the 32-bit `int`, and
`pow2_atleast` returns no value at all, whatever the fuel. -/
theorem pow2_atleast_large_no_result :
    ¬ ∃ (fuel : Nat) (nb : Int), pow2_atleast fuel (2 * 536870913 - 1) = some nb := by
  rintro ⟨fuel, nb, h⟩
  have := pow2_atleast_loop_overflow (2 * 536870913 - 1) (by norm_num) 30 0 fuel (by norm_num)
  simp [pow2_atleast] at h
  simp at this
  rw [this] at h
  exact absurd h (by simp)

/-- C4 (amended): for every `n` with `1 ≤ n ≤ 2^29`, `pow2_atleast (2n-1)` returns
(with fuel for 31 loop tests) the smallest power of two that is `≥ 2n-1`: it is
`2^e`, it is `≥ 2n-1`, and every power of two `≥ 2n-1` is at least as large.
In particular n = 3, 5, 7, 11, 13 give 8, 16, 16, 32, 32. -/
theorem pow2_atleast_smallest (n : Int) (fuel : Nat) (h1 : 1 ≤ n) (h2 : n ≤ 536870912)
    (hf : 31 ≤ fuel) :
    ∃ e : Nat, pow2_atleast fuel (2 * n - 1) = some (2 ^ e) ∧ 2 * n - 1 ≤ 2 ^ e ∧
      (∀ e' : Nat, 2 * n - 1 ≤ 2 ^ e' → (2:Int) ^ e ≤ 2 ^ e') ∧
      pow2_atleast fuel (2 * 3 - 1) = some 8 ∧ pow2_atleast fuel (2 * 5 - 1) = some 16 ∧
      pow2_atleast fuel (2 * 7 - 1) = some 16 ∧ pow2_atleast fuel (2 * 11 - 1) = some 32 ∧
      pow2_atleast fuel (2 * 13 - 1) = some 32 := by
  have key : ∀ x : Int, x ≤ 2 ^ 30 → ∃ e : Nat, pow2_atleast fuel x = some (2 ^ e) ∧ x ≤ 2 ^ e ∧
      ∀ e' : Nat, x ≤ 2 ^ e' → (2:Int) ^ e ≤ 2 ^ e' := by
    intro x hx
    obtain ⟨e, he, hle, -, hmin⟩ := pow2_atleast_loop_spec x hx fuel 0 (by omega) (by omega)
      (by intro e' he'; omega)
    refine ⟨e, by simpa [pow2_atleast] using he, hle, ?_⟩
    intro e' hx'
    by_contra hcon
    have hlt : e' < e := by
      by_contra hge
      exact hcon (pow_le_pow_right₀ (by norm_num) (by omega))
    have := hmin e' hlt
    omega
  have val : ∀ (x v : Int) (e : Nat), x ≤ 2 ^ 30 → v = 2 ^ e → x ≤ v →
      (∀ e' : Nat, e' < e → (2:Int) ^ e' < x) → pow2_atleast fuel x = some v := by
    intro x v e hx hv hxv hlow
    obtain ⟨e2, he2, hle, hmin⟩ := key x hx
    rw [he2, hv]
    congr 1
    have h1 := hmin e (hv ▸ hxv)
    by_contra hne
    have hlt : e2 < e := by
      rcases Nat.lt_trichotomy e2 e with h | h | h
      · exact h
      · exact absurd (by rw [h]) hne
      · exact absurd (le_antisymm h1 (pow_le_pow_right₀ (by norm_num) h.le)) hne
    have := hlow e2 hlt
    omega
  obtain ⟨e, he, hle, hmin⟩ := key (2 * n - 1) (by norm_num; omega)
  refine ⟨e, he, hle, hmin, ?_, ?_, ?_, ?_, ?_⟩
  · exact val _ 8 3 (by norm_num) (by norm_num) (by norm_num) (by intro e' he'; interval_cases e' <;> norm_num)
  · exact val _ 16 4 (by norm_num) (by norm_num) (by norm_num) (by intro e' he'; interval_cases e' <;> norm_num)
  · exact val _ 16 4 (by norm_num) (by norm_num) (by norm_num) (by intro e' he'; interval_cases e' <;> norm_num)
  · exact val _ 32 5 (by norm_num) (by norm_num) (by norm_num) (by intro e' he'; interval_cases e' <;> norm_num)
  · exact val _ 32 5 (by norm_num) (by norm_num) (by norm_num) (by intro e' he'; interval_cases e' <;> norm_num)

/-- The largest length C4 (amended) covers, `n = 2^29`. -/
theorem pow2_atleast_smallest_witness :
    ∃ e : Nat, pow2_atleast 31 (2 * 536870912 - 1) = some (2 ^ e) ∧ (2:Int) * 536870912 - 1 ≤ 2 ^ e :=
  let ⟨e, h1, h2, _⟩ := pow2_atleast_smallest 536870912 31 (by decide) (by decide) (by decide)
  ⟨e, h1, h2⟩

/-! ## The chirp recurrence -/

theorem chirp_numerator_zero (n : Int) : chirp_numerator n 0 = 0 := by
  simp [chirp_numerator]

theorem chirp_numerator_bounds (n : Int) (k : Nat) (hn : 0 < n) :
    0 ≤ chirp_numerator n k ∧ chirp_numerator n k ≤ 2 * n ∧
      2 * n ∣ (chirp_numerator n k - (k : Int) ^ 2) := by
  unfold chirp_numerator
  have hN : (0:Int) < 2 * n := by omega
  split
  · next h =>
    refine ⟨by omega, le_refl _, ?_⟩
    exact Dvd.dvd.sub (dvd_refl _) h.2
  · refine ⟨Int.emod_nonneg _ (by omega), (Int.emod_lt_of_pos _ hN).le, ?_⟩
    have := Int.emod_add_ediv ((k:Int) ^ 2) (2 * n)
    exact ⟨-(((k:Int) ^ 2) / (2 * n)), by linarith⟩

theorem chirp_numerator_unique (n : Int) (k : Nat) (r : Int) (hn : 0 < n) (hk : 0 < k)
    (h1 : 1 ≤ r) (h2 : r ≤ 2 * n) (hdvd : 2 * n ∣ (r - (k : Int) ^ 2)) :
    r = chirp_numerator n k := by
  unfold chirp_numerator
  have hN : (0:Int) < 2 * n := by omega
  split
  · next h =>
    have hr : 2 * n ∣ r := by
      have := Dvd.dvd.add hdvd h.2
      simpa using this
    obtain ⟨c, hc⟩ := hr
    have hc1 : 1 ≤ c := by
      by_contra hcon
      have : c ≤ 0 := by omega
      have : 2 * n * c ≤ 0 := mul_nonpos_of_nonneg_of_nonpos hN.le this
      omega
    have hc2 : c ≤ 1 := by
      by_contra hcon
      have : 2 ≤ c := by omega
      have : 2 * n * 2 ≤ 2 * n * c := mul_le_mul_of_nonneg_left this hN.le
      omega
    have : c = 1 := by omega
    subst this
    omega
  · next h =>
    have hnd : ¬ (2 * n ∣ (k:Int) ^ 2) := fun hd => h ⟨hk, hd⟩
    have hr : r < 2 * n := by
      rcases lt_or_eq_of_le h2 with h | h
      · exact h
      · exfalso
        apply hnd
        have : 2 * n ∣ r := by rw [h]
        have := Dvd.dvd.sub this hdvd
        simpa using this
    have : r % (2 * n) = (k:Int) ^ 2 % (2 * n) :=
      Int.emod_eq_emod_iff_emod_sub_eq_zero.mpr (Int.emod_eq_zero_of_dvd hdvd)
    rw [← this, Int.emod_eq_of_lt (by omega) hr]

theorem next_ksq_zero (fuel : Nat) (n : Int) (hf : 1 ≤ fuel) (hn : 0 < n) :
    next_ksq fuel (2 * n) 0 1 = some 0 := by
  obtain ⟨f, rfl⟩ : ∃ f, fuel = f + 1 := ⟨fuel - 1, by omega⟩
  have h1 : wrap32 (wrap32 (1 + wrap32 (2 * ((0:Nat):Int))) - 1) = 0 := by decide
  rw [next_ksq, h1, reduce_ksq, if_neg (by omega)]

theorem next_ksq_succ (fuel : Nat) (n : Int) (k : Nat) (hf : 2 ≤ fuel) (hn : 0 < n)
    (hn2 : n ≤ 536870912) (hk : ((k + 1 : Nat) : Int) < n) :
    next_ksq fuel (2 * n) (k + 1) (chirp_numerator n k) = some (chirp_numerator n (k + 1)) := by
  obtain ⟨f, rfl⟩ : ∃ f, fuel = f + 2 := ⟨fuel - 2, by omega⟩
  obtain ⟨hp0, hp1, hpd⟩ := chirp_numerator_bounds n k hn
  generalize chirp_numerator n k = p at hp0 hp1 hpd
  push_cast at hk
  have e1 : wrap32 (2 * ((k + 1 : Nat) : Int)) = 2 * (k:Int) + 2 := by
    rw [wrap32_eq_self] <;> push_cast <;> omega
  have e2 : wrap32 (p + (2 * (k:Int) + 2)) = p + 2 * k + 2 := by
    rw [wrap32_eq_self] <;> omega
  have e3 : wrap32 (p + 2 * k + 2 - 1) = p + 2 * k + 1 := by
    rw [wrap32_eq_self] <;> omega
  have hd : ∀ r : Int, 2 * n ∣ (r - (p + 2 * k + 1)) → 2 * n ∣ (r - ((k + 1 : Nat) : Int) ^ 2) := by
    intro r hr
    have := Dvd.dvd.add hr hpd
    have e : r - (p + 2 * k + 1) + (p - (k:Int) ^ 2) = r - ((k + 1 : Nat) : Int) ^ 2 := by
      push_cast; ring
    rwa [e] at this
  rw [next_ksq, e1, e2, e3, reduce_ksq]
  by_cases hgt : p + 2 * (k:Int) + 1 > 2 * n
  · have e4 : wrap32 (p + 2 * k + 1 - 2 * n) = p + 2 * k + 1 - 2 * n := by
      rw [wrap32_eq_self] <;> omega
    rw [if_pos hgt, e4, reduce_ksq, if_neg (by omega)]
    refine congrArg some ?_
    refine chirp_numerator_unique n (k + 1) (p + 2 * k + 1 - 2 * n) hn (by omega) (by omega)
      (by omega) (hd _ ?_)
    exact ⟨-1, by ring⟩
  · rw [if_neg hgt]
    refine congrArg some ?_
    refine chirp_numerator_unique n (k + 1) (p + 2 * k + 1) hn (by omega) (by omega)
      (by omega) (hd _ ?_)
    simp

theorem store_same {K : Type} (a : Nat → K) (i : Nat) (v : K) : store a i v i = v := by
  simp [store]

theorem store_other {K : Type} (a : Nat → K) (i j : Nat) (v : K) (h : j ≠ i) :
    store a i v j = a j := by
  simp [store, h]

/-- Entry `k` of the chirp array is the collaborator's value at the numerator. -/
theorem bluestein_sequence_loop_spec {K : Type} (fuel : Nat) (T : trig K) (n : Int)
    (hf : 2 ≤ fuel) (hn : 0 < n) (hn2 : n ≤ 536870912) :
    ∀ (todo k : Nat) (ksq : Int) (w : Nat → K), ((k + todo : Nat) : Int) ≤ n →
      ksq = (if k = 0 then 1 else chirp_numerator n (k - 1)) →
      ∃ w1, bluestein_sequence_loop fuel T (2 * n) todo k ksq w = some w1 ∧
        (∀ m, m < 2 * k → w1 m = w m) ∧ (∀ m, 2 * (k + todo) ≤ m → w1 m = w m) ∧
        ∀ j, k ≤ j → j < k + todo →
          w1 (2 * j) = T.cos2pi (chirp_numerator n j) (2 * n) ∧
          w1 (2 * j + 1) = T.sin2pi (chirp_numerator n j) (2 * n) := by
  intro todo
  induction todo with
  | zero =>
    intro k ksq w _ _
    exact ⟨w, rfl, fun _ _ => rfl, fun _ _ => rfl, fun j h1 h2 => by omega⟩
  | succ todo ih =>
    intro k ksq w hk hksq
    have hnext : next_ksq fuel (2 * n) k ksq = some (chirp_numerator n k) := by
      rcases Nat.eq_zero_or_pos k with h0 | hpos
      · subst h0
        simp only [if_true] at hksq
        rw [hksq, chirp_numerator_zero]
        exact next_ksq_zero fuel n (by omega) hn
      · obtain ⟨k', rfl⟩ : ∃ k', k = k' + 1 := ⟨k - 1, by omega⟩
        simp only [Nat.add_one_ne_zero, if_false, Nat.add_sub_cancel] at hksq
        rw [hksq]
        exact next_ksq_succ fuel n k' hf hn hn2 (by push_cast at hk ⊢; omega)
    obtain ⟨w1, hw1, hlow, hhigh, hval⟩ := ih (k + 1) (chirp_numerator n k)
      (store (store w (2 * k) (T.cos2pi (chirp_numerator n k) (2 * n))) (2 * k + 1)
        (T.sin2pi (chirp_numerator n k) (2 * n)))
      (by push_cast at hk ⊢; omega) (by simp)
    refine ⟨w1, ?_, ?_, ?_, ?_⟩
    · rw [bluestein_sequence_loop, hnext]
      exact hw1
    · intro m hm
      rw [hlow m (by omega), store_other _ _ _ _ (by omega), store_other _ _ _ _ (by omega)]
    · intro m hm
      rw [hhigh m (by omega), store_other _ _ _ _ (by omega), store_other _ _ _ _ (by omega)]
    · intro j hj1 hj2
      rcases Nat.eq_or_lt_of_le hj1 with h | h
      · subst h
        rw [hlow (2 * k) (by omega), hlow (2 * k + 1) (by omega), store_same,
          store_other _ _ _ _ (by omega), store_same]
        exact ⟨rfl, rfl⟩
      · exact hval j (by omega) (by omega)

theorem bluestein_sequence_spec {K : Type} (fuel : Nat) (T : trig K) (n : Int)
    (hf : 2 ≤ fuel) (hn : 0 < n) (hn2 : n ≤ 536870912) (w0 : Nat → K) :
    ∃ w, bluestein_sequence fuel T n w0 = some w ∧
      (∀ m, 2 * n.toNat ≤ m → w m = w0 m) ∧
      ∀ k : Nat, (k : Int) < n →
        w (2 * k) = T.cos2pi (chirp_numerator n k) (2 * n) ∧
        w (2 * k + 1) = T.sin2pi (chirp_numerator n k) (2 * n) := by
  have hw : wrap32 (2 * n) = 2 * n := by rw [wrap32_eq_self] <;> omega
  obtain ⟨w, h1, -, h3, h4⟩ := bluestein_sequence_loop_spec fuel T n hf hn hn2 n.toNat 0 1 w0
    (by simp; omega) (by simp)
  refine ⟨w, by rw [bluestein_sequence, hw]; exact h1, ?_, ?_⟩
  · intro m hm
    exact h3 m (by simpa using hm)
  · intro k hk
    exact h4 k (by omega) (by omega)

/-- C10 as stated fails: for `n = 8` and `k = 4` the numerator passed to the
trigonometric collaborator is `16 = 2n`, while `k^2 mod 2n = 0`. -/
theorem bluestein_sequence_numerator_not_reduced :
    (bluestein_sequence 2 numerator_trig 8 (fun _ => 0)).map (fun w => w (2 * 4)) = some 16 ∧
      (4:Int) ^ 2 % (2 * 8) = 0 := by
  decide

/-- C10 (amended): for every length `1 ≤ n ≤ 2^29` and every `k` in `0..n-1`,
`bluestein_sequence` returns and entry `k` of `w` is
`(cos2pi (m, 2n), sin2pi (m, 2n))` for the numerator `m = chirp_numerator n k`,
whatever the collaborator; `m` lies in `0..2n`, is congruent to `k^2` modulo `2n`,
and differs from `k^2 mod 2n` only when `k > 0` and `2n` divides `k^2`, where it is
`2n`; the numerator for `k = 0` is `0`. -/
theorem bluestein_sequence_numerator {K : Type} (fuel : Nat) (T : trig K) (n : Int) (k : Nat)
    (w0 : Nat → K) (hf : 2 ≤ fuel) (hn : 1 ≤ n) (hn2 : n ≤ 536870912) (hk : (k : Int) < n) :
    ∃ w, bluestein_sequence fuel T n w0 = some w ∧
      w (2 * k) = T.cos2pi (chirp_numerator n k) (2 * n) ∧
      w (2 * k + 1) = T.sin2pi (chirp_numerator n k) (2 * n) ∧
      0 ≤ chirp_numerator n k ∧ chirp_numerator n k ≤ 2 * n ∧
      chirp_numerator n k % (2 * n) = (k : Int) ^ 2 % (2 * n) ∧
      (chirp_numerator n k ≠ (k : Int) ^ 2 % (2 * n) →
        0 < k ∧ 2 * n ∣ (k : Int) ^ 2 ∧ chirp_numerator n k = 2 * n) ∧
      chirp_numerator n 0 = 0 := by
  obtain ⟨w, h1, -, h2⟩ := bluestein_sequence_spec fuel T n hf (by omega) hn2 w0
  obtain ⟨b0, b1, b2⟩ := chirp_numerator_bounds n k (by omega)
  refine ⟨w, h1, (h2 k hk).1, (h2 k hk).2, b0, b1, ?_, ?_, chirp_numerator_zero n⟩
  · exact Int.emod_eq_emod_iff_emod_sub_eq_zero.mpr (Int.emod_eq_zero_of_dvd b2)
  · intro hne
    unfold chirp_numerator at hne ⊢
    split at hne
    · next h => exact ⟨h.1, h.2, by rw [if_pos h]⟩
    · exact absurd rfl hne

/-- C10 (amended) at `n = 8`, `k = 4`, with the recording collaborator. -/
theorem bluestein_sequence_numerator_witness :
    ∃ w, bluestein_sequence 2 numerator_trig 8 (fun _ => 0) = some w ∧ w (2 * 4) = 2 * 8 :=
  let ⟨w, h1, h2, _⟩ := bluestein_sequence_numerator 2 numerator_trig 8 4 (fun _ => 0)
    (by decide) (by decide) (by decide) (by decide)
  ⟨w, h1, by rw [h2]; decide⟩

/-! ## Applicability -/

theorem is_prime_iff (n : Int) : is_prime n = true ↔ ∃ q : Nat, q.Prime ∧ n = q := by
  unfold is_prime
  rw [decide_eq_true_iff]
  constructor
  · intro h
    refine ⟨n.toNat, h, ?_⟩
    have : 0 < n.toNat := h.pos
    omega
  · rintro ⟨q, hq, rfl⟩
    simpa using hq

/-- C5: `applicable` returns true if and only if the problem is a complex DFT problem,
its size tensor has rank exactly 1, its vector tensor has rank 0, its length
`sz.dims[0].n` is prime and the planner does not have NO_UGLY set; so it returns
false for the lengths 4, 9 and 15, for a rank other than 1, for a nonzero vector
rank and whenever NO_UGLY is set. (It is a function of its arguments: no effects.) -/
theorem applicable_iff {K : Type} (p_ : problem) (plnr : planner K) :
    (applicable p_ plnr = true ↔
      ∃ p : problem_dft, p_ = problem.dft p ∧ p.sz.rnk = 1 ∧ p.vecsz.rnk = 0 ∧
        (∃ q : Nat, q.Prime ∧ (p.sz.dim 0).n = q) ∧ plnr.no_ugly = false) ∧
    (∀ p : problem_dft, p_ = problem.dft p →
      ((p.sz.dim 0).n = 4 ∨ (p.sz.dim 0).n = 9 ∨ (p.sz.dim 0).n = 15) →
      applicable p_ plnr = false) ∧
    (∀ p : problem_dft, p_ = problem.dft p → p.sz.rnk ≠ 1 → applicable p_ plnr = false) ∧
    (∀ p : problem_dft, p_ = problem.dft p → p.vecsz.rnk ≠ 0 → applicable p_ plnr = false) ∧
    (plnr.no_ugly = true → applicable p_ plnr = false) ∧
    (p_ = problem.other → applicable p_ plnr = false) := by
  have main : applicable p_ plnr = true ↔
      ∃ p : problem_dft, p_ = problem.dft p ∧ p.sz.rnk = 1 ∧ p.vecsz.rnk = 0 ∧
        (∃ q : Nat, q.Prime ∧ (p.sz.dim 0).n = q) ∧ plnr.no_ugly = false := by
    cases p_ with
    | other => simp [applicable, applicable0]
    | dft p =>
      simp only [applicable, applicable0, problem.dft.injEq, exists_eq_left']
      rw [← is_prime_iff]
      cases plnr.no_ugly <;> simp [and_assoc]
  have neg : ∀ {b : Bool}, ¬ (b = true) → b = false := by intro b; cases b <;> simp
  refine ⟨main, ?_, ?_, ?_, ?_, ?_⟩
  · rintro p rfl h
    apply neg
    rw [main]
    rintro ⟨p', hp', -, -, ⟨q, hq, hn⟩, -⟩
    cases hp'
    rcases h with h | h | h <;> rw [h] at hn
    · have : q = 4 := by omega
      subst this; norm_num at hq
    · have : q = 9 := by omega
      subst this; norm_num at hq
    · have : q = 15 := by omega
      subst this; norm_num at hq
  · rintro p rfl h
    apply neg
    rw [main]
    rintro ⟨p', hp', h1, -⟩
    cases hp'
    exact h h1
  · rintro p rfl h
    apply neg
    rw [main]
    rintro ⟨p', hp', -, h1, -⟩
    cases hp'
    exact h h1
  · intro h
    simp [applicable, h]
  · rintro rfl
    simp [applicable, applicable0]

/-! ## Plan factory -/

theorem nada_none_none {K : Type} :
    nada (K := K) none none = [Event.ifree Obj.buf] := rfl

theorem nada_some_none {K : Type} (cldf : plan_dft K) :
    nada (some cldf) none = [Event.ifree Obj.buf, Event.plan_destroy Child.cldf] := rfl

theorem pow2_atleast_returns (fuel : Nat) (x : Int) (hf : 31 ≤ fuel) (hx : x ≤ 2 ^ 30) :
    ∃ e : Nat, pow2_atleast fuel x = some (2 ^ e) ∧ x ≤ 2 ^ e ∧ e ≤ 30 := by
  obtain ⟨e, he, hle, h30, -⟩ := pow2_atleast_loop_spec x hx fuel 0 (by omega) (by omega)
    (by intro e' he'; omega)
  exact ⟨e, by simpa [pow2_atleast] using he, hle, h30⟩

/-- For a length up to `2^28` the convolution size is at most `2^29`, and the
allocator grants `2*nb` reals. -/
theorem pow2_atleast_malloc_ok (fuel : Nat) (n nb : Int) (hn : 1 ≤ n) (hn2 : n ≤ 268435456)
    (h : pow2_atleast fuel (2 * n - 1) = some nb) :
    2 * n - 1 ≤ nb ∧ nb ≤ 536870912 ∧ malloc_ok nb = true := by
  obtain ⟨e, he, hle, -, hmin⟩ := pow2_atleast_pow fuel _ nb h
  have he29 : e ≤ 29 := by
    by_contra hcon
    have h1 := hmin 29 (by omega)
    norm_num at h1
    omega
  have hp : (2:Int) ^ e ≤ 2 ^ 29 := pow_le_pow_right₀ (by norm_num) he29
  have hp0 : (0:Int) < 2 ^ e := by positivity
  norm_num at hp
  rw [he]
  exact ⟨hle, hp, (malloc_ok_iff _).mpr ⟨by omega, by omega⟩⟩

/-- C6: `mkplan` returns the null plan exactly when the problem is not applicable, or
the forward sub-plan request fails, or the inverse sub-plan request fails (a request
is made once `nb` is computed and the buffer is granted); and on every path where a
sub-plan request fails the buffer was allocated once and freed exactly once, and each
child was destroyed as often as it was successfully obtained, which is at most once
(the trace is spelled out for both paths). For lengths up to `2^28`, where the buffer
of `2*nb` reals is granted, and fuel for 31 loop tests `mkplan` does return. -/
theorem mkplan_failure_clean {K : Type} (fuel : Nat) (p_ : problem) (plnr : planner K) :
    ((∃ tr, mkplan fuel p_ plnr = some (tr, none)) ↔
      (applicable p_ plnr = false ∨
        ∃ (p : problem_dft) (nb : Int), p_ = problem.dft p ∧
          pow2_atleast fuel (wrap32 (wrap32 (2 * (p.sz.dim 0).n) - 1)) = some nb ∧
          malloc_ok nb = true ∧
          (plnr.mkplan_d (forward_problem nb) = none ∨
            plnr.mkplan_d (backward_problem nb) = none))) ∧
    (∀ tr, mkplan fuel p_ plnr = some (tr, none) → applicable p_ plnr = true →
      (tr = [Event.malloc Obj.buf, Event.mkplan_d Child.cldf false, Event.ifree Obj.buf] ∨
        tr = [Event.malloc Obj.buf, Event.mkplan_d Child.cldf true,
          Event.mkplan_d Child.cldb false, Event.ifree Obj.buf,
          Event.plan_destroy Child.cldf]) ∧
      tr.count (Event.malloc Obj.buf) = 1 ∧ tr.count (Event.ifree Obj.buf) = 1 ∧
      ∀ c : Child, tr.count (Event.plan_destroy c) = tr.count (Event.mkplan_d c true) ∧
        tr.count (Event.plan_destroy c) ≤ 1) ∧
    (31 ≤ fuel → (∀ p : problem_dft, p_ = problem.dft p → (p.sz.dim 0).n ≤ 268435456) →
      ∃ r, mkplan fuel p_ plnr = some r) := by
  have hret : 31 ≤ fuel → (∀ p : problem_dft, p_ = problem.dft p → (p.sz.dim 0).n ≤ 268435456) →
      ∃ r, mkplan fuel p_ plnr = some r := by
    intro hf hlen
    by_cases happ : applicable p_ plnr = true
    swap
    · exact ⟨([], none), by simp [mkplan, happ]⟩
    cases p_ with
    | other => exact ⟨([], none), by simp [mkplan]⟩
    | dft p =>
      have hn := hlen p rfl
      have hprime : is_prime (p.sz.dim 0).n = true := by
        by_contra hcon
        simp [applicable, applicable0, hcon] at happ
      obtain ⟨q, hq, hnq⟩ := (is_prime_iff _).mp hprime
      have hq2 := hq.two_le
      have hx : wrap32 (wrap32 (2 * (p.sz.dim 0).n) - 1) = 2 * (p.sz.dim 0).n - 1 := by
        rw [wrap32_eq_self (2 * (p.sz.dim 0).n) (by omega) (by omega),
          wrap32_eq_self _ (by omega) (by omega)]
      obtain ⟨e, he, -, -⟩ := pow2_atleast_returns fuel (2 * (p.sz.dim 0).n - 1) hf
        (by norm_num; omega)
      have hok := (pow2_atleast_malloc_ok fuel _ _ (by omega) hn he).2.2
      simp only [mkplan, happ, hx, he, hok, Bool.not_true, Bool.false_eq_true, if_false]
      cases plnr.mkplan_d (forward_problem (2 ^ e)) with
      | none => exact ⟨_, rfl⟩
      | some cldf =>
        cases plnr.mkplan_d (backward_problem (2 ^ e)) with
        | none => exact ⟨_, rfl⟩
        | some cldb => exact ⟨_, rfl⟩
  refine (fun ⟨a, b⟩ => ⟨a, b, hret⟩ : _ ∧ _ → _) ?_
  by_cases happ : applicable p_ plnr = true
  swap
  · have hf : applicable p_ plnr = false := by
      cases h : applicable p_ plnr
      · rfl
      · exact absurd h happ
    refine ⟨?_, ?_⟩
    · simp [mkplan, hf]
    · intro tr _ h
      exact absurd h happ
  cases p_ with
  | other => simp [applicable, applicable0] at happ
  | dft p =>
    cases hpow : pow2_atleast fuel (wrap32 (wrap32 (2 * (p.sz.dim 0).n) - 1)) with
    | none => simp [mkplan, happ, hpow]
    | some nb =>
      cases hok : malloc_ok nb with
      | false => simp [mkplan, happ, hpow, hok]
      | true =>
        cases hfw : plnr.mkplan_d (forward_problem nb) with
        | none =>
          refine ⟨?_, ?_⟩
          · simp [mkplan, happ, hpow, hok, hfw]
          · intro tr htr _
            simp only [mkplan, happ, hpow, hok, hfw, Bool.not_true, Bool.false_eq_true,
              if_false, Option.some.injEq, Prod.mk.injEq, and_true, nada_none_none,
              List.cons_append, List.nil_append] at htr
            subst htr
            refine ⟨Or.inl rfl, by decide, by decide, ?_⟩
            intro c
            cases c <;> decide
        | some cldf =>
          cases hbw : plnr.mkplan_d (backward_problem nb) with
          | none =>
            refine ⟨?_, ?_⟩
            · simp [mkplan, happ, hpow, hok, hfw, hbw]
            · intro tr htr _
              simp only [mkplan, happ, hpow, hok, hfw, hbw, Bool.not_true,
                Bool.false_eq_true, if_false, Option.some.injEq, Prod.mk.injEq, and_true,
                nada_some_none, List.cons_append, List.nil_append] at htr
              subst htr
              refine ⟨Or.inr rfl, by decide, by decide, ?_⟩
              intro c
              cases c <;> decide
          | some cldb =>
            refine ⟨?_, ?_⟩
            · simp [mkplan, happ, hpow, hok, hfw, hbw]
            · intro tr htr
              simp [mkplan, happ, hpow, hok, hfw, hbw] at htr

/-! ## Lifecycle -/

theorem mktwiddle_some {K : Type} [Field K] (fuel : Nat) (T : trig K) (p : P K)
    (w0 W0 : Nat → K) (hf : 2 ≤ fuel) (hn : 1 ≤ p.n) (hn2 : p.n ≤ 536870912)
    (hnb : malloc_ok p.nb = true) :
    ∃ w, bluestein_sequence fuel T p.n w0 = some w ∧
      mktwiddle fuel T p w0 W0 = Outcome.done { p with
        w := some w,
        W := some (child_apply p.cldf p.nb.toNat (mktwiddle_fill T p.n p.nb w W0)) } := by
  obtain ⟨w, hw, -⟩ := bluestein_sequence_spec fuel T p.n hf (by omega) hn2 w0
  have hok : malloc_ok p.n = true := (malloc_ok_iff _).mpr ⟨by omega, by omega⟩
  exact ⟨w, hw, by simp [mktwiddle, hw, hok, hnb]⟩

theorem mktwiddle_done {K : Type} [Field K] (fuel : Nat) (T : trig K) (p p1 : P K)
    (w0 W0 : Nat → K) (h : mktwiddle fuel T p w0 W0 = Outcome.done p1) :
    malloc_ok p.n = true ∧ malloc_ok p.nb = true ∧
      ∃ w, bluestein_sequence fuel T p.n w0 = some w ∧
        p1 = { p with
          w := some w,
          W := some (child_apply p.cldf p.nb.toNat (mktwiddle_fill T p.n p.nb w W0)) } := by
  unfold mktwiddle at h
  cases hn : malloc_ok p.n with
  | false => simp [hn] at h
  | true =>
    cases hnb : malloc_ok p.nb with
    | false => simp [hn, hnb] at h
    | true =>
      cases hb : bluestein_sequence fuel T p.n w0 with
      | none => simp [hn, hnb, hb] at h
      | some w =>
        simp only [hn, hnb, hb, Bool.not_true, Bool.false_eq_true, if_false,
          Outcome.done.injEq] at h
        exact ⟨rfl, rfl, w, rfl, h.symm⟩

theorem mktwiddle_fields {K : Type} [Field K] (fuel : Nat) (T : trig K) (p p1 : P K)
    (w0 W0 : Nat → K) (h : mktwiddle fuel T p w0 W0 = Outcome.done p1) :
    p1.w.isSome = true ∧ p1.W.isSome = true ∧ p1.n = p.n ∧ p1.nb = p.nb ∧
      p1.cldf = p.cldf ∧ p1.cldb = p.cldb ∧ p1.is = p.is ∧ p1.os = p.os := by
  obtain ⟨-, -, w, -, h1⟩ := mktwiddle_done fuel T p p1 w0 W0 h
  subst h1
  simp

theorem mktwiddle_not_assert {K : Type} [Field K] (fuel : Nat) (T : trig K) (p : P K)
    (w0 W0 : Nat → K) : mktwiddle fuel T p w0 W0 ≠ Outcome.assert_failed := by
  unfold mktwiddle
  cases malloc_ok p.n <;> cases malloc_ok p.nb <;>
    cases bluestein_sequence fuel T p.n w0 <;> simp

theorem mktwiddle_not_null {K : Type} [Field K] (fuel : Nat) (T : trig K) (p : P K)
    (w0 W0 : Nat → K) : mktwiddle fuel T p w0 W0 ≠ Outcome.null_deref := by
  unfold mktwiddle
  cases malloc_ok p.n <;> cases malloc_ok p.nb <;>
    cases bluestein_sequence fuel T p.n w0 <;> simp

theorem awake_wake {K : Type} [Field K] (fuel : Nat) (T : trig K) (ego : P K)
    (w0 W0 : Nat → K) (hw : ego.w = none) :
    (awake fuel T ego 1 w0 W0).2 = mktwiddle fuel T ego w0 W0 := by
  cases hn : malloc_ok ego.n with
  | false => simp [awake, hw, hn, mktwiddle]
  | true => simp [awake, hw, hn]

theorem awake_assert_iff {K : Type} [Field K] (fuel : Nat) (T : trig K) (ego : P K)
    (flg : Int) (w0 W0 : Nat → K) :
    (awake fuel T ego flg w0 W0).2 = Outcome.assert_failed ↔ flg ≠ 0 ∧ ego.w.isSome = true := by
  unfold awake
  by_cases hflg : flg = 0
  · simp [hflg]
  · by_cases hw : ego.w.isSome = true
    · simp [hflg, hw]
    · have hne := mktwiddle_not_assert fuel T ego w0 W0
      cases hn : malloc_ok ego.n <;> simp [hflg, hw, hn, hne]

theorem awake_sleep {K : Type} [Field K] (fuel : Nat) (T : trig K) (ego : P K)
    (w0 W0 : Nat → K) :
    (awake fuel T ego 0 w0 W0).2 = Outcome.done { ego with w := none, W := none } := by
  simp [awake]

theorem run_append {K : Type} [Field K] (fuel : Nat) (T : trig K) (ops1 ops2 : List (Op K)) :
    ∀ (ego s : P K), run fuel T ego ops1 = Outcome.done s →
      run fuel T ego (ops1 ++ ops2) = run fuel T s ops2 := by
  induction ops1 with
  | nil =>
    intro ego s h
    simp only [run, Outcome.done.injEq] at h
    subst h
    rfl
  | cons op ops ih =>
    intro ego s h
    simp only [run, List.cons_append] at h ⊢
    cases hstep : step fuel T ego op with
    | done ego1 =>
      rw [hstep] at h
      exact ih ego1 s h
    | assert_failed => rw [hstep] at h; exact absurd h (by simp)
    | out_of_fuel => rw [hstep] at h; exact absurd h (by simp)
    | null_deref => rw [hstep] at h; exact absurd h (by simp)
    | alloc_failed => rw [hstep] at h; exact absurd h (by simp)

theorem mkplan_fresh {K : Type} (fuel : Nat) (p_ : problem) (plnr : planner K)
    (tr : List Event) (ego0 : P K) (h : mkplan fuel p_ plnr = some (tr, some ego0)) :
    ego0.w = none ∧ ego0.W = none ∧ (∃ q : Nat, q.Prime ∧ ego0.n = q) ∧
      pow2_atleast fuel (wrap32 (wrap32 (2 * ego0.n) - 1)) = some ego0.nb := by
  by_cases happ : applicable p_ plnr = true
  swap
  · simp [mkplan, happ] at h
  cases p_ with
  | other => simp [mkplan] at h
  | dft p =>
    have hprime : is_prime (p.sz.dim 0).n = true := by
      by_contra hcon
      simp [applicable, applicable0, hcon] at happ
    cases hpow : pow2_atleast fuel (wrap32 (wrap32 (2 * (p.sz.dim 0).n) - 1)) with
    | none => simp [mkplan, happ, hpow] at h
    | some nb =>
      cases hok : malloc_ok nb with
      | false => simp [mkplan, happ, hpow, hok] at h
      | true =>
        cases hfw : plnr.mkplan_d (forward_problem nb) with
        | none => simp [mkplan, happ, hpow, hok, hfw] at h
        | some cldf =>
          cases hbw : plnr.mkplan_d (backward_problem nb) with
          | none => simp [mkplan, happ, hpow, hok, hfw, hbw] at h
          | some cldb =>
            simp only [mkplan, happ, hpow, hok, hfw, hbw, Bool.not_true, Bool.false_eq_true,
              if_false, Option.some.injEq, Prod.mk.injEq] at h
            obtain ⟨-, h⟩ := h
            subst h
            exact ⟨rfl, rfl, (is_prime_iff _).mp hprime, hpow⟩

theorem mkplan_fresh_ok {K : Type} (fuel : Nat) (p_ : problem) (plnr : planner K)
    (tr : List Event) (ego0 : P K) (h : mkplan fuel p_ plnr = some (tr, some ego0)) :
    malloc_ok ego0.nb = true := by
  by_cases happ : applicable p_ plnr = true
  swap
  · simp [mkplan, happ] at h
  cases p_ with
  | other => simp [mkplan] at h
  | dft p =>
    cases hpow : pow2_atleast fuel (wrap32 (wrap32 (2 * (p.sz.dim 0).n) - 1)) with
    | none => simp [mkplan, happ, hpow] at h
    | some nb =>
      cases hok : malloc_ok nb with
      | false => simp [mkplan, happ, hpow, hok] at h
      | true =>
        cases hfw : plnr.mkplan_d (forward_problem nb) with
        | none => simp [mkplan, happ, hpow, hok, hfw] at h
        | some cldf =>
          cases hbw : plnr.mkplan_d (backward_problem nb) with
          | none => simp [mkplan, happ, hpow, hok, hfw, hbw] at h
          | some cldb =>
            simp only [mkplan, happ, hpow, hok, hfw, hbw, Bool.not_true, Bool.false_eq_true,
              if_false, Option.some.injEq, Prod.mk.injEq] at h
            obtain ⟨-, h⟩ := h
            subst h
            exact hok

/-- A plan built by `mkplan` for a length `n` with representable `2n`: `n ≤ 2^28`
and `2n - 1 ≤ nb ≤ 2^29`. -/
theorem mkplan_fresh_bounds {K : Type} (fuel : Nat) (p_ : problem) (plnr : planner K)
    (tr : List Event) (ego0 : P K) (h : mkplan fuel p_ plnr = some (tr, some ego0))
    (hrep : ego0.n ≤ 1073741823) :
    2 ≤ ego0.n ∧ ego0.n ≤ 268435456 ∧ 2 * ego0.n - 1 ≤ ego0.nb ∧ ego0.nb ≤ 536870912 := by
  obtain ⟨-, -, ⟨q, hq, hn⟩, hpow⟩ := mkplan_fresh fuel p_ plnr tr ego0 h
  have hok := (malloc_ok_iff _).mp (mkplan_fresh_ok fuel p_ plnr tr ego0 h)
  have hq2 := hq.two_le
  have e1 : wrap32 (2 * ego0.n) = 2 * ego0.n := by rw [wrap32_eq_self] <;> omega
  have e2 : wrap32 (2 * ego0.n - 1) = 2 * ego0.n - 1 := by rw [wrap32_eq_self] <;> omega
  rw [e1, e2] at hpow
  obtain ⟨e, he, hle, -, hmin⟩ := pow2_atleast_pow fuel _ _ hpow
  have he29 : e ≤ 29 := by
    by_contra hcon
    have hp : (2:Int) ^ 30 ≤ 2 ^ e := pow_le_pow_right₀ (by norm_num) (by omega)
    norm_num at hp
    omega
  have hp : (2:Int) ^ e ≤ 2 ^ 29 := pow_le_pow_right₀ (by norm_num) he29
  norm_num at hp
  rw [he] at hok ⊢
  refine ⟨by omega, by omega, hle, hp⟩

/-- The alternating sequence from a sleeping plan: after an even number of calls the
plan is the initial one, after an odd number it is awake. -/
theorem run_alternating {K : Type} [Field K] (fuel : Nat) (T : trig K) (ego0 : P K)
    (g : Nat → (Nat → K) × (Nat → K)) (hf : 2 ≤ fuel) (hn : 1 ≤ ego0.n)
    (hn2 : ego0.n ≤ 536870912) (hnb : malloc_ok ego0.nb = true)
    (hw : ego0.w = none) (hW : ego0.W = none) :
    ∀ m : Nat, ∃ s, run fuel T ego0 (alternating g m) = Outcome.done s ∧
      (m % 2 = 0 → s = ego0) ∧
      (m % 2 = 1 →
        mktwiddle fuel T ego0 (g (m - 1)).1 (g (m - 1)).2 = Outcome.done s) := by
  intro m
  induction m with
  | zero => exact ⟨ego0, rfl, fun _ => rfl, fun h => by omega⟩
  | succ m ih =>
    obtain ⟨s, hs, heven, hodd⟩ := ih
    rw [alternating, run_append fuel T _ _ ego0 s hs]
    rcases Nat.mod_two_eq_zero_or_one m with hm | hm
    · have hs0 := heven hm
      subst hs0
      obtain ⟨w, -, hmk⟩ := mktwiddle_some fuel T s (g m).1 (g m).2 hf hn hn2 hnb
      refine ⟨_, ?_, fun h => by omega, fun _ => by simpa using hmk⟩
      simp only [run, step, hm, if_true]
      rw [awake_wake fuel T s _ _ hw, hmk]
    · have hmk := hodd hm
      refine ⟨ego0, ?_, fun _ => rfl, fun h => by omega⟩
      have hfs : (if m % 2 = 0 then (1:Int) else 0) = 0 := by simp [hm]
      simp only [run, step, hfs]
      rw [awake_sleep]
      simp only
      obtain ⟨-, -, w, -, hs1⟩ := mktwiddle_done fuel T ego0 s _ _ hmk
      subst hs1
      cases ego0
      simp at hw hW
      simp [hw, hW]

theorem run_append_full {K : Type} [Field K] (fuel : Nat) (T : trig K)
    (ops1 ops2 : List (Op K)) :
    ∀ (ego : P K), run fuel T ego (ops1 ++ ops2) =
      match run fuel T ego ops1 with
      | Outcome.done s => run fuel T s ops2
      | Outcome.assert_failed => Outcome.assert_failed
      | Outcome.out_of_fuel => Outcome.out_of_fuel
      | Outcome.null_deref => Outcome.null_deref
      | Outcome.alloc_failed => Outcome.alloc_failed := by
  induction ops1 with
  | nil => intro ego; rfl
  | cons op ops ih =>
    intro ego
    simp only [run, List.cons_append]
    cases hstep : step fuel T ego op with
    | done ego1 => exact ih ego1
    | assert_failed => rfl
    | out_of_fuel => rfl
    | null_deref => rfl
    | alloc_failed => rfl

/-- From a sleeping plan the alternating sequence never hits the assertion: it ends
asleep after an even number of calls, awake after an odd number, or a wake ran out
of fuel or was refused an array. -/
theorem run_alternating_no_assert {K : Type} [Field K] (fuel : Nat) (T : trig K) (ego0 : P K)
    (g : Nat → (Nat → K) × (Nat → K)) (hw : ego0.w = none) :
    ∀ m : Nat, (∃ s, run fuel T ego0 (alternating g m) = Outcome.done s ∧
        (m % 2 = 0 → s.w = none) ∧ (m % 2 = 1 → s.w.isSome = true)) ∨
      run fuel T ego0 (alternating g m) = Outcome.out_of_fuel ∨
      run fuel T ego0 (alternating g m) = Outcome.alloc_failed := by
  intro m
  induction m with
  | zero => exact Or.inl ⟨ego0, rfl, fun _ => hw, fun h => by omega⟩
  | succ m ih =>
    rw [alternating, run_append_full]
    rcases ih with ⟨s, hs, heven, hodd⟩ | h | h
    · rw [hs]
      rcases Nat.mod_two_eq_zero_or_one m with hm | hm
      · simp only [run, step, hm, if_true]
        rw [awake_wake fuel T s _ _ (heven hm)]
        have hne := mktwiddle_not_assert fuel T s (g m).1 (g m).2
        cases hmk : mktwiddle fuel T s (g m).1 (g m).2 with
        | done s1 =>
          exact Or.inl ⟨s1, rfl, fun h => by omega,
            fun _ => (mktwiddle_fields fuel T s s1 _ _ hmk).1⟩
        | assert_failed => exact absurd hmk hne
        | out_of_fuel => exact Or.inr (Or.inl rfl)
        | null_deref => exact absurd hmk (mktwiddle_not_null fuel T s (g m).1 (g m).2)
        | alloc_failed => exact Or.inr (Or.inr rfl)
      · have hfs : (if m % 2 = 0 then (1:Int) else 0) = 0 := by simp [hm]
        simp only [run, step, hfs]
        rw [awake_sleep]
        exact Or.inl ⟨_, rfl, fun _ => rfl, fun h => by omega⟩
    · rw [h]
      exact Or.inr (Or.inl rfl)
    · rw [h]
      exact Or.inr (Or.inr rfl)

/-- C7 (amended): for a plan freshly built by `mkplan`, (1) when `2n` is representable
for its length `n` (`n ≤ 2^30 - 1`), with fuel for two tests of the inner reduction
loop, every alternating sequence wake, sleep, wake, sleep, ... of any length succeeds
at every step; (2) whatever the fuel and length, no call of such a sequence hits the
assertion `A(!ego->w)`; (3) a wake that follows a wake with no sleep in between hits
the assertion; and (4) for any plan, `awake(plan, 1)` hits the assertion if and only
if the chirp sequence `w` is present when it is called. -/
theorem awake_lifecycle {K : Type} [Field K] (fuel fuel2 : Nat) (T : trig K) (p_ : problem)
    (plnr : planner K) (tr : List Event) (ego0 : P K)
    (hmk : mkplan fuel p_ plnr = some (tr, some ego0)) :
    (2 ≤ fuel2 → ego0.n ≤ 1073741823 →
      ∀ (m : Nat) (g : Nat → (Nat → K) × (Nat → K)),
        ∃ s, run fuel2 T ego0 (alternating g m) = Outcome.done s) ∧
    (∀ (m : Nat) (g : Nat → (Nat → K) × (Nat → K)),
      run fuel2 T ego0 (alternating g m) ≠ Outcome.assert_failed) ∧
    (∀ (m : Nat) (g : Nat → (Nat → K) × (Nat → K)) (w0 W0 : Nat → K) (s : P K),
      run fuel2 T ego0 (alternating g (2 * m + 1)) = Outcome.done s →
      run fuel2 T ego0 (alternating g (2 * m + 1) ++ [Op.awake 1 w0 W0])
        = Outcome.assert_failed) ∧
    (∀ (f : Nat) (ego : P K) (w0 W0 : Nat → K),
      (awake f T ego 1 w0 W0).2 = Outcome.assert_failed ↔ ego.w.isSome = true) := by
  obtain ⟨hw, hW, -, -⟩ := mkplan_fresh fuel p_ plnr tr ego0 hmk
  have hok := mkplan_fresh_ok fuel p_ plnr tr ego0 hmk
  refine ⟨?_, ?_, ?_, ?_⟩
  · intro hf hlen m g
    obtain ⟨h2, h28, -, -⟩ := mkplan_fresh_bounds fuel p_ plnr tr ego0 hmk hlen
    obtain ⟨s, hs, -⟩ := run_alternating fuel2 T ego0 g hf (by omega) (by omega) hok hw hW m
    exact ⟨s, hs⟩
  · intro m g
    rcases run_alternating_no_assert fuel2 T ego0 g hw m with ⟨s, hs, -⟩ | h | h
    · rw [hs]; simp
    · rw [h]; simp
    · rw [h]; simp
  · intro m g w0 W0 s hs
    rw [run_append fuel2 T _ _ ego0 s hs]
    rcases run_alternating_no_assert fuel2 T ego0 g hw (2 * m + 1) with
      ⟨s1, hs1, -, hodd⟩ | h | h
    · rw [hs] at hs1
      simp only [Outcome.done.injEq] at hs1
      subst hs1
      have := (awake_assert_iff fuel2 T s 1 w0 W0).mpr ⟨by norm_num, hodd (by omega)⟩
      simp only [run, step, this]
    · rw [hs] at h
      exact absurd h (by simp)
    · rw [hs] at h
      exact absurd h (by simp)
  · intro f ego w0 W0
    rw [awake_assert_iff]
    simp

theorem sample_mkplan (K : Type) :
    mkplan 31 (sample_problem 3) (sample_planner K) =
      some ([Event.malloc Obj.buf, Event.mkplan_d Child.cldf true,
          Event.mkplan_d Child.cldb true, Event.ifree Obj.buf],
        some (sample_plan K)) := by
  have hp : is_prime 3 = true := by
    rw [is_prime_iff]; exact ⟨3, by norm_num, rfl⟩
  have happ : applicable (sample_problem 3) (sample_planner K) = true := by
    simp [applicable, applicable0, sample_problem, sample_planner, mktensor_1d, tensor.dim, hp]
  have hpow : pow2_atleast 31 (wrap32 (wrap32 6 - 1)) = some 8 := by decide
  have hok : malloc_ok 8 = true := by decide
  simp only [mkplan, happ, Bool.not_true, Bool.false_eq_true, if_false]
  simp [sample_problem, mktensor_1d, tensor.dim, hpow, hok, sample_planner, sample_plan]

/-- C7 (amended) on the sample problem of length 3: the plan is built, four
alternating calls succeed, and a wake of the plan with `w` present hits the
assertion. -/
theorem awake_lifecycle_witness :
    ∃ (tr : List Event) (ego0 : P ℚ),
      mkplan 31 (sample_problem 3) (sample_planner ℚ) = some (tr, some ego0) ∧
      (∃ s, run 2 (sample_trig ℚ) ego0
        (alternating (fun _ => (fun _ => 0, fun _ => 0)) 4) = Outcome.done s) ∧
      (awake 2 (sample_trig ℚ)
        { ego0 with w := some (fun _ => 0) } 1 (fun _ => 0) (fun _ => 0)).2
          = Outcome.assert_failed :=
  ⟨_, _, sample_mkplan ℚ,
    (awake_lifecycle 31 2 (sample_trig ℚ) (sample_problem 3)
      (sample_planner ℚ) _ _ (sample_mkplan ℚ)).1 (le_refl 2) (by decide) 4 _,
    ((awake_lifecycle 31 2 (sample_trig ℚ) (sample_problem 3)
      (sample_planner ℚ) _ _ (sample_mkplan ℚ)).2.2.2 2 _ _ _).mpr rfl⟩

theorem step_presence {K : Type} [Field K] (fuel : Nat) (T : trig K) (ego s : P K) (op : Op K)
    (hinv : ego.w = none ↔ ego.W = none) (h : step fuel T ego op = Outcome.done s) :
    (s.w = none ↔ s.W = none) := by
  cases op with
  | awake flg w0 W0 =>
    simp only [step, awake] at h
    by_cases hflg : flg = 0
    · simp only [hflg, ne_eq, not_true_eq_false, if_false, Outcome.done.injEq] at h
      subst h
      simp
    · by_cases hw : ego.w.isSome = true
      · simp [hflg, hw] at h
      · cases hn : malloc_ok ego.n with
        | false => simp [hflg, hw, hn] at h
        | true =>
          simp only [hflg, hw, hn, ne_eq, not_false_eq_true, if_true, if_false,
            Bool.false_eq_true, Bool.not_true] at h
          obtain ⟨h1, h2, -⟩ := mktwiddle_fields fuel T ego s w0 W0 h
          constructor
          · intro h; rw [h] at h1; simp at h1
          · intro h; rw [h] at h2; simp at h2
  | apply mem ri ii ro io b0 =>
    simp only [step] at h
    cases happ : apply ego mem ri ii ro io b0 with
    | none =>
      rw [happ] at h
      cases hok : malloc_ok ego.nb <;> simp [hok] at h
    | some m =>
      rw [happ] at h
      simp only [Outcome.done.injEq] at h
      subst h
      exact hinv

theorem run_presence {K : Type} [Field K] (fuel : Nat) (T : trig K) (ops : List (Op K)) :
    ∀ (ego s : P K), (ego.w = none ↔ ego.W = none) → run fuel T ego ops = Outcome.done s →
      (s.w = none ↔ s.W = none) := by
  induction ops with
  | nil =>
    intro ego s hinv h
    simp only [run, Outcome.done.injEq] at h
    subst h
    exact hinv
  | cons op ops ih =>
    intro ego s hinv h
    simp only [run] at h
    cases hstep : step fuel T ego op with
    | done ego1 =>
      rw [hstep] at h
      exact ih ego1 s (step_presence fuel T ego ego1 op hinv hstep) h
    | assert_failed => rw [hstep] at h; exact absurd h (by simp)
    | out_of_fuel => rw [hstep] at h; exact absurd h (by simp)
    | null_deref => rw [hstep] at h; exact absurd h (by simp)
    | alloc_failed => rw [hstep] at h; exact absurd h (by simp)

/-- C9: in the plan returned by a successful `mkplan` both `w` and `W` are absent, and
every state reached from it by a sequence of successful `awake(plan, 1)`,
`awake(plan, 0)` and `apply` calls has `w` absent if and only if `W` is absent. -/
theorem presence_invariant {K : Type} [Field K] (fuel : Nat) (p_ : problem)
    (plnr : planner K) (tr : List Event) (ego0 : P K)
    (hmk : mkplan fuel p_ plnr = some (tr, some ego0)) :
    (ego0.w = none ∧ ego0.W = none) ∧
    ∀ (fuel2 : Nat) (T : trig K) (ops : List (Op K)) (s : P K),
      run fuel2 T ego0 ops = Outcome.done s → (s.w = none ↔ s.W = none) := by
  obtain ⟨hw, hW, -⟩ := mkplan_fresh fuel p_ plnr tr ego0 hmk
  refine ⟨⟨hw, hW⟩, ?_⟩
  intro fuel2 T ops s h
  exact run_presence fuel2 T ops ego0 s (by simp [hw, hW]) h

/-- C9 on the sample problem of length 3. -/
theorem presence_invariant_witness :
    ∃ (tr : List Event) (ego0 : P ℚ),
      mkplan 31 (sample_problem 3) (sample_planner ℚ) = some (tr, some ego0) ∧
      ego0.w = none ∧ ego0.W = none :=
  ⟨_, _, sample_mkplan ℚ,
    (presence_invariant 31 (sample_problem 3) (sample_planner ℚ) _ _ (sample_mkplan ℚ)).1⟩

/-! ## Loops over interleaved arrays -/

theorem for_range_inplace {K : Type} (F G : Nat → K → K → K) (lo : Nat) :
    ∀ (hi : Nat) (b : Nat → K) (m : Nat),
      for_range (fun i b => store (store b (2 * i) (F i (b (2 * i)) (b (2 * i + 1))))
          (2 * i + 1) (G i (b (2 * i)) (b (2 * i + 1)))) lo hi b m =
        if 2 * lo ≤ m ∧ m < 2 * hi then
          (if m % 2 = 0 then F (m / 2) (b (2 * (m / 2))) (b (2 * (m / 2) + 1))
           else G (m / 2) (b (2 * (m / 2))) (b (2 * (m / 2) + 1)))
        else b m := by
  intro hi
  induction hi with
  | zero => intro b m; simp [for_range]
  | succ hi ih =>
    intro b m
    rw [for_range]
    by_cases hlo : lo ≤ hi
    · rw [if_pos hlo]
      have ihm := ih b m
      have e0 := ih b (2 * hi)
      have e1 := ih b (2 * hi + 1)
      rw [if_neg (by omega)] at e0 e1
      generalize for_range _ lo hi b = X at ihm e0 e1 ⊢
      rw [e0, e1]
      by_cases h1 : m = 2 * hi + 1
      · subst h1
        rw [store_same, if_pos (by omega), if_neg (by omega)]
        have : (2 * hi + 1) / 2 = hi := by omega
        rw [this]
      · rw [store_other _ _ _ _ h1]
        by_cases h0 : m = 2 * hi
        · subst h0
          rw [store_same, if_pos (by omega), if_pos (by omega)]
          have : (2 * hi) / 2 = hi := by omega
          rw [this]
        · rw [store_other _ _ _ _ h0, ihm]
          by_cases hc : 2 * lo ≤ m ∧ m < 2 * hi
          · rw [if_pos hc, if_pos (show 2 * lo ≤ m ∧ m < 2 * (hi + 1) by omega)]
          · rw [if_neg hc, if_neg (show ¬ (2 * lo ≤ m ∧ m < 2 * (hi + 1)) by omega)]
    · rw [if_neg hlo, if_neg (by omega)]

theorem for_range_zero_fill {K : Type} [Zero K] (lo : Nat) :
    ∀ (hi : Nat) (b : Nat → K) (m : Nat),
      for_range (fun i b => store (store b (2 * i + 1) 0) (2 * i) 0) lo hi b m =
        if 2 * lo ≤ m ∧ m < 2 * hi then 0 else b m := by
  intro hi
  induction hi with
  | zero => intro b m; simp [for_range]
  | succ hi ih =>
    intro b m
    rw [for_range]
    by_cases hlo : lo ≤ hi
    · rw [if_pos hlo]
      have ihm := ih b m
      generalize for_range _ lo hi b = X at ihm ⊢
      by_cases h0 : m = 2 * hi
      · subst h0
        rw [store_same, if_pos (by omega)]
      · rw [store_other _ _ _ _ h0]
        by_cases h1 : m = 2 * hi + 1
        · subst h1
          rw [store_same, if_pos (by omega)]
        · rw [store_other _ _ _ _ h1, ihm]
          by_cases hc : 2 * lo ≤ m ∧ m < 2 * hi
          · rw [if_pos hc, if_pos (by omega)]
          · rw [if_neg hc, if_neg (by omega)]
    · rw [if_neg hlo, if_neg (by omega)]

theorem for_range_rel {σ : Type} (R : σ → σ → Prop) (body body1 : Nat → σ → σ) (lo : Nat)
    (hi : Nat)
    (hstep : ∀ i s s1, lo ≤ i → i < hi → R s s1 → R (body i s) (body1 i s1)) :
    ∀ (s s1 : σ), R s s1 → R (for_range body lo hi s) (for_range body1 lo hi s1) := by
  induction hi with
  | zero => intro s s1 h; exact h
  | succ hi ih =>
    intro s s1 h
    rw [for_range, for_range]
    by_cases hlo : lo ≤ hi
    · rw [if_pos hlo, if_pos hlo]
      exact hstep hi _ _ hlo (by omega)
        (ih (fun i s s1 h1 h2 => hstep i s s1 h1 (by omega)) s s1 h)
    · rw [if_neg hlo, if_neg hlo]
      exact h

theorem for_range_congr {σ : Type} (body body1 : Nat → σ → σ) (lo hi : Nat)
    (h : ∀ i s, lo ≤ i → i < hi → body i s = body1 i s) (s : σ) :
    for_range body lo hi s = for_range body1 lo hi s :=
  for_range_rel (fun a b => a = b) body body1 lo hi
    (fun i s s1 h1 h2 e => by rw [e]; exact h i s1 h1 h2) s s rfl

theorem store_agree {K : Type} (N : Nat) (a a1 : Nat → K) (i : Nat) (v v1 : K)
    (h : ∀ m, m < N → a m = a1 m) (hv : v = v1) :
    ∀ m, m < N → store a i v m = store a1 i v1 m := by
  intro m hm
  by_cases hmi : m = i
  · subst hmi; rw [store_same, store_same, hv]
  · rw [store_other _ _ _ _ hmi, store_other _ _ _ _ hmi, h m hm]

theorem apply_load_eq {K : Type} [Field K] (ego : P K) (w : Nat → K) (mem : Int → K)
    (ri ii : Int) (b0 : Nat → K) (m : Nat) :
    apply_load ego w mem ri ii b0 m =
      if m < 2 * ego.n.toNat then
        (if m % 2 = 0 then
          mem (ri + wrap32 ((m / 2 : Nat) * ego.is)) * w (2 * (m / 2))
            + mem (ii + wrap32 ((m / 2 : Nat) * ego.is)) * w (2 * (m / 2) + 1)
         else
          mem (ii + wrap32 ((m / 2 : Nat) * ego.is)) * w (2 * (m / 2))
            - mem (ri + wrap32 ((m / 2 : Nat) * ego.is)) * w (2 * (m / 2) + 1))
      else if m < 2 * ego.nb.toNat then 0 else b0 m := by
  unfold apply_load
  simp only []
  rw [for_range_zero_fill]
  have h := for_range_inplace
    (fun i _ _ => mem (ri + wrap32 ((i : Nat) * ego.is)) * w (2 * i)
      + mem (ii + wrap32 ((i : Nat) * ego.is)) * w (2 * i + 1))
    (fun i _ _ => mem (ii + wrap32 ((i : Nat) * ego.is)) * w (2 * i)
      - mem (ri + wrap32 ((i : Nat) * ego.is)) * w (2 * i + 1)) 0 ego.n.toNat b0 m
  simp only [] at h
  rw [h]
  by_cases h1 : m < 2 * ego.n.toNat
  · rw [if_neg (by omega), if_pos (by omega), if_pos h1]
  · rw [if_neg h1]
    by_cases h2 : m < 2 * ego.nb.toNat
    · rw [if_pos (by omega), if_pos h2]
    · rw [if_neg (by omega), if_neg (by omega), if_neg h2]

theorem apply_pointwise_eq {K : Type} [Field K] (nb : Nat) (W b : Nat → K) (m : Nat) :
    apply_pointwise nb W b m =
      if m < 2 * nb then
        (if m % 2 = 0 then
          b (2 * (m / 2)) * W (2 * (m / 2)) - b (2 * (m / 2) + 1) * W (2 * (m / 2) + 1)
         else
          b (2 * (m / 2) + 1) * W (2 * (m / 2)) + b (2 * (m / 2)) * W (2 * (m / 2) + 1))
      else b m := by
  unfold apply_pointwise
  have h := for_range_inplace
    (fun i xr xi => xr * W (2 * i) - xi * W (2 * i + 1))
    (fun i xr xi => xi * W (2 * i) + xr * W (2 * i + 1)) 0 nb b m
  simp only [] at h
  rw [h]
  by_cases h1 : m < 2 * nb
  · rw [if_pos (by omega), if_pos h1]
  · rw [if_neg (by omega), if_neg h1]

/-! ## Wake is reproducible -/

theorem bluestein_sequence_loop_indep {K : Type} (fuel : Nat) (T : trig K) (n2 : Int) :
    ∀ (todo k : Nat) (ksq : Int) (w w1 : Nat → K),
      (bluestein_sequence_loop fuel T n2 todo k ksq w = none ∧
        bluestein_sequence_loop fuel T n2 todo k ksq w1 = none) ∨
      ∃ v v1, bluestein_sequence_loop fuel T n2 todo k ksq w = some v ∧
        bluestein_sequence_loop fuel T n2 todo k ksq w1 = some v1 ∧
        (∀ m, 2 * k ≤ m → m < 2 * (k + todo) → v m = v1 m) ∧
        (∀ m, m < 2 * k → v m = w m ∧ v1 m = w1 m) := by
  intro todo
  induction todo with
  | zero =>
    intro k ksq w w1
    exact Or.inr ⟨w, w1, rfl, rfl, fun m h1 h2 => by omega, fun m _ => ⟨rfl, rfl⟩⟩
  | succ todo ih =>
    intro k ksq w w1
    rw [bluestein_sequence_loop, bluestein_sequence_loop]
    cases hnext : next_ksq fuel n2 k ksq with
    | none => exact Or.inl ⟨rfl, rfl⟩
    | some ksq1 =>
      simp only []
      rcases ih (k + 1) ksq1
        (store (store w (2 * k) (T.cos2pi ksq1 n2)) (2 * k + 1) (T.sin2pi ksq1 n2))
        (store (store w1 (2 * k) (T.cos2pi ksq1 n2)) (2 * k + 1) (T.sin2pi ksq1 n2))
        with ⟨h1, h2⟩ | ⟨v, v1, h1, h2, hag, hlow⟩
      · exact Or.inl ⟨h1, h2⟩
      · refine Or.inr ⟨v, v1, h1, h2, ?_, ?_⟩
        · intro m hm1 hm2
          by_cases hm : 2 * (k + 1) ≤ m
          · exact hag m hm (by omega)
          · obtain ⟨e1, e2⟩ := hlow m (by omega)
            rw [e1, e2]
            by_cases hm3 : m = 2 * k + 1
            · subst hm3; rw [store_same, store_same]
            · rw [store_other _ _ _ _ hm3, store_other _ _ _ _ hm3]
              have : m = 2 * k := by omega
              subst this
              rw [store_same, store_same]
        · intro m hm
          obtain ⟨e1, e2⟩ := hlow m (by omega)
          rw [e1, e2, store_other _ _ _ _ (by omega), store_other _ _ _ _ (by omega),
            store_other _ _ _ _ (by omega), store_other _ _ _ _ (by omega)]
          exact ⟨rfl, rfl⟩

theorem bluestein_sequence_indep {K : Type} (fuel : Nat) (T : trig K) (n : Int)
    (w0 w1 v0 v1 : Nat → K) (h0 : bluestein_sequence fuel T n w0 = some v0)
    (h1 : bluestein_sequence fuel T n w1 = some v1) :
    ∀ m, m < 2 * n.toNat → v0 m = v1 m := by
  unfold bluestein_sequence at h0 h1
  rcases bluestein_sequence_loop_indep fuel T (wrap32 (2 * n)) n.toNat 0 1 w0 w1
    with ⟨e0, -⟩ | ⟨u0, u1, e0, e1, hag, -⟩
  · rw [e0] at h0; exact absurd h0 (by simp)
  · rw [e0] at h0; rw [e1] at h1
    simp only [Option.some.injEq] at h0 h1
    subst h0; subst h1
    intro m hm
    exact hag m (by omega) (by omega)

theorem mktwiddle_fill_agree {K : Type} [Field K] (T : trig K) (n nb : Int)
    (w w1 W0 W1 : Nat → K) (hn : n ≤ 1073741823) (hnb : nb ≤ 1073741823)
    (hw : ∀ m, m < 2 * n.toNat → w m = w1 m) :
    ∀ m, m < 2 * nb.toNat →
      mktwiddle_fill T n nb w W0 m = mktwiddle_fill T n nb w1 W1 m := by
  have hre : ∀ i : Nat, i < n.toNat → w (pos_re i) = w1 (pos_re i) := by
    intro i hi
    rw [pos_re_eq i (by omega)]
    exact hw _ (by omega)
  have him : ∀ i : Nat, i < n.toNat → w (pos_im i) = w1 (pos_im i) := by
    intro i hi
    rw [pos_im_eq i (by omega)]
    exact hw _ (by omega)
  have hzero : ∀ (i : Nat) (s : Nat → K), 0 ≤ i → i < nb.toNat →
      store (store s (pos_im i) 0) (pos_re i) 0 = store (store s (2 * i + 1) 0) (2 * i) 0 := by
    intro i s _ hi
    rw [pos_re_eq i (by omega), pos_im_eq i (by omega)]
  unfold mktwiddle_fill
  apply for_range_rel (fun a a1 : Nat → K => ∀ m, m < 2 * nb.toNat → a m = a1 m)
  · intro i s s1 _ hi h
    rw [hre i hi, him i hi]
    exact store_agree _ _ _ _ _ _ (store_agree _ _ _ _ _ _ h rfl) rfl
  apply for_range_rel (fun a a1 : Nat → K => ∀ m, m < 2 * nb.toNat → a m = a1 m)
  · intro i s s1 _ hi h
    rw [hre i hi, him i hi]
    exact store_agree _ _ _ _ _ _ (store_agree _ _ _ _ _ _ h rfl) rfl
  intro m hm
  rw [for_range_congr _ _ 0 nb.toNat hzero W0, for_range_congr _ _ 0 nb.toNat hzero W1,
    for_range_zero_fill, for_range_zero_fill, if_pos (by omega), if_pos (by omega)]

theorem child_apply_agree {K : Type} [Zero K] (cld : plan_dft K) (nb N : Nat)
    (hN : 2 * nb ≤ N) (a a1 : Nat → K) (h : ∀ m, m < N → a m = a1 m) :
    ∀ m, m < N → child_apply cld nb a m = child_apply cld nb a1 m := by
  have e1 : (fun j => if j < nb then a (2 * j) else 0)
      = (fun j => if j < nb then a1 (2 * j) else 0) := by
    funext j
    by_cases hj : j < nb
    · rw [if_pos hj, if_pos hj, h _ (by omega)]
    · rw [if_neg hj, if_neg hj]
  have e2 : (fun j => if j < nb then a (2 * j + 1) else 0)
      = (fun j => if j < nb then a1 (2 * j + 1) else 0) := by
    funext j
    by_cases hj : j < nb
    · rw [if_pos hj, if_pos hj, h _ (by omega)]
    · rw [if_neg hj, if_neg hj]
  intro m hm
  unfold child_apply
  simp only [e1, e2, h m hm]

theorem child_apply_swapped_agree {K : Type} [Zero K] (cld : plan_dft K) (nb N : Nat)
    (hN : 2 * nb ≤ N) (a a1 : Nat → K) (h : ∀ m, m < N → a m = a1 m) :
    ∀ m, m < N → child_apply_swapped cld nb a m = child_apply_swapped cld nb a1 m := by
  have e1 : (fun j => if j < nb then a (2 * j) else 0)
      = (fun j => if j < nb then a1 (2 * j) else 0) := by
    funext j
    by_cases hj : j < nb
    · rw [if_pos hj, if_pos hj, h _ (by omega)]
    · rw [if_neg hj, if_neg hj]
  have e2 : (fun j => if j < nb then a (2 * j + 1) else 0)
      = (fun j => if j < nb then a1 (2 * j + 1) else 0) := by
    funext j
    by_cases hj : j < nb
    · rw [if_pos hj, if_pos hj, h _ (by omega)]
    · rw [if_neg hj, if_neg hj]
  intro m hm
  unfold child_apply_swapped
  simp only [e1, e2, h m hm]

theorem apply_pointwise_agree {K : Type} [Field K] (nb N : Nat) (hN : 2 * nb ≤ N)
    (W W1 b b1 : Nat → K) (hW : ∀ m, m < 2 * nb → W m = W1 m)
    (h : ∀ m, m < N → b m = b1 m) :
    ∀ m, m < N → apply_pointwise nb W b m = apply_pointwise nb W1 b1 m := by
  intro m hm
  rw [apply_pointwise_eq, apply_pointwise_eq]
  by_cases h1 : m < 2 * nb
  · rw [if_pos h1, if_pos h1, h (2 * (m / 2)) (by omega), h (2 * (m / 2) + 1) (by omega),
      hW (2 * (m / 2)) (by omega), hW (2 * (m / 2) + 1) (by omega)]
  · rw [if_neg h1, if_neg h1, h m hm]

theorem apply_load_agree {K : Type} [Field K] (ego : P K) (w w1 : Nat → K) (mem : Int → K)
    (ri ii : Int) (b0 b1 : Nat → K) (hw : ∀ m, m < 2 * ego.n.toNat → w m = w1 m) :
    ∀ m, m < 2 * max ego.n.toNat ego.nb.toNat →
      apply_load ego w mem ri ii b0 m = apply_load ego w1 mem ri ii b1 m := by
  intro m hm
  rw [apply_load_eq, apply_load_eq]
  by_cases h1 : m < 2 * ego.n.toNat
  · rw [if_pos h1, if_pos h1, hw (2 * (m / 2)) (by omega), hw (2 * (m / 2) + 1) (by omega)]
  · rw [if_neg h1, if_neg h1]
    have : m < 2 * ego.nb.toNat := by
      rcases le_total ego.n.toNat ego.nb.toNat with h | h
      · rw [max_eq_right h] at hm; exact hm
      · rw [max_eq_left h] at hm; omega
    rw [if_pos this, if_pos this]

theorem apply_unload_agree {K : Type} [Field K] (ego : P K) (w w1 b b1 : Nat → K)
    (mem : Int → K) (ro io : Int) (hw : ∀ m, m < 2 * ego.n.toNat → w m = w1 m)
    (hb : ∀ m, m < 2 * ego.n.toNat → b m = b1 m) :
    apply_unload ego w b mem ro io = apply_unload ego w1 b1 mem ro io := by
  unfold apply_unload
  apply for_range_rel (fun a a1 : Int → K => a = a1)
  · intro i s s1 _ hi h
    simp only []
    rw [h, hw (2 * i) (by omega), hw (2 * i + 1) (by omega), hb (2 * i) (by omega),
      hb (2 * i + 1) (by omega)]
  · rfl

/-- `apply` reads only the first `2n` entries of `w` and the first `2 nb` of `W`, and
its result does not depend on the initial content of the scratch array. -/
theorem apply_agree {K : Type} [Field K] (ego : P K) (w w1 W W1 : Nat → K)
    (hw : ∀ m, m < 2 * ego.n.toNat → w m = w1 m)
    (hW : ∀ m, m < 2 * ego.nb.toNat → W m = W1 m)
    (mem : Int → K) (ri ii ro io : Int) (b0 b1 : Nat → K) :
    apply { ego with w := some w, W := some W } mem ri ii ro io b0 =
      apply { ego with w := some w1, W := some W1 } mem ri ii ro io b1 := by
  unfold apply
  cases hok : malloc_ok ego.nb with
  | false => simp [hok]
  | true =>
    simp only [hok, Bool.not_true, Bool.false_eq_true, if_false, Option.some.injEq]
    have hle : 2 * ego.n.toNat ≤ 2 * max ego.n.toNat ego.nb.toNat := by
      have := le_max_left ego.n.toNat ego.nb.toNat
      omega
    have hle2 : 2 * ego.nb.toNat ≤ 2 * max ego.n.toNat ego.nb.toNat := by
      have := le_max_right ego.n.toNat ego.nb.toNat
      omega
    have key := child_apply_swapped_agree ego.cldb ego.nb.toNat _ hle2 _ _
      (apply_pointwise_agree ego.nb.toNat _ hle2 W W1 _ _ hW
        (child_apply_agree ego.cldf ego.nb.toNat _ hle2 _ _
          (apply_load_agree ego w w1 mem ri ii b0 b1 hw)))
    exact apply_unload_agree ego w w1 _ _ mem ro io hw (fun m hm => key m (by omega))

theorem run_alternating_state {K : Type} [Field K] (fuel : Nat) (T : trig K) (ego0 : P K)
    (g : Nat → (Nat → K) × (Nat → K)) (hw : ego0.w = none) (hW : ego0.W = none) :
    ∀ (m : Nat) (s : P K), run fuel T ego0 (alternating g m) = Outcome.done s →
      (m % 2 = 0 → s = ego0) ∧
      (m % 2 = 1 →
        mktwiddle fuel T ego0 (g (m - 1)).1 (g (m - 1)).2 = Outcome.done s) := by
  intro m
  induction m with
  | zero =>
    intro s h
    simp only [alternating, run, Outcome.done.injEq] at h
    exact ⟨fun _ => h.symm, fun h => by omega⟩
  | succ m ih =>
    intro s h
    rw [alternating, run_append_full] at h
    cases hprev : run fuel T ego0 (alternating g m) with
    | done s0 =>
      rw [hprev] at h
      obtain ⟨heven, hodd⟩ := ih s0 hprev
      rcases Nat.mod_two_eq_zero_or_one m with hm | hm
      · have hs0 := heven hm
        subst hs0
        simp only [run, step, hm, if_true] at h
        rw [awake_wake fuel T s0 _ _ hw] at h
        refine ⟨fun h => by omega, fun _ => ?_⟩
        cases hmk : mktwiddle fuel T s0 (g m).1 (g m).2 with
        | done s1 =>
          rw [hmk] at h
          simp only [Outcome.done.injEq] at h
          subst h
          simpa using hmk
        | assert_failed => rw [hmk] at h; exact absurd h (by simp)
        | out_of_fuel => rw [hmk] at h; exact absurd h (by simp)
        | null_deref => rw [hmk] at h; exact absurd h (by simp)
        | alloc_failed => rw [hmk] at h; exact absurd h (by simp)
      · have hmk := hodd hm
        have hfs : (if m % 2 = 0 then (1:Int) else 0) = 0 := by simp [hm]
        simp only [run, step, hfs] at h
        rw [awake_sleep] at h
        simp only [Outcome.done.injEq] at h
        refine ⟨fun _ => ?_, fun h => by omega⟩
        obtain ⟨-, -, e1, e2, e3, e4, e5, e6⟩ := mktwiddle_fields fuel T ego0 s0 _ _ hmk
        subst h
        cases ego0
        cases s0
        simp only at hw hW e1 e2 e3 e4 e5 e6
        simp [hw, hW, e1, e2, e3, e4, e5, e6]
    | assert_failed => rw [hprev] at h; exact absurd h (by simp)
    | out_of_fuel => rw [hprev] at h; exact absurd h (by simp)
    | null_deref => rw [hprev] at h; exact absurd h (by simp)
    | alloc_failed => rw [hprev] at h; exact absurd h (by simp)

/-- C8: for a sleeping plan, the wake that follows `m` wake/sleep pairs produces a
chirp sequence `w` and a kernel `W` equal, entry by entry (`2n` and `2 nb` reals), to
those of the first wake, whatever the initial contents of the allocated arrays; and
`apply` on the same memory and pointers then gives the same result in both awake
phases. (A child plan is a function of the `nb` complex entries it is given.) -/
theorem wake_reproducible {K : Type} [Field K] (fuel : Nat) (T : trig K) (ego0 : P K)
    (g : Nat → (Nat → K) × (Nat → K)) (m : Nat) (s1 sm : P K)
    (hw : ego0.w = none) (hW : ego0.W = none)
    (h1 : run fuel T ego0 (alternating g 1) = Outcome.done s1)
    (hm : run fuel T ego0 (alternating g (2 * m + 1)) = Outcome.done sm) :
    ∃ w1 W1 wm Wm, s1.w = some w1 ∧ s1.W = some W1 ∧ sm.w = some wm ∧ sm.W = some Wm ∧
      (∀ k, k < 2 * ego0.n.toNat → wm k = w1 k) ∧
      (∀ k, k < 2 * ego0.nb.toNat → Wm k = W1 k) ∧
      ∀ (mem : Int → K) (ri ii ro io : Int) (b0 b1 : Nat → K),
        apply sm mem ri ii ro io b1 = apply s1 mem ri ii ro io b0 := by
  have k1 := (run_alternating_state fuel T ego0 g hw hW 1 s1 h1).2 (by norm_num)
  have km := (run_alternating_state fuel T ego0 g hw hW (2 * m + 1) sm hm).2 (by omega)
  simp only [Nat.sub_self, Nat.add_sub_cancel] at k1 km
  obtain ⟨hokn, hoknb, w1, hb1, k1⟩ := mktwiddle_done fuel T ego0 s1 _ _ k1
  obtain ⟨-, -, wm, hbm, km⟩ := mktwiddle_done fuel T ego0 sm _ _ km
  have hn := ((malloc_ok_iff _).mp hokn).2
  have hnb := ((malloc_ok_iff _).mp hoknb).2
  have hwag := bluestein_sequence_indep fuel T ego0.n _ _ wm w1 hbm hb1
  have hWag : ∀ k, k < 2 * ego0.nb.toNat →
      child_apply ego0.cldf ego0.nb.toNat
          (mktwiddle_fill T ego0.n ego0.nb wm (g (2 * m)).2) k =
        child_apply ego0.cldf ego0.nb.toNat
          (mktwiddle_fill T ego0.n ego0.nb w1 (g 0).2) k :=
    child_apply_agree ego0.cldf ego0.nb.toNat _ (le_refl _) _ _
      (mktwiddle_fill_agree T ego0.n ego0.nb wm w1 _ _ hn hnb hwag)
  subst k1
  subst km
  refine ⟨_, _, _, _, rfl, rfl, rfl, rfl, hwag, hWag, ?_⟩
  intro mem ri ii ro io b0 b1
  exact apply_agree ego0 _ _ _ _ hwag hWag mem ri ii ro io b1 b0

/-- C8 on the sample plan of length 3: the first wake and the wake after one
wake/sleep pair, with different initial array contents, give the same `apply`. -/
theorem wake_reproducible_witness :
    ∃ s1 sm : P ℚ,
      run 2 (sample_trig ℚ) (sample_plan ℚ)
        (alternating (fun i => (fun _ => (i : ℚ), fun _ => (i : ℚ) + 1)) 1) = Outcome.done s1 ∧
      run 2 (sample_trig ℚ) (sample_plan ℚ)
        (alternating (fun i => (fun _ => (i : ℚ), fun _ => (i : ℚ) + 1)) 3) = Outcome.done sm ∧
      ∀ (mem : Int → ℚ) (ri ii ro io : Int) (b0 b1 : Nat → ℚ),
        apply sm mem ri ii ro io b1 = apply s1 mem ri ii ro io b0 :=
  let ⟨s1, h1, _⟩ := run_alternating 2 (sample_trig ℚ) (sample_plan ℚ)
    (fun i => (fun _ => (i : ℚ), fun _ => (i : ℚ) + 1)) (le_refl 2) (by decide) (by decide)
    (by decide) rfl rfl 1
  let ⟨sm, hm, _⟩ := run_alternating 2 (sample_trig ℚ) (sample_plan ℚ)
    (fun i => (fun _ => (i : ℚ), fun _ => (i : ℚ) + 1)) (le_refl 2) (by decide) (by decide)
    (by decide) rfl rfl 3
  let ⟨_, _, _, _, _, _, _, _, _, _, h⟩ := wake_reproducible 2 (sample_trig ℚ)
    (sample_plan ℚ) (fun i => (fun _ => (i : ℚ), fun _ => (i : ℚ) + 1)) 1 s1 sm rfl rfl h1 hm
  ⟨s1, sm, h1, hm, h⟩

/-! ## The output loop -/

theorem poke_same {K : Type} (mem : Int → K) (a : Int) (v : K) : poke mem a v a = v := by
  simp [poke]

theorem poke_other {K : Type} (mem : Int → K) (a c : Int) (v : K) (h : c ≠ a) :
    poke mem a v c = mem c := by
  simp [poke, h]

theorem for_range_poke_frame {K : Type} (A B : Nat → Int) (f g : Nat → K) :
    ∀ (hi : Nat) (mem : Int → K) (a : Int), (∀ i, i < hi → a ≠ A i ∧ a ≠ B i) →
      for_range (fun i m => poke (poke m (A i) (f i)) (B i) (g i)) 0 hi mem a = mem a := by
  intro hi
  induction hi with
  | zero => intro mem a _; rfl
  | succ hi ih =>
    intro mem a ha
    rw [for_range, if_pos (Nat.zero_le _)]
    rw [poke_other _ _ _ _ (ha hi (by omega)).2, poke_other _ _ _ _ (ha hi (by omega)).1]
    exact ih mem a (fun i hi' => ha i (by omega))

theorem for_range_poke_at {K : Type} (A B : Nat → Int) (f g : Nat → K) :
    ∀ (hi : Nat) (mem : Int → K),
      (∀ i, i < hi → ∀ j, j < hi → A i ≠ B j ∧ (i ≠ j → A i ≠ A j ∧ B i ≠ B j)) →
      ∀ k, k < hi →
        for_range (fun i m => poke (poke m (A i) (f i)) (B i) (g i)) 0 hi mem (A k) = f k ∧
        for_range (fun i m => poke (poke m (A i) (f i)) (B i) (g i)) 0 hi mem (B k) = g k := by
  intro hi
  induction hi with
  | zero => intro mem _ k hk; omega
  | succ hi ih =>
    intro mem hd k hk
    rw [for_range, if_pos (Nat.zero_le _)]
    by_cases hkh : k = hi
    · subst hkh
      have h1 := (hd k (by omega) k (by omega)).1
      rw [poke_same, poke_other _ _ _ _ h1, poke_same]
      exact ⟨rfl, rfl⟩
    · have hk' : k < hi := by omega
      obtain ⟨hAB, hne⟩ := hd k hk hi (by omega)
      obtain ⟨hAA, hBB⟩ := hne hkh
      have hBA : B k ≠ A hi := fun h => (hd hi (by omega) k hk).1 h.symm
      rw [poke_other _ _ _ _ hAB, poke_other _ _ _ _ hAA, poke_other _ _ _ _ hBB,
        poke_other _ _ _ _ hBA]
      exact ih mem (fun i hi' j hj => hd i (by omega) j (by omega)) k hk'

theorem apply_unload_at {K : Type} [Field K] (ego : P K) (w b : Nat → K) (mem : Int → K)
    (ro io : Int) (hd : outputs_distinct ego ro io) (k : Nat) (hk : k < ego.n.toNat) :
    apply_unload ego w b mem ro io (ro + wrap32 (k * ego.os)) =
        b (2 * k) * w (2 * k) + b (2 * k + 1) * w (2 * k + 1) ∧
      apply_unload ego w b mem ro io (io + wrap32 (k * ego.os)) =
        b (2 * k + 1) * w (2 * k) - b (2 * k) * w (2 * k + 1) := by
  unfold apply_unload
  refine for_range_poke_at (fun i : Nat => ro + wrap32 (i * ego.os))
    (fun i : Nat => io + wrap32 (i * ego.os))
    (fun i => b (2 * i) * w (2 * i) + b (2 * i + 1) * w (2 * i + 1))
    (fun i => b (2 * i + 1) * w (2 * i) - b (2 * i) * w (2 * i + 1)) ego.n.toNat mem ?_ k hk
  intro i hi j hj
  obtain ⟨h1, h2⟩ := hd i hi j hj
  refine ⟨h1, fun hne => ⟨?_, ?_⟩⟩
  · intro h; exact h2 hne (add_left_cancel h)
  · intro h; exact h2 hne (add_left_cancel h)

theorem apply_unload_frame {K : Type} [Field K] (ego : P K) (w b : Nat → K) (mem : Int → K)
    (ro io : Int) (a : Int)
    (ha : ∀ i : Nat, i < ego.n.toNat →
      a ≠ ro + wrap32 (i * ego.os) ∧ a ≠ io + wrap32 (i * ego.os)) :
    apply_unload ego w b mem ro io a = mem a := by
  unfold apply_unload
  exact for_range_poke_frame (fun i : Nat => ro + wrap32 (i * ego.os))
    (fun i : Nat => io + wrap32 (i * ego.os))
    (fun i => b (2 * i) * w (2 * i) + b (2 * i + 1) * w (2 * i + 1))
    (fun i => b (2 * i + 1) * w (2 * i) - b (2 * i) * w (2 * i + 1)) ego.n.toNat mem a ha

/-! ## Linearity of `apply` -/

theorem two_mul_div_two (i : Nat) : 2 * i / 2 = i := by omega

theorem two_mul_add_one_div_two (i : Nat) : (2 * i + 1) / 2 = i := by omega

theorem child_apply_even {K : Type} [Zero K] (cld : plan_dft K) (nb : Nat) (a : Nat → K)
    (i : Nat) (hi : i < nb) :
    child_apply cld nb a (2 * i) =
      (cld.apply (fun j => if j < nb then a (2 * j) else 0)
        (fun j => if j < nb then a (2 * j + 1) else 0)).1 i := by
  simp only [child_apply]
  rw [if_pos (by omega), if_pos (by omega), two_mul_div_two]

theorem child_apply_odd {K : Type} [Zero K] (cld : plan_dft K) (nb : Nat) (a : Nat → K)
    (i : Nat) (hi : i < nb) :
    child_apply cld nb a (2 * i + 1) =
      (cld.apply (fun j => if j < nb then a (2 * j) else 0)
        (fun j => if j < nb then a (2 * j + 1) else 0)).2 i := by
  simp only [child_apply]
  rw [if_pos (by omega), if_neg (by omega), two_mul_add_one_div_two]

theorem child_apply_high {K : Type} [Zero K] (cld : plan_dft K) (nb : Nat) (a : Nat → K)
    (m : Nat) (hm : 2 * nb ≤ m) : child_apply cld nb a m = a m := by
  simp only [child_apply]
  rw [if_neg (by omega)]

theorem child_apply_swapped_even {K : Type} [Zero K] (cld : plan_dft K) (nb : Nat)
    (a : Nat → K) (i : Nat) (hi : i < nb) :
    child_apply_swapped cld nb a (2 * i) =
      (cld.apply (fun j => if j < nb then a (2 * j + 1) else 0)
        (fun j => if j < nb then a (2 * j) else 0)).2 i := by
  simp only [child_apply_swapped]
  rw [if_pos (by omega), if_pos (by omega), two_mul_div_two]

theorem child_apply_swapped_odd {K : Type} [Zero K] (cld : plan_dft K) (nb : Nat)
    (a : Nat → K) (i : Nat) (hi : i < nb) :
    child_apply_swapped cld nb a (2 * i + 1) =
      (cld.apply (fun j => if j < nb then a (2 * j + 1) else 0)
        (fun j => if j < nb then a (2 * j) else 0)).1 i := by
  simp only [child_apply_swapped]
  rw [if_pos (by omega), if_neg (by omega), two_mul_add_one_div_two]

theorem child_apply_swapped_high {K : Type} [Zero K] (cld : plan_dft K) (nb : Nat)
    (a : Nat → K) (m : Nat) (hm : 2 * nb ≤ m) : child_apply_swapped cld nb a m = a m := by
  simp only [child_apply_swapped]
  rw [if_neg (by omega)]

theorem child_apply_combination {K : Type} [Field K] (cld : plan_dft K) (nb N : Nat)
    (hN : nb ≤ N) (hlin : child_linear nb cld) (ar ai cr ci : K) (u v z : Nat → K)
    (h : combination ar ai cr ci N u v z) :
    combination ar ai cr ci N (child_apply cld nb u) (child_apply cld nb v)
      (child_apply cld nb z) := by
  have e1 : (fun j => if j < nb then z (2 * j) else 0) =
      (fun j => ar * (if j < nb then u (2 * j) else 0) - ai * (if j < nb then u (2 * j + 1) else 0)
        + (cr * (if j < nb then v (2 * j) else 0) - ci * (if j < nb then v (2 * j + 1) else 0))) := by
    funext j
    by_cases hj : j < nb
    · simp only [if_pos hj]; exact (h j (by omega)).1
    · simp only [if_neg hj]; ring
  have e2 : (fun j => if j < nb then z (2 * j + 1) else 0) =
      (fun j => ar * (if j < nb then u (2 * j + 1) else 0) + ai * (if j < nb then u (2 * j) else 0)
        + (cr * (if j < nb then v (2 * j + 1) else 0) + ci * (if j < nb then v (2 * j) else 0))) := by
    funext j
    by_cases hj : j < nb
    · simp only [if_pos hj]; exact (h j (by omega)).2
    · simp only [if_neg hj]; ring
  intro i hi
  by_cases hib : i < nb
  · rw [child_apply_even _ _ _ _ hib, child_apply_odd _ _ _ _ hib, child_apply_even _ _ _ _ hib,
      child_apply_odd _ _ _ _ hib, child_apply_even _ _ _ _ hib, child_apply_odd _ _ _ _ hib,
      e1, e2]
    exact hlin ar ai cr ci _ _ _ _ i hib
  · rw [child_apply_high _ _ _ _ (by omega), child_apply_high _ _ _ _ (by omega),
      child_apply_high _ _ _ _ (by omega), child_apply_high _ _ _ _ (by omega),
      child_apply_high _ _ _ _ (by omega), child_apply_high _ _ _ _ (by omega)]
    exact h i hi

theorem child_apply_swapped_combination {K : Type} [Field K] (cld : plan_dft K) (nb N : Nat)
    (hN : nb ≤ N) (hlin : child_linear nb cld) (ar ai cr ci : K) (u v z : Nat → K)
    (h : combination ar ai cr ci N u v z) :
    combination ar ai cr ci N (child_apply_swapped cld nb u) (child_apply_swapped cld nb v)
      (child_apply_swapped cld nb z) := by
  have e1 : (fun j => if j < nb then z (2 * j + 1) else 0) =
      (fun j => ar * (if j < nb then u (2 * j + 1) else 0)
        - (-ai) * (if j < nb then u (2 * j) else 0)
        + (cr * (if j < nb then v (2 * j + 1) else 0)
          - (-ci) * (if j < nb then v (2 * j) else 0))) := by
    funext j
    by_cases hj : j < nb
    · simp only [if_pos hj]; rw [(h j (by omega)).2]; ring
    · simp only [if_neg hj]; ring
  have e2 : (fun j => if j < nb then z (2 * j) else 0) =
      (fun j => ar * (if j < nb then u (2 * j) else 0)
        + (-ai) * (if j < nb then u (2 * j + 1) else 0)
        + (cr * (if j < nb then v (2 * j) else 0)
          + (-ci) * (if j < nb then v (2 * j + 1) else 0))) := by
    funext j
    by_cases hj : j < nb
    · simp only [if_pos hj]; rw [(h j (by omega)).1]; ring
    · simp only [if_neg hj]; ring
  intro i hi
  by_cases hib : i < nb
  · rw [child_apply_swapped_even _ _ _ _ hib, child_apply_swapped_odd _ _ _ _ hib,
      child_apply_swapped_even _ _ _ _ hib, child_apply_swapped_odd _ _ _ _ hib,
      child_apply_swapped_even _ _ _ _ hib, child_apply_swapped_odd _ _ _ _ hib, e1, e2]
    obtain ⟨h1, h2⟩ := hlin ar (-ai) cr (-ci) _ _ _ _ i hib
    rw [h1, h2]
    constructor <;> ring
  · rw [child_apply_swapped_high _ _ _ _ (by omega), child_apply_swapped_high _ _ _ _ (by omega),
      child_apply_swapped_high _ _ _ _ (by omega), child_apply_swapped_high _ _ _ _ (by omega),
      child_apply_swapped_high _ _ _ _ (by omega), child_apply_swapped_high _ _ _ _ (by omega)]
    exact h i hi

theorem apply_pointwise_even {K : Type} [Field K] (nb : Nat) (W b : Nat → K) (i : Nat)
    (hi : i < nb) :
    apply_pointwise nb W b (2 * i) = b (2 * i) * W (2 * i) - b (2 * i + 1) * W (2 * i + 1) := by
  rw [apply_pointwise_eq, if_pos (by omega), if_pos (by omega), two_mul_div_two]

theorem apply_pointwise_odd {K : Type} [Field K] (nb : Nat) (W b : Nat → K) (i : Nat)
    (hi : i < nb) :
    apply_pointwise nb W b (2 * i + 1) =
      b (2 * i + 1) * W (2 * i) + b (2 * i) * W (2 * i + 1) := by
  rw [apply_pointwise_eq, if_pos (by omega), if_neg (by omega), two_mul_add_one_div_two]

theorem apply_pointwise_high {K : Type} [Field K] (nb : Nat) (W b : Nat → K) (m : Nat)
    (hm : 2 * nb ≤ m) : apply_pointwise nb W b m = b m := by
  rw [apply_pointwise_eq, if_neg (by omega)]

theorem apply_pointwise_combination {K : Type} [Field K] (nb N : Nat) (W : Nat → K)
    (ar ai cr ci : K) (u v z : Nat → K) (h : combination ar ai cr ci N u v z) :
    combination ar ai cr ci N (apply_pointwise nb W u) (apply_pointwise nb W v)
      (apply_pointwise nb W z) := by
  intro i hi
  obtain ⟨h1, h2⟩ := h i hi
  by_cases hib : i < nb
  · rw [apply_pointwise_even _ _ _ _ hib, apply_pointwise_odd _ _ _ _ hib,
      apply_pointwise_even _ _ _ _ hib, apply_pointwise_odd _ _ _ _ hib,
      apply_pointwise_even _ _ _ _ hib, apply_pointwise_odd _ _ _ _ hib, h1, h2]
    constructor <;> ring
  · rw [apply_pointwise_high _ _ _ _ (by omega), apply_pointwise_high _ _ _ _ (by omega),
      apply_pointwise_high _ _ _ _ (by omega), apply_pointwise_high _ _ _ _ (by omega),
      apply_pointwise_high _ _ _ _ (by omega), apply_pointwise_high _ _ _ _ (by omega)]
    exact ⟨h1, h2⟩

theorem apply_load_even {K : Type} [Field K] (ego : P K) (w : Nat → K) (mem : Int → K)
    (ri ii : Int) (b0 : Nat → K) (i : Nat) (hi : i < ego.n.toNat) :
    apply_load ego w mem ri ii b0 (2 * i) =
      mem (ri + wrap32 (i * ego.is)) * w (2 * i) + mem (ii + wrap32 (i * ego.is)) * w (2 * i + 1) := by
  rw [apply_load_eq, if_pos (by omega), if_pos (by omega), two_mul_div_two]

theorem apply_load_odd {K : Type} [Field K] (ego : P K) (w : Nat → K) (mem : Int → K)
    (ri ii : Int) (b0 : Nat → K) (i : Nat) (hi : i < ego.n.toNat) :
    apply_load ego w mem ri ii b0 (2 * i + 1) =
      mem (ii + wrap32 (i * ego.is)) * w (2 * i) - mem (ri + wrap32 (i * ego.is)) * w (2 * i + 1) := by
  rw [apply_load_eq, if_pos (by omega), if_neg (by omega), two_mul_add_one_div_two]

theorem apply_load_pad {K : Type} [Field K] (ego : P K) (w : Nat → K) (mem : Int → K)
    (ri ii : Int) (b0 : Nat → K) (m : Nat) (h1 : 2 * ego.n.toNat ≤ m)
    (h2 : m < 2 * ego.nb.toNat) : apply_load ego w mem ri ii b0 m = 0 := by
  rw [apply_load_eq, if_neg (by omega), if_pos h2]

theorem apply_load_combination {K : Type} [Field K] (ego : P K) (w : Nat → K)
    (ar ai cr ci : K) (memx memy memz : Int → K) (ri ii : Int) (bx bv bz : Nat → K)
    (hz : ∀ i : Nat, i < ego.n.toNat →
      memz (ri + wrap32 (i * ego.is)) =
          ar * memx (ri + wrap32 (i * ego.is)) - ai * memx (ii + wrap32 (i * ego.is))
          + (cr * memy (ri + wrap32 (i * ego.is)) - ci * memy (ii + wrap32 (i * ego.is))) ∧
      memz (ii + wrap32 (i * ego.is)) =
          ar * memx (ii + wrap32 (i * ego.is)) + ai * memx (ri + wrap32 (i * ego.is))
          + (cr * memy (ii + wrap32 (i * ego.is)) + ci * memy (ri + wrap32 (i * ego.is)))) :
    combination ar ai cr ci (max ego.n.toNat ego.nb.toNat)
      (apply_load ego w memx ri ii bx) (apply_load ego w memy ri ii bv)
      (apply_load ego w memz ri ii bz) := by
  intro i hi
  by_cases hin : i < ego.n.toNat
  · obtain ⟨h1, h2⟩ := hz i hin
    rw [apply_load_even _ _ _ _ _ _ _ hin, apply_load_odd _ _ _ _ _ _ _ hin,
      apply_load_even _ _ _ _ _ _ _ hin, apply_load_odd _ _ _ _ _ _ _ hin,
      apply_load_even _ _ _ _ _ _ _ hin, apply_load_odd _ _ _ _ _ _ _ hin, h1, h2]
    constructor <;> ring
  · have hnb : i < ego.nb.toNat := by
      rcases le_total ego.n.toNat ego.nb.toNat with h | h
      · rw [max_eq_right h] at hi; exact hi
      · rw [max_eq_left h] at hi; omega
    rw [apply_load_pad _ _ _ _ _ _ _ (by omega) (by omega),
      apply_load_pad _ _ _ _ _ _ _ (by omega) (by omega),
      apply_load_pad _ _ _ _ _ _ _ (by omega) (by omega),
      apply_load_pad _ _ _ _ _ _ _ (by omega) (by omega),
      apply_load_pad _ _ _ _ _ _ _ (by omega) (by omega),
      apply_load_pad _ _ _ _ _ _ _ (by omega) (by omega)]
    constructor <;> ring

/-- C3: for an awake plan (granted its scratch array of `2*nb` reals by the
allocator) whose two child plans are linear maps on complex vectors of length `nb`,
any complex scalars `a = (ar, ai)`, `c = (cr, ci)` and any three
memories whose inputs satisfy `z = a * x + c * y` at the `n` input positions, the
three calls of `apply` return and their outputs satisfy
`apply(z) = a * apply(x) + c * apply(y)` at each of the `n` output positions
(exactly, in any field), the output locations being pairwise different. -/
theorem apply_linear {K : Type} [Field K] (ego : P K) (w W : Nat → K)
    (ar ai cr ci : K) (memx memy memz : Int → K) (ri ii ro io : Int) (bx bv bz : Nat → K)
    (hw : ego.w = some w) (hW : ego.W = some W) (hal : malloc_ok ego.nb = true)
    (hf : child_linear ego.nb.toNat ego.cldf) (hb : child_linear ego.nb.toNat ego.cldb)
    (hz : ∀ i : Nat, i < ego.n.toNat →
      memz (ri + wrap32 (i * ego.is)) =
          ar * memx (ri + wrap32 (i * ego.is)) - ai * memx (ii + wrap32 (i * ego.is))
          + (cr * memy (ri + wrap32 (i * ego.is)) - ci * memy (ii + wrap32 (i * ego.is))) ∧
      memz (ii + wrap32 (i * ego.is)) =
          ar * memx (ii + wrap32 (i * ego.is)) + ai * memx (ri + wrap32 (i * ego.is))
          + (cr * memy (ii + wrap32 (i * ego.is)) + ci * memy (ri + wrap32 (i * ego.is))))
    (hd : outputs_distinct ego ro io) :
    ∃ mx my mz, apply ego memx ri ii ro io bx = some mx ∧
      apply ego memy ri ii ro io bv = some my ∧ apply ego memz ri ii ro io bz = some mz ∧
      ∀ k : Nat, k < ego.n.toNat →
        mz (ro + wrap32 (k * ego.os)) =
            ar * mx (ro + wrap32 (k * ego.os)) - ai * mx (io + wrap32 (k * ego.os))
            + (cr * my (ro + wrap32 (k * ego.os)) - ci * my (io + wrap32 (k * ego.os))) ∧
        mz (io + wrap32 (k * ego.os)) =
            ar * mx (io + wrap32 (k * ego.os)) + ai * mx (ro + wrap32 (k * ego.os))
            + (cr * my (io + wrap32 (k * ego.os)) + ci * my (ro + wrap32 (k * ego.os))) := by
  have hmax : ego.nb.toNat ≤ max ego.n.toNat ego.nb.toNat := le_max_right _ _
  have key := child_apply_swapped_combination ego.cldb ego.nb.toNat _ hmax hb ar ai cr ci _ _ _
    (apply_pointwise_combination ego.nb.toNat _ W ar ai cr ci _ _ _
      (child_apply_combination ego.cldf ego.nb.toNat _ hmax hf ar ai cr ci _ _ _
        (apply_load_combination ego w ar ai cr ci memx memy memz ri ii bx bv bz hz)))
  have ex : ∀ (mem : Int → K) (b0 : Nat → K), apply ego mem ri ii ro io b0 =
      some (apply_unload ego w (child_apply_swapped ego.cldb ego.nb.toNat
        (apply_pointwise ego.nb.toNat W (child_apply ego.cldf ego.nb.toNat
          (apply_load ego w mem ri ii b0)))) mem ro io) := by
    intro mem b0
    simp only [apply, hw, hW, hal, Bool.not_true, Bool.false_eq_true, if_false]
  refine ⟨_, _, _, ex memx bx, ex memy bv, ex memz bz, ?_⟩
  intro k hk
  obtain ⟨k1, k2⟩ := key k (lt_of_lt_of_le hk (le_max_left _ _))
  obtain ⟨x1, x2⟩ := apply_unload_at ego w
    (child_apply_swapped ego.cldb ego.nb.toNat (apply_pointwise ego.nb.toNat W
      (child_apply ego.cldf ego.nb.toNat (apply_load ego w memx ri ii bx)))) memx ro io hd k hk
  obtain ⟨y1, y2⟩ := apply_unload_at ego w
    (child_apply_swapped ego.cldb ego.nb.toNat (apply_pointwise ego.nb.toNat W
      (child_apply ego.cldf ego.nb.toNat (apply_load ego w memy ri ii bv)))) memy ro io hd k hk
  obtain ⟨z1, z2⟩ := apply_unload_at ego w
    (child_apply_swapped ego.cldb ego.nb.toNat (apply_pointwise ego.nb.toNat W
      (child_apply ego.cldf ego.nb.toNat (apply_load ego w memz ri ii bz)))) memz ro io hd k hk
  rw [x1, x2, y1, y2, z1, z2, k1, k2]
  constructor <;> ring

theorem sample_child_linear (nb : Nat) :
    child_linear nb (⟨fun re im => (re, im)⟩ : plan_dft ℚ) := by
  intro ar ai cr ci xr xi yr yi k _
  exact ⟨rfl, rfl⟩

/-- C3 on the awake sample plan of length 3 with `a = 2 + i`, `c = 3`, inputs
`x[j] = (2j, 2j+1)`, `y[j] = (1, 1)` and `z = a * x + c * y` on interleaved arrays. -/
theorem apply_linear_witness :
    ∃ mx my mz : Int → ℚ,
      apply (sample_awake_plan ℚ) (fun a => (a : ℚ)) 0 1 0 1 (fun _ => 0) = some mx ∧
      apply (sample_awake_plan ℚ) (fun _ => 1) 0 1 0 1 (fun _ => 0) = some my ∧
      apply (sample_awake_plan ℚ)
        (fun a => if a % 2 = 0 then 2 * (a : ℚ) - 1 * ((a : ℚ) + 1) + (3 * 1 - 0 * 1)
          else 2 * (a : ℚ) + 1 * ((a : ℚ) - 1) + (3 * 1 + 0 * 1)) 0 1 0 1 (fun _ => 0)
        = some mz ∧
      ∀ k : Nat, k < 3 →
        mz (0 + wrap32 (k * 2)) =
          2 * mx (0 + wrap32 (k * 2)) - 1 * mx (1 + wrap32 (k * 2))
            + (3 * my (0 + wrap32 (k * 2)) - 0 * my (1 + wrap32 (k * 2))) ∧
        mz (1 + wrap32 (k * 2)) =
          2 * mx (1 + wrap32 (k * 2)) + 1 * mx (0 + wrap32 (k * 2))
            + (3 * my (1 + wrap32 (k * 2)) + 0 * my (0 + wrap32 (k * 2))) :=
  apply_linear (sample_awake_plan ℚ) (fun _ => 1) (fun _ => 1) 2 1 3 0
    (fun a => (a : ℚ)) (fun _ => 1)
    (fun a => if a % 2 = 0 then 2 * (a : ℚ) - 1 * ((a : ℚ) + 1) + (3 * 1 - 0 * 1)
      else 2 * (a : ℚ) + 1 * ((a : ℚ) - 1) + (3 * 1 + 0 * 1))
    0 1 0 1 (fun _ => 0) (fun _ => 0) (fun _ => 0) rfl rfl (by decide)
    (sample_child_linear _) (sample_child_linear _)
    (by
      intro i hi
      have hi3 : i < 3 := hi
      interval_cases i <;> simp [sample_awake_plan, sample_plan, wrap32] <;> norm_num)
    (by decide)

/-! ## The kernel before its transform -/

theorem for_range_reflect {K : Type} (f g : Nat → K) (N lo : Nat) :
    ∀ (hi : Nat), hi ≤ N → ∀ (b : Nat → K) (m : Nat),
      for_range (fun i b => store (store b (2 * (N - i)) (f i)) (2 * (N - i) + 1) (g i))
          lo hi b m =
        if N - hi < m / 2 ∧ m / 2 ≤ N - lo then
          (if m % 2 = 0 then f (N - m / 2) else g (N - m / 2))
        else b m := by
  intro hi
  induction hi with
  | zero =>
    intro _ b m
    rw [for_range, if_neg (by omega)]
  | succ hi ih =>
    intro hle b m
    rw [for_range]
    by_cases hlo : lo ≤ hi
    · rw [if_pos hlo]
      have ihm := ih (by omega) b m
      generalize for_range _ lo hi b = X at ihm ⊢
      by_cases h1 : m = 2 * (N - hi) + 1
      · subst h1
        rw [store_same, if_pos (by omega), if_neg (by omega)]
        have : N - (2 * (N - hi) + 1) / 2 = hi := by omega
        rw [this]
      · rw [store_other _ _ _ _ h1]
        by_cases h0 : m = 2 * (N - hi)
        · subst h0
          rw [store_same, if_pos (by omega), if_pos (by omega)]
          have : N - (2 * (N - hi)) / 2 = hi := by omega
          rw [this]
        · rw [store_other _ _ _ _ h0, ihm]
          by_cases hc : N - hi < m / 2 ∧ m / 2 ≤ N - lo
          · rw [if_pos hc, if_pos (show N - (hi + 1) < m / 2 ∧ m / 2 ≤ N - lo by omega)]
          · rw [if_neg hc, if_neg (show ¬ (N - (hi + 1) < m / 2 ∧ m / 2 ≤ N - lo) by omega)]
    · rw [if_neg hlo, if_neg (by omega)]

/-- Layout of the array handed to the forward child by `mktwiddle`. -/
theorem mktwiddle_fill_eq {K : Type} [Field K] (T : trig K) (n nb : Int) (w W0 : Nat → K)
    (hn : 1 ≤ n) (hnb : 2 * n - 1 ≤ nb) (hal : nb ≤ 1073741823) (m : Nat)
    (hm : m < 2 * nb.toNat) :
    mktwiddle_fill T n nb w W0 m =
      if m < 2 * n.toNat then w m * T.recip nb
      else if 2 * (nb.toNat - n.toNat) + 2 ≤ m then
        w (2 * (nb.toNat - m / 2) + m % 2) * T.recip nb
      else 0 := by
  unfold mktwiddle_fill
  have h1 : ∀ (i : Nat) (s : Nat → K), 0 ≤ i → i < nb.toNat →
      store (store s (pos_im i) 0) (pos_re i) 0 = store (store s (2 * i + 1) 0) (2 * i) 0 := by
    intro i s _ hi
    rw [pos_re_eq i (by omega), pos_im_eq i (by omega)]
  have h2 : ∀ (i : Nat) (s : Nat → K), 0 ≤ i → i < n.toNat →
      store (store s (pos_re i) (w (pos_re i) * T.recip nb)) (pos_im i)
          (w (pos_im i) * T.recip nb) =
        store (store s (2 * i) (w (2 * i) * T.recip nb)) (2 * i + 1)
          (w (2 * i + 1) * T.recip nb) := by
    intro i s _ hi
    rw [pos_re_eq i (by omega), pos_im_eq i (by omega)]
  have h3 : ∀ (i : Nat) (s : Nat → K), 1 ≤ i → i < n.toNat →
      store (store s (pos_re (wrap32 (nb - i))) (w (pos_re i) * T.recip nb))
          (pos_im (wrap32 (nb - i))) (w (pos_im i) * T.recip nb) =
        store (store s (2 * (nb.toNat - i)) (w (2 * i) * T.recip nb))
          (2 * (nb.toNat - i) + 1) (w (2 * i + 1) * T.recip nb) := by
    intro i s _ hi
    rw [pos_re_eq i (by omega), pos_im_eq i (by omega), pos_re_sub nb i (by omega) hal,
      pos_im_sub nb i (by omega) hal]
  rw [for_range_congr _ _ 1 n.toNat h3, for_range_congr _ _ 0 n.toNat h2,
    for_range_congr _ _ 0 nb.toNat h1,
    for_range_reflect (fun i => w (2 * i) * T.recip nb)
      (fun i => w (2 * i + 1) * T.recip nb) nb.toNat 1 n.toNat (by omega)]
  have h2 := for_range_inplace (fun i _ _ => w (2 * i) * T.recip nb)
    (fun i _ _ => w (2 * i + 1) * T.recip nb) 0 n.toNat
    (for_range (fun i W => store (store W (2 * i + 1) 0) (2 * i) 0) 0 nb.toNat W0) m
  rw [h2, for_range_zero_fill]
  by_cases c1 : m < 2 * n.toNat
  · rw [if_neg (by omega), if_pos (by omega), if_pos c1]
    rcases Nat.mod_two_eq_zero_or_one m with hp | hp
    · rw [if_pos hp]
      have : 2 * (m / 2) = m := by omega
      rw [this]
    · rw [if_neg (by omega)]
      have : 2 * (m / 2) + 1 = m := by omega
      rw [this]
  · rw [if_neg c1]
    by_cases c2 : 2 * (nb.toNat - n.toNat) + 2 ≤ m
    · rw [if_pos (by omega), if_pos c2]
      rcases Nat.mod_two_eq_zero_or_one m with hp | hp
      · rw [if_pos hp, hp]
        rfl
      · rw [if_neg (by omega), hp]
    · rw [if_neg (by omega), if_neg (by omega), if_pos (by omega), if_neg c2]

/-! ## Exact arithmetic: the stages of `apply` on complex vectors -/

theorem exp_sum_orthogonal (N : Nat) (hN : 0 < N) (d : Int) :
    ∑ k in Finset.range N, Complex.exp (2 * Real.pi * Complex.I * d * k / N) =
      if (N : Int) ∣ d then (N : ℂ) else 0 := by
  have hN0 : (N : ℂ) ≠ 0 := Nat.cast_ne_zero.mpr (by omega)
  have hterm : ∀ k : Nat, Complex.exp (2 * Real.pi * Complex.I * d * k / N) =
      Complex.exp (2 * Real.pi * Complex.I * d / N) ^ k := by
    intro k
    rw [← Complex.exp_nat_mul]
    congr 1
    ring
  simp only [hterm]
  have hqN : Complex.exp (2 * Real.pi * Complex.I * d / N) ^ N = 1 := by
    rw [← Complex.exp_nat_mul]
    have : (N : ℂ) * (2 * Real.pi * Complex.I * d / N) = d * (2 * Real.pi * Complex.I) := by
      field_simp; ring
    rw [this]
    exact Complex.exp_int_mul_two_pi_mul_I d
  split_ifs with hdvd
  · obtain ⟨t, ht⟩ := hdvd
    have hq : Complex.exp (2 * Real.pi * Complex.I * d / N) = 1 := by
      have : (2 * Real.pi * Complex.I * d / N : ℂ) = t * (2 * Real.pi * Complex.I) := by
        rw [ht]; push_cast; field_simp; ring
      rw [this]
      exact Complex.exp_int_mul_two_pi_mul_I t
    simp [hq]
  · have hq : Complex.exp (2 * Real.pi * Complex.I * d / N) ≠ 1 := by
      intro h
      rw [Complex.exp_eq_one_iff] at h
      obtain ⟨t, ht⟩ := h
      apply hdvd
      refine ⟨t, ?_⟩
      have h2 : (2 * Real.pi * Complex.I : ℂ) ≠ 0 := by
        simp [Real.pi_ne_zero, Complex.I_ne_zero]
      have h3 : (d : ℂ) = N * t := by
        field_simp at ht
        have : (2 * Real.pi * Complex.I) * (d : ℂ) = (2 * Real.pi * Complex.I) * (N * t) := by
          linear_combination ht
        exact mul_left_cancel₀ h2 this
      exact_mod_cast h3
    rw [geom_sum_eq hq, hqN, sub_self, zero_div]

theorem child_apply_cpx (cld : plan_dft ℝ) (N : Nat) (hdft : computes_dft N cld)
    (a : Nat → ℝ) (k : Nat) (hk : k < N) :
    cpx (child_apply cld N a) k =
      ∑ j in Finset.range N,
        cpx a j * Complex.exp (-(2 * Real.pi * Complex.I * j * k / N)) := by
  unfold cpx
  rw [child_apply_even _ _ _ _ hk, child_apply_odd _ _ _ _ hk, hdft _ _ k hk]
  apply Finset.sum_congr rfl
  intro j hj
  rw [Finset.mem_range] at hj
  simp only [if_pos hj]

theorem computes_dft_inverse_swapped (N : Nat) (cld : plan_dft ℝ) (hdft : computes_dft N cld) :
    computes_inverse_swapped N cld := by
  intro re im k hk
  have h := hdft im re k hk
  have e : (⟨(cld.apply im re).2 k, (cld.apply im re).1 k⟩ : ℂ) =
      Complex.I * (starRingEnd ℂ) ⟨(cld.apply im re).1 k, (cld.apply im re).2 k⟩ := by
    apply Complex.ext <;> simp
  rw [e, h, map_sum, Finset.mul_sum]
  apply Finset.sum_congr rfl
  intro j _
  rw [map_mul, ← Complex.exp_conj]
  have e1 : (starRingEnd ℂ) (-(2 * Real.pi * Complex.I * j * k / N)) =
      2 * Real.pi * Complex.I * j * k / N := by
    simp only [map_neg, map_div₀, map_mul, Complex.conj_ofReal, Complex.conj_I, map_natCast,
      map_ofNat]
    ring
  have e2 : Complex.I * ((starRingEnd ℂ) (⟨im j, re j⟩ : ℂ)) = ⟨re j, im j⟩ := by
    apply Complex.ext <;> simp
  rw [e1, ← mul_assoc, e2]

theorem child_apply_swapped_cpx (cld : plan_dft ℝ) (N : Nat)
    (hinv : computes_inverse_swapped N cld) (a : Nat → ℝ) (k : Nat) (hk : k < N) :
    cpx (child_apply_swapped cld N a) k =
      ∑ j in Finset.range N,
        cpx a j * Complex.exp (2 * Real.pi * Complex.I * j * k / N) := by
  unfold cpx
  rw [child_apply_swapped_even _ _ _ _ hk, child_apply_swapped_odd _ _ _ _ hk]
  rw [hinv (fun j => if j < N then a (2 * j) else 0)
    (fun j => if j < N then a (2 * j + 1) else 0) k hk]
  apply Finset.sum_congr rfl
  intro j hj
  rw [Finset.mem_range] at hj
  simp only [if_pos hj]

theorem apply_pointwise_cpx (N : Nat) (W b : Nat → ℝ) (k : Nat) (hk : k < N) :
    cpx (apply_pointwise N W b) k = cpx b k * cpx W k := by
  unfold cpx
  rw [apply_pointwise_even _ _ _ _ hk, apply_pointwise_odd _ _ _ _ hk]
  apply Complex.ext
  · simp
  · simp; ring

/-! ## Exact arithmetic: the circular convolution -/

theorem convolution_sum (N : Nat) (hN : 0 < N) (b h : Nat → ℂ) (m : Nat) :
    ∑ k in Finset.range N,
        ((∑ j in Finset.range N, b j * Complex.exp (-(2 * Real.pi * Complex.I * j * k / N))) *
          (∑ l in Finset.range N, h l * Complex.exp (-(2 * Real.pi * Complex.I * l * k / N)))) *
          Complex.exp (2 * Real.pi * Complex.I * k * m / N) =
      ∑ j in Finset.range N, ∑ l in Finset.range N,
        b j * h l * (if (N : Int) ∣ ((m : Int) - j - l) then (N : ℂ) else 0) := by
  have hN0 : (N : ℂ) ≠ 0 := Nat.cast_ne_zero.mpr (by omega)
  have step1 : ∀ k ∈ Finset.range N,
      ((∑ j in Finset.range N, b j * Complex.exp (-(2 * Real.pi * Complex.I * j * k / N))) *
          (∑ l in Finset.range N, h l * Complex.exp (-(2 * Real.pi * Complex.I * l * k / N)))) *
          Complex.exp (2 * Real.pi * Complex.I * k * m / N) =
        ∑ j in Finset.range N, ∑ l in Finset.range N,
          b j * h l * Complex.exp (2 * Real.pi * Complex.I * (((m : Int) - j - l : Int) : ℂ) * k / N) := by
    intro k _
    rw [Finset.sum_mul_sum, Finset.sum_mul]
    apply Finset.sum_congr rfl
    intro j _
    rw [Finset.sum_mul]
    apply Finset.sum_congr rfl
    intro l _
    have : Complex.exp (-(2 * Real.pi * Complex.I * j * k / N)) *
        Complex.exp (-(2 * Real.pi * Complex.I * l * k / N)) *
        Complex.exp (2 * Real.pi * Complex.I * k * m / N) =
        Complex.exp (2 * Real.pi * Complex.I * (((m : Int) - j - l : Int) : ℂ) * k / N) := by
      rw [← Complex.exp_add, ← Complex.exp_add]
      congr 1
      push_cast
      field_simp
      ring
    rw [← this]
    ring
  rw [Finset.sum_congr rfl step1, Finset.sum_comm]
  apply Finset.sum_congr rfl
  intro j _
  rw [Finset.sum_comm]
  apply Finset.sum_congr rfl
  intro l _
  rw [← Finset.mul_sum, exp_sum_orthogonal N hN]

/-- The kernel in the time domain, as complex numbers: `g l / N` for `l < n`,
`g (N - l) / N` for `N - n < l`, zero in between. Exactly one entry meets the
index `m - j` modulo `N`, and it holds `g |m - j| / N`. -/
theorem kernel_select (n N : Nat) (hn : 1 ≤ n) (hN : 2 * n - 1 ≤ N) (g : Nat → ℂ)
    (m j : Nat) (hm : m < n) (hj : j < n) :
    ∑ l in Finset.range N,
        (if l < n then g l / N else if N - n < l then g (N - l) / N else 0) *
          (if (N : Int) ∣ ((m : Int) - j - l) then (N : ℂ) else 0) =
      g (Int.natAbs ((m : Int) - j)) := by
  have hN0 : (N : ℂ) ≠ 0 := Nat.cast_ne_zero.mpr (by omega)
  have hsel : ∀ l : Nat, l < N → ((N : Int) ∣ ((m : Int) - j - l) ↔
      l = if j ≤ m then m - j else N - (j - m)) := by
    intro l hl
    constructor
    · rintro ⟨t, ht⟩
      have ht0 : t = 0 ∨ t = -1 := by
        by_contra hcon
        push_neg at hcon
        rcases lt_or_gt_of_ne hcon.1 with h1 | h1
        · have h2 : t ≤ -2 := by omega
          have : (N : Int) * t ≤ N * (-2) := mul_le_mul_of_nonneg_left h2 (by omega)
          omega
        · have h2 : 1 ≤ t := by omega
          have : (N : Int) * 1 ≤ N * t := mul_le_mul_of_nonneg_left h2 (by omega)
          omega
      rcases ht0 with h0 | h0
      · subst h0
        split_ifs <;> omega
      · subst h0
        split_ifs <;> omega
    · intro hl2
      split_ifs at hl2 with hjm
      · exact ⟨0, by omega⟩
      · exact ⟨-1, by omega⟩
  rw [Finset.sum_eq_single (if j ≤ m then m - j else N - (j - m))]
  · rw [if_pos ((hsel _ (by split_ifs <;> omega)).mpr rfl)]
    by_cases hjm : j ≤ m
    · rw [if_pos hjm, if_pos (by omega)]
      have : Int.natAbs ((m : Int) - j) = m - j := by omega
      rw [this]
      field_simp
    · rw [if_neg hjm, if_neg (by omega), if_pos (by omega)]
      have : Int.natAbs ((m : Int) - j) = N - (N - (j - m)) := by omega
      rw [this]
      field_simp
  · intro l hl hne
    rw [Finset.mem_range] at hl
    rw [if_neg (fun hd => hne ((hsel l hl).mp hd)), mul_zero]
  · intro hnot
    exfalso
    apply hnot
    rw [Finset.mem_range]
    split_ifs <;> omega

theorem chirp_identity (n : Nat) (hn : 0 < n) (j m : Nat) :
    (starRingEnd ℂ) (Complex.exp (Real.pi * Complex.I * (j : ℂ) ^ 2 / n)) *
        Complex.exp (Real.pi * Complex.I * ((Int.natAbs ((m : Int) - j) : Nat) : ℂ) ^ 2 / n) *
        (starRingEnd ℂ) (Complex.exp (Real.pi * Complex.I * (m : ℂ) ^ 2 / n)) =
      Complex.exp (-(2 * Real.pi * Complex.I * j * m / n)) := by
  have hn0 : (n : ℂ) ≠ 0 := Nat.cast_ne_zero.mpr (by omega)
  have hconj : ∀ k : Nat, (starRingEnd ℂ) (Complex.exp (Real.pi * Complex.I * (k : ℂ) ^ 2 / n)) =
      Complex.exp (-(Real.pi * Complex.I * (k : ℂ) ^ 2 / n)) := by
    intro k
    rw [← Complex.exp_conj]
    congr 1
    simp only [map_div₀, map_mul, map_pow, Complex.conj_ofReal, Complex.conj_I, map_natCast]
    ring
  have habs : (((Int.natAbs ((m : Int) - j) : Nat) : ℂ)) ^ 2 = ((m : ℂ) - j) ^ 2 := by
    have := congrArg (Int.cast : Int → ℂ) (Int.natAbs_sq ((m : Int) - j))
    simp only [Int.cast_pow, Int.cast_natCast, Int.cast_sub] at this
    exact this
  rw [hconj, hconj, habs, ← Complex.exp_add, ← Complex.exp_add]
  congr 1
  field_simp
  ring

theorem chirp_value (T : trig ℝ) (hT : trig_exact T) (n : Nat) (hn : 0 < n) (k : Nat) :
    (⟨T.cos2pi (chirp_numerator n k) (2 * (n : Int)),
        T.sin2pi (chirp_numerator n k) (2 * (n : Int))⟩ : ℂ) =
      Complex.exp (Real.pi * Complex.I * (k : ℂ) ^ 2 / n) := by
  have hn0 : (n : ℂ) ≠ 0 := Nat.cast_ne_zero.mpr (by omega)
  obtain ⟨-, -, t, ht⟩ := chirp_numerator_bounds (n : Int) k (by exact_mod_cast hn)
  have hnu : ((chirp_numerator (n : Int) k : Int) : ℂ) = (k : ℂ) ^ 2 + 2 * n * t := by
    have := congrArg (Int.cast : Int → ℂ) ht
    push_cast at this
    linear_combination this
  rw [(hT.1 _ _).1, (hT.1 _ _).2]
  have e : (⟨Real.cos (2 * Real.pi * (chirp_numerator (n : Int) k : Int) / ((2 * (n : Int) : Int) : ℝ)),
      Real.sin (2 * Real.pi * (chirp_numerator (n : Int) k : Int) / ((2 * (n : Int) : Int) : ℝ))⟩ : ℂ) =
      Complex.exp (((2 * Real.pi * (chirp_numerator (n : Int) k : Int) / ((2 * (n : Int) : Int) : ℝ) : ℝ) : ℂ)
        * Complex.I) := by
    apply Complex.ext
    · rw [Complex.exp_ofReal_mul_I_re]
    · rw [Complex.exp_ofReal_mul_I_im]
  rw [e]
  have e2 : (((2 * Real.pi * (chirp_numerator (n : Int) k : Int) / ((2 * (n : Int) : Int) : ℝ) : ℝ) : ℂ)
      * Complex.I) = Real.pi * Complex.I * (k : ℂ) ^ 2 / n + t * (2 * Real.pi * Complex.I) := by
    push_cast
    rw [hnu]
    field_simp
    ring
  rw [e2, Complex.exp_add, Complex.exp_int_mul_two_pi_mul_I, mul_one]

/-! ## Exact arithmetic: `apply` computes the DFT -/

theorem cpx_chirp (T : trig ℝ) (hT : trig_exact T) (n : Nat) (hn : 0 < n) (w : Nat → ℝ)
    (hw : ∀ k : Nat, (k : Int) < n →
      w (2 * k) = T.cos2pi (chirp_numerator n k) (2 * (n : Int)) ∧
      w (2 * k + 1) = T.sin2pi (chirp_numerator n k) (2 * (n : Int)))
    (k : Nat) (hk : k < n) :
    cpx w k = Complex.exp (Real.pi * Complex.I * (k : ℂ) ^ 2 / n) := by
  unfold cpx
  rw [(hw k (by exact_mod_cast hk)).1, (hw k (by exact_mod_cast hk)).2]
  exact chirp_value T hT n hn k

theorem cpx_fill (T : trig ℝ) (n : Nat) (nb : Int) (hn : 1 ≤ n)
    (hnb : 2 * (n : Int) - 1 ≤ nb) (hal : nb ≤ 1073741823) (hrec : T.recip nb = 1 / nb)
    (w W0 : Nat → ℝ) (l : Nat) (hl : l < nb.toNat) :
    cpx (mktwiddle_fill T n nb w W0) l =
      if l < n then cpx w l / nb.toNat
      else if nb.toNat - n < l then cpx w (nb.toNat - l) / nb.toNat else 0 := by
  have hN : ((nb.toNat : Nat) : ℝ) = (nb : ℝ) := by
    have : ((nb.toNat : Nat) : Int) = nb := Int.toNat_of_nonneg (by omega)
    exact_mod_cast congrArg (Int.cast : Int → ℝ) this
  have hN0 : (nb : ℝ) ≠ 0 := by
    have : (1 : Int) ≤ nb := by omega
    exact_mod_cast (by omega : nb ≠ 0)
  have hnn : ((n : Nat) : Int).toNat = n := Int.toNat_natCast n
  unfold cpx
  rw [mktwiddle_fill_eq T (n : Int) nb w W0 (by omega) hnb hal (2 * l) (by omega),
    mktwiddle_fill_eq T (n : Int) nb w W0 (by omega) hnb hal (2 * l + 1) (by omega), hnn,
    hrec]
  by_cases h1 : l < n
  · rw [if_pos (show 2 * l < 2 * n by omega), if_pos (show 2 * l + 1 < 2 * n by omega),
      if_pos h1]
    apply Complex.ext
    · simp [Complex.div_natCast_re, hN]; ring
    · simp [Complex.div_natCast_im, hN]; ring
  · rw [if_neg (show ¬ 2 * l < 2 * n by omega), if_neg (show ¬ 2 * l + 1 < 2 * n by omega),
      if_neg h1]
    by_cases h2 : nb.toNat - n < l
    · rw [if_pos (show 2 * (nb.toNat - n) + 2 ≤ 2 * l by omega),
        if_pos (show 2 * (nb.toNat - n) + 2 ≤ 2 * l + 1 by omega), if_pos h2]
      have e0 : 2 * (nb.toNat - 2 * l / 2) + 2 * l % 2 = 2 * (nb.toNat - l) := by omega
      have e1 : 2 * (nb.toNat - (2 * l + 1) / 2) + (2 * l + 1) % 2 = 2 * (nb.toNat - l) + 1 := by
        omega
      rw [e0, e1]
      apply Complex.ext
      · simp [Complex.div_natCast_re, hN]; ring
      · simp [Complex.div_natCast_im, hN]; ring
    · rw [if_neg (show ¬ 2 * (nb.toNat - n) + 2 ≤ 2 * l by omega),
        if_neg (show ¬ 2 * (nb.toNat - n) + 2 ≤ 2 * l + 1 by omega), if_neg h2]
      rfl

theorem cpx_load (ego : P ℝ) (n : Nat) (hegon : ego.n = n) (w : Nat → ℝ) (mem : Int → ℝ)
    (ri ii : Int) (b0 : Nat → ℝ) (j : Nat) (hj : j < ego.nb.toNat) :
    cpx (apply_load ego w mem ri ii b0) j =
      if j < n then
        (⟨mem (ri + wrap32 (j * ego.is)), mem (ii + wrap32 (j * ego.is))⟩ : ℂ) *
          (starRingEnd ℂ) (cpx w j)
      else 0 := by
  have hnn : ego.n.toNat = n := by rw [hegon]; exact Int.toNat_natCast n
  unfold cpx
  by_cases h1 : j < n
  · rw [apply_load_even _ _ _ _ _ _ _ (by omega), apply_load_odd _ _ _ _ _ _ _ (by omega),
      if_pos h1]
    apply Complex.ext
    · simp
    · simp; ring
  · rw [apply_load_pad _ _ _ _ _ _ _ (by omega) (by omega),
      apply_load_pad _ _ _ _ _ _ _ (by omega) (by omega), if_neg h1]
    rfl

theorem cpx_unload (ego : P ℝ) (w b : Nat → ℝ) (mem : Int → ℝ) (ro io : Int)
    (hd : outputs_distinct ego ro io) (k : Nat) (hk : k < ego.n.toNat) :
    (⟨apply_unload ego w b mem ro io (ro + wrap32 (k * ego.os)),
        apply_unload ego w b mem ro io (io + wrap32 (k * ego.os))⟩ : ℂ) =
      cpx b k * (starRingEnd ℂ) (cpx w k) := by
  obtain ⟨h1, h2⟩ := apply_unload_at ego w b mem ro io hd k hk
  rw [h1, h2]
  unfold cpx
  apply Complex.ext
  · simp
  · simp; ring

/-- The three transforms of `apply` between the chirp multiplications: with a forward
child that computes the DFT of length `N` and a backward call that computes its
unnormalised inverse, a kernel `W` that is the DFT of `h`, and input `b`, the result
is the circular convolution of `b` and `h`, times `N`. -/
theorem cpx_convolve (N : Nat) (hN : 0 < N) (cldf cldb : plan_dft ℝ)
    (hf : computes_dft N cldf) (hb : computes_inverse_swapped N cldb) (b h : Nat → ℝ)
    (m : Nat) (hm : m < N) :
    cpx (child_apply_swapped cldb N (apply_pointwise N (child_apply cldf N h)
        (child_apply cldf N b))) m =
      ∑ j in Finset.range N, ∑ l in Finset.range N,
        cpx b j * cpx h l * (if (N : Int) ∣ ((m : Int) - j - l) then (N : ℂ) else 0) := by
  rw [child_apply_swapped_cpx cldb N hb _ m hm, ← convolution_sum N hN (cpx b) (cpx h) m]
  apply Finset.sum_congr rfl
  intro k hk
  rw [Finset.mem_range] at hk
  rw [apply_pointwise_cpx N _ _ k hk, child_apply_cpx cldf N hf b k hk,
    child_apply_cpx cldf N hf h k hk]

/-- After a wake, `apply` writes the DFT of its input: the common part of C1 and C2. -/
theorem awake_apply_dft (n : Nat) (nb : Int) (T : trig ℝ) (cldf cldb : plan_dft ℝ)
    (is os : Int) (fuel : Nat) (w0 W0 : Nat → ℝ)
    (hn : 1 ≤ n) (hnb : 2 * (n : Int) - 1 ≤ nb) (hal : malloc_ok nb = true)
    (hrec : T.recip nb = 1 / nb)
    (hfuel : 2 ≤ fuel) (hT : trig_exact T) (hf : computes_dft nb.toNat cldf)
    (hb : computes_inverse_swapped nb.toNat cldb) :
    ∃ ego : P ℝ,
      (awake fuel T ⟨n, nb, none, none, cldf, cldb, is, os⟩ 1 w0 W0).2 = Outcome.done ego ∧
      ego.n = n ∧ ego.is = is ∧ ego.os = os ∧
      ∀ (mem : Int → ℝ) (ri ii ro io : Int) (b0 : Nat → ℝ), outputs_distinct ego ro io →
        ∃ mem1, apply ego mem ri ii ro io b0 = some mem1 ∧
          ∀ k : Nat, k < n →
            (⟨mem1 (ro + wrap32 (k * os)), mem1 (io + wrap32 (k * os))⟩ : ℂ) =
              ∑ j in Finset.range n,
                (⟨mem (ri + wrap32 (j * is)), mem (ii + wrap32 (j * is))⟩ : ℂ) *
                  Complex.exp (-(2 * Real.pi * Complex.I * j * k / n)) := by
  have hal2 := ((malloc_ok_iff _).mp hal).2
  have hokn : malloc_ok (n : Int) = true := (malloc_ok_iff _).mpr ⟨by omega, by omega⟩
  obtain ⟨w, hw, -, hwv⟩ := bluestein_sequence_spec fuel T (n : Int) hfuel (by omega)
    (by omega) w0
  have hNpos : 0 < nb.toNat := by omega
  have hnN : n ≤ nb.toNat := by omega
  have hN2 : 2 * n - 1 ≤ nb.toNat := by omega
  have hc := cpx_chirp T hT n (by omega) w hwv
  refine ⟨⟨n, nb, some w, some (child_apply cldf nb.toNat (mktwiddle_fill T n nb w W0)),
    cldf, cldb, is, os⟩, ?_, rfl, rfl, rfl, ?_⟩
  · rw [awake_wake _ _ _ _ _ rfl]
    simp only [mktwiddle, hw, hokn, hal, Bool.not_true, Bool.false_eq_true, if_false]
  · intro mem ri ii ro io b0 hd
    simp only [apply, hal, Bool.not_true, Bool.false_eq_true, if_false]
    refine ⟨_, rfl, ?_⟩
    intro k hk
    have hkn : k < ((n : Nat) : Int).toNat := by rw [Int.toNat_natCast]; exact hk
    rw [cpx_unload _ w _ mem ro io hd k hkn]
    rw [cpx_convolve nb.toNat hNpos cldf cldb hf hb _ _ k (by omega)]
    have hinner : ∀ j ∈ Finset.range nb.toNat,
        ∑ l in Finset.range nb.toNat,
          cpx (apply_load ⟨n, nb, some w,
              some (child_apply cldf nb.toNat (mktwiddle_fill T n nb w W0)),
              cldf, cldb, is, os⟩ w mem ri ii b0) j *
            cpx (mktwiddle_fill T n nb w W0) l *
            (if (nb.toNat : Int) ∣ ((k : Int) - j - l) then (nb.toNat : ℂ) else 0) =
        if j < n then
          (⟨mem (ri + wrap32 (j * is)), mem (ii + wrap32 (j * is))⟩ : ℂ) *
            (starRingEnd ℂ) (Complex.exp (Real.pi * Complex.I * (j : ℂ) ^ 2 / n)) *
            Complex.exp (Real.pi * Complex.I *
              ((Int.natAbs ((k : Int) - j) : Nat) : ℂ) ^ 2 / n)
        else 0 := by
      intro j hj
      rw [Finset.mem_range] at hj
      rw [cpx_load _ n rfl w mem ri ii b0 j hj]
      by_cases hjn : j < n
      · rw [if_pos hjn, if_pos hjn, hc j hjn]
        have ks := kernel_select n nb.toNat hn hN2
          (fun d => Complex.exp (Real.pi * Complex.I * (d : ℂ) ^ 2 / n)) k j hk hjn
        beta_reduce at ks
        have hsum : ∑ l in Finset.range nb.toNat,
            cpx (mktwiddle_fill T n nb w W0) l *
              (if (nb.toNat : Int) ∣ ((k : Int) - j - l) then (nb.toNat : ℂ) else 0) =
            Complex.exp (Real.pi * Complex.I *
              ((Int.natAbs ((k : Int) - j) : Nat) : ℂ) ^ 2 / n) := by
          rw [← ks]
          apply Finset.sum_congr rfl
          intro l hl
          rw [Finset.mem_range] at hl
          rw [cpx_fill T n nb hn hnb hal2 hrec w W0 l hl]
          congr 1
          by_cases h1 : l < n
          · rw [if_pos h1, if_pos h1, hc l h1]
          · rw [if_neg h1, if_neg h1]
            by_cases h2 : nb.toNat - n < l
            · rw [if_pos h2, if_pos h2, hc _ (by omega)]
            · rw [if_neg h2, if_neg h2]
        rw [← hsum, Finset.mul_sum]
        exact Finset.sum_congr rfl (fun l _ => mul_assoc _ _ _)
      · rw [if_neg hjn, if_neg hjn]
        simp
    rw [Finset.sum_congr rfl hinner, Finset.sum_ite, Finset.sum_const_zero, add_zero]
    have hfilter : Finset.filter (fun j => j < n) (Finset.range nb.toNat) = Finset.range n := by
      ext j
      simp only [Finset.mem_filter, Finset.mem_range]
      omega
    rw [hfilter, hc k hk, Finset.sum_mul]
    apply Finset.sum_congr rfl
    intro j _
    rw [mul_assoc, mul_assoc, ← mul_assoc ((starRingEnd ℂ) _), chirp_identity n (by omega) j k]

theorem dft_inverse (n : Nat) (hn : 0 < n) (x : Nat → ℂ) (j : Nat) (hj : j < n) :
    ∑ k in Finset.range n,
        (∑ l in Finset.range n, x l * Complex.exp (-(2 * Real.pi * Complex.I * l * k / n))) *
          Complex.exp (2 * Real.pi * Complex.I * j * k / n) =
      n * x j := by
  have hn0 : (n : ℂ) ≠ 0 := Nat.cast_ne_zero.mpr (by omega)
  have step1 : ∀ k ∈ Finset.range n,
      (∑ l in Finset.range n, x l * Complex.exp (-(2 * Real.pi * Complex.I * l * k / n))) *
          Complex.exp (2 * Real.pi * Complex.I * j * k / n) =
        ∑ l in Finset.range n,
          x l * Complex.exp (2 * Real.pi * Complex.I * (((j : Int) - l : Int) : ℂ) * k / n) := by
    intro k _
    rw [Finset.sum_mul]
    apply Finset.sum_congr rfl
    intro l _
    rw [mul_assoc, ← Complex.exp_add]
    congr 2
    push_cast
    field_simp
    ring
  rw [Finset.sum_congr rfl step1, Finset.sum_comm]
  have step2 : ∀ l ∈ Finset.range n,
      ∑ k in Finset.range n,
          x l * Complex.exp (2 * Real.pi * Complex.I * (((j : Int) - l : Int) : ℂ) * k / n) =
        if l = j then (n : ℂ) * x j else 0 := by
    intro l hl
    rw [Finset.mem_range] at hl
    rw [← Finset.mul_sum, exp_sum_orthogonal n hn]
    by_cases hlj : l = j
    · subst hlj
      rw [if_pos (by simp), if_pos rfl, mul_comm]
    · rw [if_neg hlj, if_neg, mul_zero]
      rintro ⟨t, ht⟩
      have ht0 : t = 0 := by
        by_contra hcon
        rcases lt_or_gt_of_ne hcon with h1 | h1
        · have h2 : t ≤ -1 := by omega
          have : (n : Int) * t ≤ n * (-1) := mul_le_mul_of_nonneg_left h2 (by omega)
          omega
        · have h2 : 1 ≤ t := by omega
          have : (n : Int) * 1 ≤ n * t := mul_le_mul_of_nonneg_left h2 (by omega)
          omega
      subst ht0
      omega
  rw [Finset.sum_congr rfl step2, Finset.sum_ite_eq' (Finset.range n) j, if_pos (by simpa using hj)]

/-- C1: for every prime `n` with `nb = pow2_atleast (2n-1)` for which the allocator
grants arrays of `2*nb` reals (this bounds `nb` by `2^29` and `n` by `2^28`), over the
real numbers with exact collaborators, when the forward child computes the
unnormalised forward DFT of length `nb` and the backward child is such a forward
transform too (planned for, and called with, the real and imaginary arrays
exchanged): `awake(plan, 1)` on the sleeping plan with these fields succeeds, and
`apply` on any input `x` (read at `ri[j*is]`, `ii[j*is]`) returns and writes
`y[k] = sum_{j<n} x[j] * exp(-2 pi i j k / n)` to `ro[k*os]`, `io[k*os]` for every
`k < n`, the output locations being pairwise different; hence the conventional
inverse DFT scaled by `1/n` recovers `x`. -/
theorem apply_computes_dft (n : Nat) (nb : Int) (T : trig ℝ) (cldf cldb : plan_dft ℝ)
    (is os : Int) (fuel fuel2 : Nat) (w0 W0 : Nat → ℝ) (mem : Int → ℝ) (ri ii ro io : Int)
    (b0 : Nat → ℝ)
    (hn : n.Prime) (hnb : pow2_atleast fuel (2 * (n : Int) - 1) = some nb)
    (hal : malloc_ok nb = true)
    (hfuel : 2 ≤ fuel2) (hT : trig_exact T)
    (hf : computes_dft nb.toNat cldf) (hb : computes_dft nb.toNat cldb)
    (hd : outputs_distinct (⟨n, nb, none, none, cldf, cldb, is, os⟩ : P ℝ) ro io) :
    ∃ (ego : P ℝ) (mem1 : Int → ℝ),
      (awake fuel2 T ⟨n, nb, none, none, cldf, cldb, is, os⟩ 1 w0 W0).2 = Outcome.done ego ∧
      apply ego mem ri ii ro io b0 = some mem1 ∧
      (∀ k : Nat, k < n →
        (⟨mem1 (ro + wrap32 (k * os)), mem1 (io + wrap32 (k * os))⟩ : ℂ) =
          ∑ j in Finset.range n,
            (⟨mem (ri + wrap32 (j * is)), mem (ii + wrap32 (j * is))⟩ : ℂ) *
              Complex.exp (-(2 * Real.pi * Complex.I * j * k / n))) ∧
      (∀ j : Nat, j < n →
        (1 / (n : ℂ)) * ∑ k in Finset.range n,
            (⟨mem1 (ro + wrap32 (k * os)), mem1 (io + wrap32 (k * os))⟩ : ℂ) *
              Complex.exp (2 * Real.pi * Complex.I * j * k / n) =
          (⟨mem (ri + wrap32 (j * is)), mem (ii + wrap32 (j * is))⟩ : ℂ)) ∧
      (n : Int) ≤ 268435456 ∧ nb ≤ 536870912 := by
  have hn1 := hn.one_lt
  obtain ⟨hge, hle⟩ := pow2_atleast_some fuel _ nb hnb
  obtain ⟨e, he, -, -, -⟩ := pow2_atleast_pow fuel _ nb hnb
  have hal2 := ((malloc_ok_iff _).mp hal).2
  have hbound : nb ≤ 536870912 := by
    have he29 : e ≤ 29 := by
      by_contra hcon
      have hp : (2:Int) ^ 30 ≤ 2 ^ e := pow_le_pow_right₀ (by norm_num) (by omega)
      norm_num at hp
      omega
    have hp : (2:Int) ^ e ≤ 2 ^ 29 := pow_le_pow_right₀ (by norm_num) he29
    norm_num at hp
    omega
  have hrec : T.recip nb = 1 / nb := by
    rw [he]
    push_cast
    exact hT.2 e
  obtain ⟨ego, hawake, e1, -, e3, happ⟩ := awake_apply_dft n nb T cldf cldb is os fuel2 w0 W0
    (by omega) hge hal hrec hfuel hT hf (computes_dft_inverse_swapped _ _ hb)
  have hd1 : outputs_distinct ego ro io := by
    intro i hi j hj
    rw [e1] at hi hj
    rw [e3]
    exact hd i hi j hj
  obtain ⟨mem1, hm1, hval⟩ := happ mem ri ii ro io b0 hd1
  refine ⟨ego, mem1, hawake, hm1, hval, ?_, by omega, hbound⟩
  intro j hj
  have hn0 : (n : ℂ) ≠ 0 := Nat.cast_ne_zero.mpr (by omega)
  have hsum : ∑ k in Finset.range n,
      (⟨mem1 (ro + wrap32 (k * os)), mem1 (io + wrap32 (k * os))⟩ : ℂ) *
        Complex.exp (2 * Real.pi * Complex.I * j * k / n) =
      n * (⟨mem (ri + wrap32 (j * is)), mem (ii + wrap32 (j * is))⟩ : ℂ) := by
    rw [← dft_inverse n (by omega)
      (fun l => (⟨mem (ri + wrap32 (l * is)), mem (ii + wrap32 (l * is))⟩ : ℂ)) j hj]
    apply Finset.sum_congr rfl
    intro k hk
    rw [Finset.mem_range] at hk
    rw [hval k hk]
  rw [hsum]
  field_simp

/-- C2: for every prime `n` with `nb = pow2_atleast (2n-1)` for which the allocator
grants arrays of `2*nb` reals, with the plan awake, exact collaborators, a forward
child that computes the unnormalised DFT of length `nb` and a backward child whose
swapped-role call computes its unnormalised inverse: `apply` on the input
`x[0] = (1,0)`, `x[i] = (0,0)` for `1 ≤ i < n` returns and writes `(1,0)` to every one
of the `n` output positions. -/
theorem apply_delta (n : Nat) (nb : Int) (T : trig ℝ) (cldf cldb : plan_dft ℝ)
    (is os : Int) (fuel fuel2 : Nat) (w0 W0 : Nat → ℝ) (mem : Int → ℝ) (ri ii ro io : Int)
    (b0 : Nat → ℝ)
    (hn : n.Prime) (hnb : pow2_atleast fuel (2 * (n : Int) - 1) = some nb)
    (hal : malloc_ok nb = true)
    (hfuel : 2 ≤ fuel2) (hT : trig_exact T)
    (hf : computes_dft nb.toNat cldf) (hb : computes_inverse_swapped nb.toNat cldb)
    (hd : outputs_distinct (⟨n, nb, none, none, cldf, cldb, is, os⟩ : P ℝ) ro io)
    (hx0 : mem (ri + wrap32 ((0 : Nat) * is)) = 1 ∧ mem (ii + wrap32 ((0 : Nat) * is)) = 0)
    (hxi : ∀ i : Nat, 1 ≤ i → i < n →
      mem (ri + wrap32 (i * is)) = 0 ∧ mem (ii + wrap32 (i * is)) = 0) :
    ∃ (ego : P ℝ) (mem1 : Int → ℝ),
      (awake fuel2 T ⟨n, nb, none, none, cldf, cldb, is, os⟩ 1 w0 W0).2 = Outcome.done ego ∧
      apply ego mem ri ii ro io b0 = some mem1 ∧
      ∀ k : Nat, k < n →
        mem1 (ro + wrap32 (k * os)) = 1 ∧ mem1 (io + wrap32 (k * os)) = 0 := by
  have hn1 := hn.one_lt
  obtain ⟨hge, hle⟩ := pow2_atleast_some fuel _ nb hnb
  obtain ⟨e, he, -, -, -⟩ := pow2_atleast_pow fuel _ nb hnb
  have hrec : T.recip nb = 1 / nb := by
    rw [he]
    push_cast
    exact hT.2 e
  obtain ⟨ego, hawake, e1, -, e3, happ⟩ := awake_apply_dft n nb T cldf cldb is os fuel2 w0 W0
    (by omega) hge hal hrec hfuel hT hf hb
  have hd1 : outputs_distinct ego ro io := by
    intro i hi j hj
    rw [e1] at hi hj
    rw [e3]
    exact hd i hi j hj
  obtain ⟨mem1, hm1, hval⟩ := happ mem ri ii ro io b0 hd1
  refine ⟨ego, mem1, hawake, hm1, ?_⟩
  intro k hk
  have h := hval k hk
  rw [Finset.sum_eq_single 0] at h
  · rw [hx0.1, hx0.2] at h
    have hre := congrArg Complex.re h
    have him := congrArg Complex.im h
    simp at hre him
    exact ⟨hre, him⟩
  · intro j hj hj0
    rw [Finset.mem_range] at hj
    obtain ⟨h1, h2⟩ := hxi j (by omega) hj
    rw [h1, h2]
    have : (⟨0, 0⟩ : ℂ) = 0 := rfl
    rw [this, zero_mul]
  · intro h0
    exact absurd (Finset.mem_range.mpr (by omega)) h0

theorem exact_trig_exact :
    trig_exact ⟨fun m n => Real.cos (2 * Real.pi * m / n),
      fun m n => Real.sin (2 * Real.pi * m / n), fun nb => 1 / nb⟩ :=
  ⟨fun _ _ => ⟨rfl, rfl⟩, fun e => by push_cast; rfl⟩

theorem direct_sum_computes_dft (N : Nat) :
    computes_dft N ⟨fun re im =>
      (fun k => (∑ j in Finset.range N,
          (⟨re j, im j⟩ : ℂ) * Complex.exp (-(2 * Real.pi * Complex.I * j * k / N))).re,
        fun k => (∑ j in Finset.range N,
          (⟨re j, im j⟩ : ℂ) * Complex.exp (-(2 * Real.pi * Complex.I * j * k / N))).im)⟩ := by
  intro re im k _
  apply Complex.ext <;> rfl

/-- C1 at `n = 2` (`nb = 4`): exact collaborator, children that evaluate the DFT sum
directly, interleaved input at addresses 0..3 and output at addresses 4..7. -/
theorem apply_computes_dft_witness :
    ∃ (T : trig ℝ) (cld : plan_dft ℝ) (ego : P ℝ) (mem1 : Int → ℝ),
      trig_exact T ∧ computes_dft 4 cld ∧
      (awake 2 T ⟨2, 4, none, none, cld, cld, 2, 2⟩ 1 (fun _ => 0) (fun _ => 0)).2
        = Outcome.done ego ∧
      apply ego (fun a => (a : ℝ)) 0 1 4 5 (fun _ => 0) = some mem1 ∧
      ∀ k : Nat, k < 2 →
        (⟨mem1 (4 + wrap32 (k * 2)), mem1 (5 + wrap32 (k * 2))⟩ : ℂ) =
          ∑ j in Finset.range 2,
            (⟨((0 + wrap32 (j * 2) : Int) : ℝ), ((1 + wrap32 (j * 2) : Int) : ℝ)⟩ : ℂ) *
              Complex.exp (-(2 * Real.pi * Complex.I * j * k / (2 : Nat))) :=
  let ⟨ego, mem1, h1, h2, h3, _⟩ := apply_computes_dft 2 4 _ _ _ 2 2 31 2 (fun _ => 0)
    (fun _ => 0) (fun a => (a : ℝ)) 0 1 4 5 (fun _ => 0) Nat.prime_two (by decide)
    (by decide) (le_refl 2) exact_trig_exact (direct_sum_computes_dft 4) (direct_sum_computes_dft 4)
    (by decide)
  ⟨_, _, ego, mem1, exact_trig_exact, direct_sum_computes_dft 4, h1, h2, h3⟩

/-- C2 at `n = 2` (`nb = 4`): the unit impulse at addresses 0..3, output at 4..7. -/
theorem apply_delta_witness :
    ∃ (T : trig ℝ) (cld : plan_dft ℝ) (ego : P ℝ) (mem1 : Int → ℝ),
      trig_exact T ∧ computes_dft 4 cld ∧ computes_inverse_swapped 4 cld ∧
      (awake 2 T ⟨2, 4, none, none, cld, cld, 2, 2⟩ 1 (fun _ => 0) (fun _ => 0)).2
        = Outcome.done ego ∧
      apply ego (fun a => if a = 0 then 1 else 0) 0 1 4 5 (fun _ => 0) = some mem1 ∧
      ∀ k : Nat, k < 2 → mem1 (4 + wrap32 (k * 2)) = 1 ∧ mem1 (5 + wrap32 (k * 2)) = 0 :=
  let ⟨ego, mem1, h1, h2, h3⟩ := apply_delta 2 4 _ _ _ 2 2 31 2 (fun _ => 0)
    (fun _ => 0) (fun a => if a = 0 then 1 else 0) 0 1 4 5 (fun _ => 0) Nat.prime_two
    (by decide) (by decide) (le_refl 2) exact_trig_exact (direct_sum_computes_dft 4)
    (computes_dft_inverse_swapped 4 _ (direct_sum_computes_dft 4)) (by decide)
    (by simp [wrap32])
    (by
      intro i h1 h2
      have : i = 1 := by omega
      subst this
      simp [wrap32])
  ⟨_, _, ego, mem1, exact_trig_exact, direct_sum_computes_dft 4,
    computes_dft_inverse_swapped 4 _ (direct_sum_computes_dft 4), h1, h2, h3⟩

/-! ## Termination of `pow2_atleast` -/

theorem pow2_atleast_h_eq (i : Nat) (hi : i ≤ 30) : pow2_atleast_h i = 2 ^ i := by
  induction i with
  | zero => rfl
  | succ i ih =>
    have hpow : (2:Int) ^ (i + 1) ≤ 2 ^ 30 := pow_le_pow_right₀ (by norm_num) hi
    have hpos : (0:Int) < 2 ^ (i + 1) := by positivity
    have h30 : (2:Int) ^ 30 = 1073741824 := by norm_num
    have h2 : (2:Int) * 2 ^ i = 2 ^ (i + 1) := by ring
    rw [pow2_atleast_h, ih (by omega), h2, wrap32_eq_self] <;> omega

theorem pow2_atleast_loop_passes (x : Int) (fuel e : Nat) (r : Int)
    (hlt : ∀ i, i < e → pow2_atleast_h i < x)
    (hr : pow2_atleast fuel x = some r) :
    ∀ i, i ≤ e → i ≤ fuel ∧ pow2_atleast_loop (fuel - i) (pow2_atleast_h i) x = some r := by
  intro i
  induction i with
  | zero => intro _; exact ⟨Nat.zero_le _, hr⟩
  | succ i ih =>
    intro hi
    obtain ⟨hif, hloop⟩ := ih (by omega)
    have hne : fuel - i ≠ 0 := by
      intro h0
      rw [h0, pow2_atleast_loop] at hloop
      exact absurd hloop (by simp)
    obtain ⟨f, hf⟩ : ∃ f, fuel - i = f + 1 := ⟨fuel - i - 1, by omega⟩
    rw [hf, pow2_atleast_loop, if_pos (hlt i (by omega))] at hloop
    have : fuel - (i + 1) = f := by omega
    rw [this, pow2_atleast_h]
    exact ⟨by omega, hloop⟩

/-- C19: with `h` a signed 32-bit `int` (overflow as reduction modulo `2^32`), for every
`x ≤ 2^30` the loop `for (h = 1; h < x; h = 2 * h)` terminates (fuel for 31 tests is
enough): it leaves after `e ≤ 30` doublings with `h = 2^e ≤ 2^30`, `h ≥ x`, every
doubling it executed had `h < x` and a representable `2 * h`, and the run passes
through the states `h = 1, 2, ..., 2^e`. Hence for every `n` with `1 ≤ n ≤ 2^29` the
computation `nb = pow2_atleast(2*n - 1)` of `mkplan` terminates with representable
`2*n`, `2*n - 1` and `nb`. -/
theorem pow2_atleast_terminates (x : Int) (fuel : Nat) (hx : x ≤ 2 ^ 30) (hf : 31 ≤ fuel) :
    (∃ e : Nat, e ≤ 30 ∧ pow2_atleast fuel x = some (pow2_atleast_h e) ∧
      pow2_atleast_h e = 2 ^ e ∧ pow2_atleast_h e ≤ 2 ^ 30 ∧ x ≤ pow2_atleast_h e ∧
      (∀ i, i < e → pow2_atleast_h i < x ∧ in_int32 (2 * pow2_atleast_h i)) ∧
      (∀ i, i ≤ e →
        pow2_atleast_loop (fuel - i) (pow2_atleast_h i) x = some (pow2_atleast_h e))) ∧
    (∀ n : Int, 1 ≤ n → n ≤ 2 ^ 29 →
      in_int32 (2 * n) ∧ in_int32 (wrap32 (2 * n) - 1) ∧
      wrap32 (wrap32 (2 * n) - 1) = 2 * n - 1 ∧
      ∃ nb, pow2_atleast fuel (wrap32 (wrap32 (2 * n) - 1)) = some nb ∧ in_int32 nb) := by
  have h30 : (2:Int) ^ 30 = 1073741824 := by norm_num
  have h29 : (2:Int) ^ 29 = 536870912 := by norm_num
  constructor
  · obtain ⟨e, he, hle, he30, hmin⟩ := pow2_atleast_loop_spec x hx fuel 0 (by omega) (by omega)
      (by intro e' he'; omega)
    have hpe : (2:Int) ^ e ≤ 2 ^ 30 := pow_le_pow_right₀ (by norm_num) he30
    have hres : pow2_atleast fuel x = some (pow2_atleast_h e) := by
      rw [pow2_atleast_h_eq e he30]
      simpa [pow2_atleast] using he
    have hlt : ∀ i, i < e → pow2_atleast_h i < x := by
      intro i hi
      rw [pow2_atleast_h_eq i (by omega)]
      exact hmin i hi
    refine ⟨e, he30, hres, pow2_atleast_h_eq e he30, ?_, ?_, ?_, ?_⟩
    · rw [pow2_atleast_h_eq e he30]; exact hpe
    · rw [pow2_atleast_h_eq e he30]; exact hle
    · intro i hi
      refine ⟨hlt i hi, ?_⟩
      rw [pow2_atleast_h_eq i (by omega)]
      have hp1 : (2:Int) ^ (i + 1) ≤ 2 ^ 30 := pow_le_pow_right₀ (by norm_num) (by omega)
      have hp0 : (0:Int) < 2 ^ (i + 1) := by positivity
      have h2 : (2:Int) * 2 ^ i = 2 ^ (i + 1) := by ring
      rw [h2]
      unfold in_int32
      omega
    · intro i hi
      exact (pow2_atleast_loop_passes x fuel e _ hlt hres i hi).2
  · intro n hn1 hn2
    have e1 : wrap32 (2 * n) = 2 * n := by rw [wrap32_eq_self] <;> omega
    have e2 : wrap32 (2 * n - 1) = 2 * n - 1 := by rw [wrap32_eq_self] <;> omega
    obtain ⟨e, he, -, he30⟩ := pow2_atleast_returns fuel (2 * n - 1) hf (by omega)
    have hpe : (2:Int) ^ e ≤ 2 ^ 30 := pow_le_pow_right₀ (by norm_num) he30
    have hp0 : (0:Int) < 2 ^ e := by positivity
    rw [e1, e2]
    refine ⟨by unfold in_int32; omega, by unfold in_int32; omega, rfl, 2 ^ e, he, ?_⟩
    unfold in_int32
    omega

/-- C19 at `x = 2^30`, the largest argument it covers: the result is `2^30`. -/
theorem pow2_atleast_terminates_witness :
    ∃ e : Nat, e ≤ 30 ∧ pow2_atleast 31 1073741824 = some (pow2_atleast_h e) ∧
      pow2_atleast_h e = 2 ^ e ∧ pow2_atleast_h e ≤ 2 ^ 30 :=
  let ⟨e, h1, h2, h3, h4, _⟩ :=
    (pow2_atleast_terminates 1073741824 31 (by norm_num) (le_refl 31)).1
  ⟨e, h1, h2, h3, h4⟩

/-! ## Two primes -/

theorem powmod_eq (a m : Nat) : ∀ f e : Nat, e < 2 ^ f → powmod a m f e = a ^ e % m := by
  intro f
  induction f with
  | zero =>
    intro e he
    have : e = 0 := by simpa using he
    subst this
    simp [powmod]
  | succ f ih =>
    intro e he
    rw [powmod]
    by_cases h0 : e = 0
    · subst h0; simp
    · rw [if_neg h0]
      have hhalf : e / 2 < 2 ^ f := by
        rw [pow_succ] at he
        omega
      rw [ih _ hhalf]
      by_cases hev : e % 2 = 0
      · rw [if_pos hev]
        have : e = (e / 2) * 2 := by omega
        conv_rhs => rw [this, pow_mul]
        rw [← Nat.pow_mod]
      · rw [if_neg hev]
        have : e = (e / 2) * 2 + 1 := by omega
        conv_rhs => rw [this, pow_succ, pow_mul]
        rw [← Nat.pow_mod, Nat.mod_mul_mod]

theorem prime_of_powmod (p a : Nat) (hp : 1 < p) (hlt : p < 2 ^ 32)
    (ha : powmod a p 32 (p - 1) = 1)
    (hd : ∀ q : Nat, q.Prime → q ∣ p - 1 → powmod a p 32 ((p - 1) / q) ≠ 1) : p.Prime := by
  have h1 : 1 % p = 1 := Nat.mod_eq_of_lt hp
  have cast_pow : ∀ e : Nat, e < 2 ^ 32 →
      ((a : ZMod p) ^ e = 1 ↔ powmod a p 32 e = 1) := by
    intro e he
    rw [powmod_eq a p 32 e he]
    have : ((a : ZMod p) ^ e = 1) ↔ (((a ^ e : Nat) : ZMod p) = ((1 : Nat) : ZMod p)) := by
      push_cast
      rfl
    rw [this, ZMod.natCast_eq_natCast_iff', h1]
  refine lucas_primality p (a : ZMod p) ((cast_pow _ (by omega)).mpr ha) ?_
  intro q hq hdvd
  have hle : (p - 1) / q ≤ p - 1 := Nat.div_le_self _ _
  rw [Ne, cast_pow _ (by omega)]
  exact hd q hq hdvd

theorem prime_1073707489 : Nat.Prime 1073707489 := by
  refine prime_of_powmod 1073707489 23 (by norm_num) (by norm_num)
    (by set_option maxRecDepth 100000 in decide) ?_
  intro q hq hdvd
  have hf : 1073707489 - 1 = 2 ^ 5 * 3 ^ 4 * 7 * 17 * 59 ^ 2 := by norm_num
  rw [hf] at hdvd
  have hcases : q = 2 ∨ q = 3 ∨ q = 7 ∨ q = 17 ∨ q = 59 := by
    rcases (Nat.Prime.dvd_mul hq).mp hdvd with h | h
    · rcases (Nat.Prime.dvd_mul hq).mp h with h | h
      · rcases (Nat.Prime.dvd_mul hq).mp h with h | h
        · rcases (Nat.Prime.dvd_mul hq).mp h with h | h
          · exact Or.inl ((Nat.prime_dvd_prime_iff_eq hq (by norm_num)).mp
              (Nat.Prime.dvd_of_dvd_pow hq h))
          · exact Or.inr (Or.inl ((Nat.prime_dvd_prime_iff_eq hq (by norm_num)).mp
              (Nat.Prime.dvd_of_dvd_pow hq h)))
        · exact Or.inr (Or.inr (Or.inl ((Nat.prime_dvd_prime_iff_eq hq (by norm_num)).mp h)))
      · exact Or.inr (Or.inr (Or.inr (Or.inl
          ((Nat.prime_dvd_prime_iff_eq hq (by norm_num)).mp h))))
    · exact Or.inr (Or.inr (Or.inr (Or.inr ((Nat.prime_dvd_prime_iff_eq hq (by norm_num)).mp
        (Nat.Prime.dvd_of_dvd_pow hq h)))))
  rcases hcases with h | h | h | h | h <;> subst h <;>
    (set_option maxRecDepth 100000 in decide)

theorem prime_2147483647 : Nat.Prime 2147483647 := by
  refine prime_of_powmod 2147483647 7 (by norm_num) (by norm_num)
    (by set_option maxRecDepth 100000 in decide) ?_
  intro q hq hdvd
  have hf : 2147483647 - 1 = 2 * 3 ^ 2 * 7 * 11 * 31 * 151 * 331 := by norm_num
  rw [hf] at hdvd
  have hcases : q = 2 ∨ q = 3 ∨ q = 7 ∨ q = 11 ∨ q = 31 ∨ q = 151 ∨ q = 331 := by
    rcases (Nat.Prime.dvd_mul hq).mp hdvd with h | h
    · rcases (Nat.Prime.dvd_mul hq).mp h with h | h
      · rcases (Nat.Prime.dvd_mul hq).mp h with h | h
        · rcases (Nat.Prime.dvd_mul hq).mp h with h | h
          · rcases (Nat.Prime.dvd_mul hq).mp h with h | h
            · rcases (Nat.Prime.dvd_mul hq).mp h with h | h
              · exact Or.inl ((Nat.prime_dvd_prime_iff_eq hq (by norm_num)).mp h)
              · exact Or.inr (Or.inl ((Nat.prime_dvd_prime_iff_eq hq (by norm_num)).mp
                  (Nat.Prime.dvd_of_dvd_pow hq h)))
            · exact Or.inr (Or.inr (Or.inl
                ((Nat.prime_dvd_prime_iff_eq hq (by norm_num)).mp h)))
          · exact Or.inr (Or.inr (Or.inr (Or.inl
              ((Nat.prime_dvd_prime_iff_eq hq (by norm_num)).mp h))))
        · exact Or.inr (Or.inr (Or.inr (Or.inr (Or.inl
            ((Nat.prime_dvd_prime_iff_eq hq (by norm_num)).mp h)))))
      · exact Or.inr (Or.inr (Or.inr (Or.inr (Or.inr (Or.inl
          ((Nat.prime_dvd_prime_iff_eq hq (by norm_num)).mp h))))))
    · exact Or.inr (Or.inr (Or.inr (Or.inr (Or.inr (Or.inr
        ((Nat.prime_dvd_prime_iff_eq hq (by norm_num)).mp h))))))
  rcases hcases with h | h | h | h | h | h | h <;> subst h <;>
    (set_option maxRecDepth 100000 in decide)

/-! ## The sub-problems are not Bluestein problems -/

theorem wrap32_odd (n : Int) : wrap32 (wrap32 (2 * n) - 1) % 2 = 1 := by
  unfold wrap32
  omega

theorem is_prime_two_pow (e : Nat) (he : e ≠ 1) : is_prime (2 ^ e) = false := by
  cases hp : is_prime (2 ^ e) with
  | false => rfl
  | true =>
    obtain ⟨q, hq, hqe⟩ := (is_prime_iff _).mp hp
    have hq2 : q = 2 ^ e := by exact_mod_cast hqe.symm
    rw [hq2] at hq
    exact absurd (Nat.Prime.eq_one_of_pow hq) he

theorem applicable_not_prime {K : Type} (nb : Int) (plnr : planner K)
    (h : is_prime nb = false) :
    applicable (forward_problem nb) plnr = false ∧
      applicable (backward_problem nb) plnr = false := by
  constructor <;>
    simp [applicable, applicable0, forward_problem, backward_problem, mkproblem_dft_d,
      mktensor_1d, tensor.dim, h]

/-- C18 (amended): for every prime `n` (a length `applicable0` accepts), whenever the
computation `nb = pow2_atleast(2*n - 1)` of `mkplan` returns, `nb` is a power of two
other than 2, hence not prime, and `applicable` is false on both sub-problems that
`mkplan` requests, whatever the planner flags; `nb ≥ 4` when `2*n` is representable
(`n ≤ 2^30 - 1`). For `n ≤ 2^29` the computation does return (fuel for 31 tests). -/
theorem mkplan_children_not_applicable {K : Type} (n : Int) (fuel : Nat) (plnr : planner K)
    (hp : is_prime n = true) :
    (∀ nb, pow2_atleast fuel (wrap32 (wrap32 (2 * n) - 1)) = some nb →
      (∃ e : Nat, nb = 2 ^ e ∧ e ≠ 1) ∧ is_prime nb = false ∧
      applicable (forward_problem nb) plnr = false ∧
      applicable (backward_problem nb) plnr = false ∧
      (n ≤ 1073741823 → 4 ≤ nb)) ∧
    (n ≤ 536870912 → 31 ≤ fuel →
      ∃ nb, pow2_atleast fuel (wrap32 (wrap32 (2 * n) - 1)) = some nb ∧ 4 ≤ nb) := by
  obtain ⟨q, hq, hnq⟩ := (is_prime_iff n).mp hp
  have hq2 : 2 ≤ q := hq.two_le
  have hn2 : 2 ≤ n := by omega
  have hodd := wrap32_odd n
  have key : ∀ nb, pow2_atleast fuel (wrap32 (wrap32 (2 * n) - 1)) = some nb →
      (∃ e : Nat, nb = 2 ^ e ∧ e ≠ 1) ∧ (n ≤ 1073741823 → 4 ≤ nb) := by
    intro nb hnb
    obtain ⟨e, he, hle, -, hmin⟩ := pow2_atleast_pow fuel _ nb hnb
    refine ⟨⟨e, he, ?_⟩, ?_⟩
    · intro h1
      subst h1
      have := hmin 0 (by omega)
      simp only [pow_zero, pow_one] at this hle
      omega
    · intro hn
      have e1 : wrap32 (2 * n) = 2 * n := by rw [wrap32_eq_self] <;> omega
      have e2 : wrap32 (2 * n - 1) = 2 * n - 1 := by rw [wrap32_eq_self] <;> omega
      rw [e1, e2] at hle
      have he2 : 2 ≤ e := by
        by_contra hcon
        have : e = 0 ∨ e = 1 := by omega
        rcases this with h0 | h0 <;> subst h0 <;> simp at hle <;> omega
      have : (2:Int) ^ 2 ≤ 2 ^ e := pow_le_pow_right₀ (by norm_num) he2
      rw [he]
      omega
  constructor
  · intro nb hnb
    obtain ⟨⟨e, he, he1⟩, h4⟩ := key nb hnb
    have hnp : is_prime nb = false := by rw [he]; exact is_prime_two_pow e he1
    exact ⟨⟨e, he, he1⟩, hnp, (applicable_not_prime nb plnr hnp).1,
      (applicable_not_prime nb plnr hnp).2, h4⟩
  · intro hn hf
    have e1 : wrap32 (2 * n) = 2 * n := by rw [wrap32_eq_self] <;> omega
    have e2 : wrap32 (2 * n - 1) = 2 * n - 1 := by rw [wrap32_eq_self] <;> omega
    obtain ⟨e, he, -, -⟩ := pow2_atleast_returns fuel (wrap32 (wrap32 (2 * n) - 1)) hf
      (by rw [e1, e2]; norm_num; omega)
    exact ⟨_, he, (key _ he).2 (by omega)⟩

/-- C18 (amended) at `n = 3`: `nb = 8`. -/
theorem mkplan_children_not_applicable_witness :
    is_prime 3 = true ∧
      applicable (forward_problem 8) (sample_planner ℚ) = false ∧
      applicable (backward_problem 8) (sample_planner ℚ) = false :=
  have hp : is_prime 3 = true := (is_prime_iff 3).mpr ⟨3, by norm_num, rfl⟩
  have h := (mkplan_children_not_applicable 3 31 (sample_planner ℚ) hp).1 8 (by decide)
  ⟨hp, h.2.2.1, h.2.2.2.1⟩

/-- The plan `mkplan` builds for the prime length `2^31 - 1`: `2 * n` wraps to `-2`,
`pow2_atleast (-3)` is `1`, and a buffer of `2 * 1` reals is granted. -/
theorem mersenne_mkplan (K : Type) :
    is_prime 2147483647 = true ∧
      pow2_atleast 31 (wrap32 (wrap32 (2 * 2147483647) - 1)) = some 1 ∧
      mkplan 31 (sample_problem 2147483647) (sample_planner K) =
        some ([Event.malloc Obj.buf, Event.mkplan_d Child.cldf true,
            Event.mkplan_d Child.cldb true, Event.ifree Obj.buf],
          some ⟨2147483647, 1, none, none, ⟨fun re im => (re, im)⟩,
            ⟨fun re im => (re, im)⟩, 2, 2⟩) := by
  have hp : is_prime 2147483647 = true :=
    (is_prime_iff _).mpr ⟨2147483647, prime_2147483647, rfl⟩
  have e1 : wrap32 (2 * 2147483647) = -2 := by norm_num [wrap32]
  have e2 : wrap32 (-2 - 1) = -3 := by norm_num [wrap32]
  have e3 : pow2_atleast 31 (-3) = some 1 := by
    rw [pow2_atleast, pow2_atleast_loop, if_neg (by norm_num)]
  have hpow : pow2_atleast 31 (wrap32 (wrap32 (2 * 2147483647) - 1)) = some 1 := by
    rw [e1, e2, e3]
  have happ : applicable (sample_problem 2147483647) (sample_planner K) = true := by
    simp [applicable, applicable0, sample_problem, sample_planner, mktensor_1d, tensor.dim, hp]
  have hpow2 : pow2_atleast 31 (wrap32 (wrap32 4294967294 - 1)) = some 1 := by
    rw [show (4294967294:Int) = 2 * 2147483647 by norm_num]; exact hpow
  have hok : malloc_ok 1 = true := by decide
  refine ⟨hp, hpow, ?_⟩
  simp only [mkplan, happ, Bool.not_true, Bool.false_eq_true, if_false]
  simp [sample_problem, mktensor_1d, tensor.dim, hpow2, hok, sample_planner]

/-- C18 as stated fails at the prime `n = 2^31 - 1`: `2 * n` wraps to `-2`, so
`pow2_atleast` is called with `-3` and returns `1`, and `mkplan` builds a plan with
`nb = 1`, which is not `≥ 4`. -/
theorem mkplan_nb_one :
    is_prime 2147483647 = true ∧
      pow2_atleast 31 (wrap32 (wrap32 (2 * 2147483647) - 1)) = some 1 ∧
      ∃ (tr : List Event) (ego : P ℚ),
        mkplan 31 (sample_problem 2147483647) (sample_planner ℚ) = some (tr, some ego) ∧
        ego.nb = 1 ∧ ¬ 4 ≤ ego.nb :=
  ⟨(mersenne_mkplan ℚ).1, (mersenne_mkplan ℚ).2.1, _, _, (mersenne_mkplan ℚ).2.2, rfl,
    by norm_num⟩

/-- C7 as stated fails for the freshly constructed plan of the prime length
`n = 2^31 - 1`: the first wake of the alternating sequence does not succeed, whatever
the fuel, because the count `2 * n` of the array `w` is not representable and the
allocator does not grant it. -/
theorem awake_fresh_plan_fails :
    ∃ (tr : List Event) (ego0 : P ℚ),
      mkplan 31 (sample_problem 2147483647) (sample_planner ℚ) = some (tr, some ego0) ∧
      ∀ fuel2 : Nat, run fuel2 (sample_trig ℚ) ego0
        (alternating (fun _ => (fun _ => 0, fun _ => 0)) 1) = Outcome.alloc_failed := by
  refine ⟨_, _, (mersenne_mkplan ℚ).2.2, ?_⟩
  intro fuel2
  have hok : malloc_ok 2147483647 = false := by decide
  simp [alternating, run, step, awake, hok]

/-! ## The running value of the chirp recurrence -/

theorem ksq_after_eq (fuel : Nat) (n : Int) (k : Nat) (ksq : Int)
    (h : ksq_before fuel n k = some ksq) :
    ksq_after fuel n k = next_ksq fuel (wrap32 (2 * n)) k ksq := by
  cases k with
  | zero =>
    simp only [ksq_before, Option.some.injEq] at h
    rw [ksq_after, ← h]
  | succ k =>
    simp only [ksq_before] at h
    rw [ksq_after, h]

/-- The numerators that `bluestein_sequence` passes to the collaborator are the running
values `ksq_after`. -/
theorem bluestein_sequence_loop_ksq {K : Type} (fuel : Nat) (T : trig K) (n : Int) :
    ∀ (todo k : Nat) (ksq : Int) (w w1 : Nat → K), ksq_before fuel n k = some ksq →
      bluestein_sequence_loop fuel T (wrap32 (2 * n)) todo k ksq w = some w1 →
      (∀ m, m < 2 * k → w1 m = w m) ∧
      ∀ j, k ≤ j → j < k + todo → ∃ q, ksq_after fuel n j = some q ∧
        w1 (2 * j) = T.cos2pi q (wrap32 (2 * n)) ∧
        w1 (2 * j + 1) = T.sin2pi q (wrap32 (2 * n)) := by
  intro todo
  induction todo with
  | zero =>
    intro k ksq w w1 _ h
    simp only [bluestein_sequence_loop, Option.some.injEq] at h
    subst h
    exact ⟨fun _ _ => rfl, fun j h1 h2 => by omega⟩
  | succ todo ih =>
    intro k ksq w w1 hb h
    have hafter := ksq_after_eq fuel n k ksq hb
    rw [bluestein_sequence_loop] at h
    cases hnext : next_ksq fuel (wrap32 (2 * n)) k ksq with
    | none => rw [hnext] at h; exact absurd h (by simp)
    | some ksq1 =>
      rw [hnext] at h hafter
      simp only at h
      obtain ⟨hlow, hval⟩ := ih (k + 1) ksq1 _ w1 (by rw [ksq_before]; exact hafter) h
      refine ⟨?_, ?_⟩
      · intro m hm
        rw [hlow m (by omega), store_other _ _ _ _ (by omega), store_other _ _ _ _ (by omega)]
      · intro j hj1 hj2
        rcases Nat.eq_or_lt_of_le hj1 with hjk | hjk
        · subst hjk
          refine ⟨ksq1, hafter, ?_, ?_⟩
          · rw [hlow (2 * k) (by omega), store_other _ _ _ _ (by omega), store_same]
          · rw [hlow (2 * k + 1) (by omega), store_same]
        · exact hval j (by omega) (by omega)

theorem bluestein_sequence_ksq {K : Type} (fuel : Nat) (T : trig K) (n : Int)
    (w0 w : Nat → K) (h : bluestein_sequence fuel T n w0 = some w) (k : Nat)
    (hk : k < n.toNat) :
    ∃ q, ksq_after fuel n k = some q ∧ w (2 * k) = T.cos2pi q (wrap32 (2 * n)) ∧
      w (2 * k + 1) = T.sin2pi q (wrap32 (2 * n)) :=
  (bluestein_sequence_loop_ksq fuel T n n.toNat 0 1 w0 w rfl h).2 k (Nat.zero_le _)
    (by omega)

/-- The loop returns when every iteration has a running value. -/
theorem bluestein_sequence_loop_returns {K : Type} (fuel : Nat) (T : trig K) (n : Int) :
    ∀ (todo k : Nat) (ksq : Int) (w : Nat → K), ksq_before fuel n k = some ksq →
      (∀ j, k ≤ j → j < k + todo → ∃ q, ksq_after fuel n j = some q) →
      ∃ w1, bluestein_sequence_loop fuel T (wrap32 (2 * n)) todo k ksq w = some w1 := by
  intro todo
  induction todo with
  | zero => intro k ksq w _ _; exact ⟨w, rfl⟩
  | succ todo ih =>
    intro k ksq w hb hall
    obtain ⟨q, hq⟩ := hall k (le_refl _) (by omega)
    have hnext : next_ksq fuel (wrap32 (2 * n)) k ksq = some q := by
      rw [← ksq_after_eq fuel n k ksq hb]; exact hq
    rw [bluestein_sequence_loop, hnext]
    exact ih (k + 1) q _ (by rw [ksq_before]; exact hq)
      (fun j h1 h2 => hall j (by omega) (by omega))

theorem ksq_after_chirp (fuel : Nat) (n : Int) (hf : 2 ≤ fuel) (hn : 1 ≤ n)
    (hn2 : n ≤ 536870912) :
    ∀ k : Nat, (k : Int) < n → ksq_after fuel n k = some (chirp_numerator n k) := by
  have hw : wrap32 (2 * n) = 2 * n := by rw [wrap32_eq_self] <;> omega
  intro k
  induction k with
  | zero =>
    intro _
    rw [ksq_after, hw, chirp_numerator_zero]
    exact next_ksq_zero fuel n (by omega) (by omega)
  | succ k ih =>
    intro hk
    rw [ksq_after, ih (by push_cast at hk; omega), hw]
    exact next_ksq_succ fuel n k hf (by omega) hn2 hk

/-- While `k^2` fits below `2n`, no reduction happens and the running value is `k^2`. -/
theorem ksq_after_square (fuel : Nat) (n : Int) (hf : 1 ≤ fuel) (hn : 1073697800 ≤ n)
    (hn2 : n ≤ 1073741823) :
    ∀ k : Nat, k ≤ 46340 → ksq_after fuel n k = some ((k : Int) ^ 2) := by
  obtain ⟨f, rfl⟩ : ∃ f, fuel = f + 1 := ⟨fuel - 1, by omega⟩
  have hw : wrap32 (2 * n) = 2 * n := by rw [wrap32_eq_self] <;> omega
  intro k
  induction k with
  | zero =>
    intro _
    have h1 : wrap32 (wrap32 (1 + wrap32 (2 * ((0:Nat):Int))) - 1) = 0 := by decide
    rw [ksq_after, next_ksq, h1, reduce_ksq, if_neg (by omega)]
    rfl
  | succ k ih =>
    intro hk
    have hk1 : (k : Int) ≤ 46339 := by omega
    have hk0 : (0 : Int) ≤ k := Int.natCast_nonneg k
    have hsq : (k : Int) ^ 2 ≤ 46339 ^ 2 := pow_le_pow_left₀ hk0 hk1 2
    have hsq0 : (0 : Int) ≤ (k : Int) ^ 2 := sq_nonneg _
    have hexp : (((k + 1 : Nat) : Int)) ^ 2 = (k : Int) ^ 2 + 2 * k + 1 := by
      push_cast; ring
    rw [ksq_after, ih (by omega), hw]
    show next_ksq (f + 1) (2 * n) (k + 1) ((k : Int) ^ 2) = some ((((k + 1 : Nat) : Int)) ^ 2)
    rw [hexp]
    generalize (k : Int) ^ 2 = s at hsq hsq0
    norm_num at hsq
    have e1 : wrap32 (2 * ((k + 1 : Nat) : Int)) = 2 * (k:Int) + 2 := by
      rw [wrap32_eq_self] <;> push_cast <;> omega
    have e2 : wrap32 (s + (2 * (k:Int) + 2)) = s + 2 * k + 2 := by
      rw [wrap32_eq_self] <;> omega
    have e3 : wrap32 (s + 2 * k + 2 - 1) = s + 2 * k + 1 := by
      rw [wrap32_eq_self] <;> omega
    rw [next_ksq, e1, e2, e3, reduce_ksq, if_neg (by omega)]

/-- Step `k = 46341` of the recurrence for a length just below `2^30`:
`46340^2 + 2 * 46341 = 2147488282` exceeds `INT_MAX = 2147483647`. -/
theorem ksq_after_overflow (fuel : Nat) (n : Int) (hf : 1 ≤ fuel) (hn : 1073697800 ≤ n)
    (hn2 : n ≤ 1073741823) :
    ksq_before fuel n 46341 = some 2147395600 ∧
      ksq_after fuel n 46341 = some (-2147479015) := by
  have hb : ksq_before fuel n 46341 = some 2147395600 := by
    rw [ksq_before, ksq_after_square fuel n hf hn hn2 46340 (le_refl _)]
    norm_num
  refine ⟨hb, ?_⟩
  obtain ⟨f, rfl⟩ : ∃ f, fuel = f + 1 := ⟨fuel - 1, by omega⟩
  have hw : wrap32 (2 * n) = 2 * n := by rw [wrap32_eq_self] <;> omega
  have h1 : wrap32 (wrap32 (2147395600 + wrap32 (2 * ((46341:Nat):Int))) - 1) = -2147479015 := by
    decide
  rw [ksq_after_eq _ n 46341 _ hb, hw, next_ksq, h1, reduce_ksq, if_neg (by omega)]

/-- One iteration of the recurrence always ends within two tests when `2n ≥ 2^30`:
a machine integer exceeds `n2` by less than `n2`. -/
theorem next_ksq_total (fuel : Nat) (n2 : Int) (k : Nat) (ksq : Int) (hf : 2 ≤ fuel)
    (hn2 : 1073741824 ≤ n2) (hn3 : n2 ≤ 2147483647) (hk : (k : Int) ≤ 1073741823) :
    ∃ q, next_ksq fuel n2 k ksq = some q ∧ in_int32 q ∧ q ≤ n2 := by
  obtain ⟨f, rfl⟩ : ∃ f, fuel = f + 2 := ⟨fuel - 2, by omega⟩
  unfold in_int32
  have hk0 : (0 : Int) ≤ k := Int.natCast_nonneg k
  have e1 : wrap32 (2 * (k : Int)) = 2 * k := by rw [wrap32_eq_self] <;> omega
  rw [next_ksq, e1, reduce_ksq]
  generalize hr : wrap32 (wrap32 (ksq + 2 * (k : Int)) - 1) = r
  have hr1 : -2147483648 ≤ r ∧ r ≤ 2147483647 := by
    rw [← hr]; unfold wrap32; omega
  by_cases hgt : r > n2
  · have e4 : wrap32 (r - n2) = r - n2 := by rw [wrap32_eq_self] <;> omega
    rw [if_pos hgt, e4, reduce_ksq, if_neg (by omega)]
    exact ⟨_, rfl, by omega, by omega⟩
  · rw [if_neg hgt]
    exact ⟨_, rfl, hr1, by omega⟩

theorem ksq_after_total (fuel : Nat) (n : Int) (hf : 2 ≤ fuel) (hn : 536870912 ≤ n)
    (hn2 : n ≤ 1073741823) :
    ∀ k : Nat, (k : Int) < n → ∃ q, ksq_after fuel n k = some q ∧ in_int32 q ∧
      q ≤ wrap32 (2 * n) := by
  have hw : wrap32 (2 * n) = 2 * n := by rw [wrap32_eq_self] <;> omega
  intro k
  induction k with
  | zero =>
    intro _
    rw [ksq_after]
    exact next_ksq_total fuel _ 0 1 hf (by omega) (by omega) (by norm_num)
  | succ k ih =>
    intro hk
    obtain ⟨q, hq, -, -⟩ := ih (by push_cast at hk; omega)
    rw [ksq_after, hq]
    exact next_ksq_total fuel _ (k + 1) q hf (by omega) (by omega) (by omega)

theorem bluestein_sequence_total {K : Type} (fuel : Nat) (T : trig K) (n : Int)
    (hf : 2 ≤ fuel) (hn : 536870912 ≤ n) (hn2 : n ≤ 1073741823) (w0 : Nat → K) :
    ∃ w, bluestein_sequence fuel T n w0 = some w := by
  refine bluestein_sequence_loop_returns fuel T n n.toNat 0 1 w0 rfl ?_
  intro j _ hj
  obtain ⟨q, hq, -⟩ := ksq_after_total fuel n hf hn hn2 j (by omega)
  exact ⟨q, hq⟩

theorem next_ksq_value (fuel : Nat) (n : Int) (k : Nat) (ksq : Int) (hf : 2 ≤ fuel)
    (hn : 0 < n) (hn2 : n ≤ 536870912) (hk : (k : Int) < n) (h0 : 0 ≤ ksq)
    (h1 : ksq ≤ 2 * n) :
    next_ksq fuel (2 * n) k ksq =
        some (if ksq + 2 * k - 1 > 2 * n then ksq + 2 * k - 1 - 2 * n else ksq + 2 * k - 1) ∧
      step_in_range fuel (2 * n) k ksq := by
  obtain ⟨f, rfl⟩ : ∃ f, fuel = f + 2 := ⟨fuel - 2, by omega⟩
  have hk0 : (0 : Int) ≤ k := Int.natCast_nonneg k
  have e1 : wrap32 (2 * (k : Int)) = 2 * k := by rw [wrap32_eq_self] <;> omega
  have e2 : wrap32 (ksq + 2 * (k : Int)) = ksq + 2 * k := by rw [wrap32_eq_self] <;> omega
  have e3 : wrap32 (ksq + 2 * (k : Int) - 1) = ksq + 2 * k - 1 := by
    rw [wrap32_eq_self] <;> omega
  unfold step_in_range
  rw [next_ksq, e1, e2, e3, reduce_ksq, reduce_in_range]
  by_cases hgt : ksq + 2 * (k : Int) - 1 > 2 * n
  · have e4 : wrap32 (ksq + 2 * k - 1 - 2 * n) = ksq + 2 * k - 1 - 2 * n := by
      rw [wrap32_eq_self] <;> omega
    rw [if_pos hgt, if_pos hgt, if_pos hgt, e4, reduce_ksq, reduce_in_range,
      if_neg (by omega), if_neg (by omega)]
    unfold in_int32
    exact ⟨rfl, by omega, by omega, by omega, by omega, trivial⟩
  · rw [if_neg hgt, if_neg hgt, if_neg hgt]
    unfold in_int32
    exact ⟨rfl, by omega, by omega, by omega, trivial⟩

theorem ksq_before_bounds (fuel : Nat) (n : Int) (k : Nat) (hf : 2 ≤ fuel) (hn : 1 ≤ n)
    (hn2 : n ≤ 536870912) (hk : (k : Int) < n) :
    ∃ ksq0, ksq_before fuel n k = some ksq0 ∧ 0 ≤ ksq0 ∧ ksq0 ≤ 2 * n := by
  cases k with
  | zero => exact ⟨1, rfl, by omega, by omega⟩
  | succ k =>
    obtain ⟨b0, b1, -⟩ := chirp_numerator_bounds n k (by omega)
    exact ⟨_, ksq_after_chirp fuel n hf hn hn2 k (by push_cast at hk; omega), b0, b1⟩

/-- C16 as stated fails for `n = 2^30 - 1`: step `k = 46341` starts from
`ksq = 46340^2 = 2147395600`, the sum `ksq + 2*k` wraps, and the value of `ksq` after
the step is `-2147479015`, negative and not congruent to `k^2` modulo `2n`. -/
theorem ksq_after_negative :
    ∃ q, ksq_after 2 1073741823 46341 = some q ∧ q < 0 ∧
      q % (2 * 1073741823) ≠ 46341 ^ 2 % (2 * 1073741823) :=
  ⟨_, (ksq_after_overflow 2 1073741823 (by decide) (by decide) (by decide)).2, by decide,
    by decide⟩

/-- C16 (amended): for every `1 ≤ n ≤ 2^29` and every `k` in `0..n-1`, the value `q` of
`ksq` after step `k` of `bluestein_sequence` exists (the inner loop ends), satisfies
`0 ≤ q ≤ 2n` and `q ≡ k^2 (mod 2n)`, and the inner loop
`while (ksq > n2) ksq -= n2` performs at most one subtraction: `q` is `ksq + 2*k - 1`
or `ksq + 2*k - 1 - 2n` for the value `ksq` before the step, and fuel for two tests
of the loop condition is enough. -/
theorem ksq_after_invariant (fuel : Nat) (n : Int) (k : Nat) (hf : 2 ≤ fuel) (hn : 1 ≤ n)
    (hn2 : n ≤ 536870912) (hk : (k : Int) < n) :
    ∃ ksq0 q, ksq_before fuel n k = some ksq0 ∧ ksq_after fuel n k = some q ∧
      0 ≤ q ∧ q ≤ 2 * n ∧ q % (2 * n) = (k : Int) ^ 2 % (2 * n) ∧
      (q = ksq0 + 2 * k - 1 ∨ q = ksq0 + 2 * k - 1 - 2 * n) ∧
      ksq_before 2 n k = some ksq0 ∧ ksq_after 2 n k = some q := by
  have hw : wrap32 (2 * n) = 2 * n := by rw [wrap32_eq_self] <;> omega
  obtain ⟨ksq0, hb, h0, h1⟩ := ksq_before_bounds fuel n k hf hn hn2 hk
  obtain ⟨b0, b1, b2⟩ := chirp_numerator_bounds n k (by omega)
  have ha := ksq_after_chirp fuel n hf hn hn2 k hk
  have hv := (next_ksq_value fuel n k ksq0 hf (by omega) hn2 hk h0 h1).1
  have hb2 : ksq_before 2 n k = some ksq0 := by
    cases k with
    | zero => exact hb
    | succ k =>
      have h3 := ksq_after_chirp fuel n hf hn hn2 k (by push_cast at hk; omega)
      rw [ksq_before] at hb ⊢
      rw [ksq_after_chirp 2 n (le_refl 2) hn hn2 k (by push_cast at hk; omega), ← hb, h3]
  refine ⟨ksq0, chirp_numerator n k, hb, ha, b0, b1,
    Int.emod_eq_emod_iff_emod_sub_eq_zero.mpr (Int.emod_eq_zero_of_dvd b2), ?_, hb2,
    ksq_after_chirp 2 n (le_refl 2) hn hn2 k hk⟩
  rw [ksq_after_eq fuel n k ksq0 hb, hw, hv] at ha
  have := Option.some.inj ha
  by_cases hgt : ksq0 + 2 * (k : Int) - 1 > 2 * n
  · rw [if_pos hgt] at this
    exact Or.inr this.symm
  · rw [if_neg hgt] at this
    exact Or.inl this.symm

/-- C16 (amended) at the largest length it covers, `n = 2^29`, and `k = n - 1`. -/
theorem ksq_after_invariant_witness :
    ∃ q, ksq_after 2 536870912 536870911 = some q ∧ 0 ≤ q ∧ q ≤ 2 * 536870912 :=
  let ⟨_, q, _, h2, h3, h4, _⟩ :=
    ksq_after_invariant 2 536870912 536870911 (by decide) (by decide) (by decide) (by decide)
  ⟨q, h2, h3, h4⟩

/-- C13 as stated fails for `n = 2^30 - 1` (where `2n` is representable) at
`k = 46341 < n`: the step starts from `ksq = 46340^2 = 2147395600`, and
`ksq + 2*k = 2147488282` is larger than `INT_MAX = 2147483647`. -/
theorem ksq_step_overflows :
    ksq_before 2 1073741823 46341 = some 2147395600 ∧
      ¬ in_int32 (2147395600 + 2 * 46341) ∧
      ¬ step_in_range 2 (wrap32 (2 * 1073741823)) 46341 2147395600 :=
  ⟨(ksq_after_overflow 2 1073741823 (by decide) (by decide) (by decide)).1, by decide,
    fun h => absurd h.2.1 (by decide)⟩

/-- C13 (amended): for every `1 ≤ n ≤ 2^29` and every `k` in `0..n-1`, `n2 = 2*n` is
representable, step `k` of the recurrence in `bluestein_sequence` starts from a value
`ksq` for which `2*k`, `ksq + 2*k`, `ksq + 2*k - 1` and each `ksq - n2` of the inner
loop are within the signed 32-bit range, and the inner loop ends; so the recurrence
never overflows. -/
theorem ksq_step_in_range (fuel : Nat) (n : Int) (k : Nat) (hf : 2 ≤ fuel) (hn : 1 ≤ n)
    (hn2 : n ≤ 536870912) (hk : (k : Int) < n) :
    in_int32 (2 * n) ∧ wrap32 (2 * n) = 2 * n ∧
      ∃ ksq0, ksq_before fuel n k = some ksq0 ∧
        step_in_range fuel (wrap32 (2 * n)) k ksq0 ∧
        ∃ q, next_ksq fuel (wrap32 (2 * n)) k ksq0 = some q ∧ ksq_after fuel n k = some q ∧
          in_int32 q := by
  have hw : wrap32 (2 * n) = 2 * n := by rw [wrap32_eq_self] <;> omega
  obtain ⟨ksq0, hb, h0, h1⟩ := ksq_before_bounds fuel n k hf hn hn2 hk
  obtain ⟨hv, hr⟩ := next_ksq_value fuel n k ksq0 hf (by omega) hn2 hk h0 h1
  obtain ⟨b0, b1, -⟩ := chirp_numerator_bounds n k (by omega)
  have ha := ksq_after_chirp fuel n hf hn hn2 k hk
  refine ⟨by unfold in_int32; omega, hw, ksq0, hb, by rw [hw]; exact hr,
    chirp_numerator n k, ?_, ha, by unfold in_int32; omega⟩
  rw [← ksq_after_eq fuel n k ksq0 hb]
  exact ha

/-- C13 (amended) at the largest length it covers, `n = 2^29`, and `k = n - 1`. -/
theorem ksq_step_in_range_witness :
    in_int32 (2 * 536870912) ∧
      ∃ ksq0, ksq_before 2 536870912 536870911 = some ksq0 ∧
        step_in_range 2 (wrap32 (2 * 536870912)) 536870911 ksq0 :=
  let ⟨h1, _, ksq0, h2, h3, _⟩ :=
    ksq_step_in_range 2 536870912 536870911 (by decide) (by decide) (by decide) (by decide)
  ⟨h1, ksq0, h2, h3⟩

theorem prime_not_dvd_sq (n : Int) (k : Nat) (hp : is_prime n = true) (hk0 : 0 < k)
    (hk : (k : Int) < n) : ¬ (2 * n ∣ (k : Int) ^ 2) := by
  obtain ⟨q, hq, hnq⟩ := (is_prime_iff n).mp hp
  subst hnq
  intro hdvd
  have h1 : (q : Int) ∣ (k : Int) ^ 2 := Dvd.dvd.trans (Dvd.intro_left 2 rfl) hdvd
  have h2 : q ∣ k ^ 2 := by exact_mod_cast h1
  have h3 : q ∣ k := Nat.Prime.dvd_of_dvd_pow hq h2
  have h4 : q ≤ k := Nat.le_of_dvd hk0 h3
  omega

theorem chirp_numerator_prime (n : Int) (k : Nat) (hp : is_prime n = true)
    (hk : (k : Int) < n) : chirp_numerator n k = (k : Int) ^ 2 % (2 * n) := by
  unfold chirp_numerator
  rw [if_neg]
  rintro ⟨hk0, hdvd⟩
  exact prime_not_dvd_sq n k hp hk0 hk hdvd

/-- C17 as stated fails for the prime `n = 1073707489` at `k = 46341`: the step
starts from `ksq = 46340^2`, the sum `ksq + 2*k` wraps, and the numerator passed to
the collaborator is `-2147479015`, while `k^2 mod 2n = 73303`. -/
theorem bluestein_sequence_prime_numerator_wraps :
    is_prime 1073707489 = true ∧
      ∃ w, bluestein_sequence 2 numerator_trig 1073707489 (fun _ => 0) = some w ∧
        w (2 * 46341) = -2147479015 ∧ (46341 : Int) ^ 2 % (2 * 1073707489) = 73303 := by
  refine ⟨(is_prime_iff _).mpr ⟨1073707489, prime_1073707489, rfl⟩, ?_⟩
  obtain ⟨w, hw⟩ := bluestein_sequence_total 2 numerator_trig 1073707489 (le_refl 2)
    (by decide) (by decide) (fun _ => 0)
  obtain ⟨q, hq, hc, -⟩ := bluestein_sequence_ksq 2 numerator_trig 1073707489 _ w hw 46341
    (by decide)
  rw [(ksq_after_overflow 2 1073707489 (by decide) (by decide) (by decide)).2] at hq
  refine ⟨w, hw, ?_, by decide⟩
  rw [hc, ← Option.some.inj hq]
  rfl

/-- C17 (amended): for every prime `n ≤ 2^29` and every `k` in `0..n-1`,
`bluestein_sequence` returns and the numerator it passes to `cos2pi`/`sin2pi` for
entry `k` is `k^2 mod 2n`, which is non-negative and strictly less than the
denominator `2n`; the boundary value `2n` is not passed. Every length `n` with
representable `2n` for which `mkplan` builds a plan is such a prime. -/
theorem bluestein_sequence_prime_numerator {K : Type} (fuel : Nat) (T : trig K) (n : Int)
    (k : Nat) (w0 : Nat → K) (hf : 2 ≤ fuel) (hp : is_prime n = true)
    (hn2 : n ≤ 536870912) (hk : (k : Int) < n) :
    (∃ w, bluestein_sequence fuel T n w0 = some w ∧
      w (2 * k) = T.cos2pi ((k : Int) ^ 2 % (2 * n)) (2 * n) ∧
      w (2 * k + 1) = T.sin2pi ((k : Int) ^ 2 % (2 * n)) (2 * n)) ∧
    ksq_after fuel n k = some ((k : Int) ^ 2 % (2 * n)) ∧
    0 ≤ (k : Int) ^ 2 % (2 * n) ∧ (k : Int) ^ 2 % (2 * n) < 2 * n ∧
    chirp_numerator n k ≠ 2 * n ∧
    ∀ (fuelp : Nat) (p_ : problem) (plnr : planner K) (tr : List Event) (ego : P K),
      mkplan fuelp p_ plnr = some (tr, some ego) → ego.n ≤ 1073741823 →
        is_prime ego.n = true ∧ ego.n ≤ 536870912 := by
  obtain ⟨q, hq, hnq⟩ := (is_prime_iff n).mp hp
  have hq2 : 2 ≤ q := hq.two_le
  have hn : 1 ≤ n := by omega
  have hN : (0 : Int) < 2 * n := by omega
  have hc := chirp_numerator_prime n k hp hk
  obtain ⟨w, h1, -, h2⟩ := bluestein_sequence_spec fuel T n hf (by omega) hn2 w0
  have hlt : (k : Int) ^ 2 % (2 * n) < 2 * n := Int.emod_lt_of_pos _ hN
  refine ⟨⟨w, h1, ?_, ?_⟩, ?_, Int.emod_nonneg _ (by omega), hlt, by rw [hc]; omega, ?_⟩
  · rw [← hc]; exact (h2 k hk).1
  · rw [← hc]; exact (h2 k hk).2
  · rw [← hc]; exact ksq_after_chirp fuel n hf hn hn2 k hk
  · intro fuelp p_ plnr tr ego hmk hrep
    obtain ⟨-, -, hprime, hpow⟩ := mkplan_fresh fuelp p_ plnr tr ego hmk
    obtain ⟨q1, hq1, hnq1⟩ := hprime
    have hq12 : 2 ≤ q1 := hq1.two_le
    refine ⟨(is_prime_iff _).mpr ⟨q1, hq1, hnq1⟩, ?_⟩
    have e1 : wrap32 (2 * ego.n) = 2 * ego.n := by rw [wrap32_eq_self] <;> omega
    have e2 : wrap32 (2 * ego.n - 1) = 2 * ego.n - 1 := by rw [wrap32_eq_self] <;> omega
    rw [e1, e2] at hpow
    have := (pow2_atleast_some fuelp _ _ hpow).2
    omega

/-- C17 (amended) at the prime `n = 3`, `k = 2`, with the recording collaborator: the
numerator is `4 = 2^2 mod 6`. -/
theorem bluestein_sequence_prime_numerator_witness :
    is_prime 3 = true ∧
      ∃ w, bluestein_sequence 2 numerator_trig 3 (fun _ => 0) = some w ∧ w (2 * 2) = 4 :=
  have hp : is_prime 3 = true := (is_prime_iff 3).mpr ⟨3, by norm_num, rfl⟩
  let ⟨⟨w, h1, h2, _⟩, _⟩ := bluestein_sequence_prime_numerator 2 numerator_trig 3 2
    (fun _ => 0) (by decide) hp (by decide) (by decide)
  ⟨hp, w, h1, by rw [h2]; decide⟩

/-! ## Layout of the convolution kernel -/

theorem ilog2_loop_pow (e : Nat) : ∀ f : Nat, e < f → ilog2_loop f (2 ^ e) = e := by
  induction e with
  | zero =>
    intro f hf
    obtain ⟨f1, rfl⟩ : ∃ f1, f = f1 + 1 := ⟨f - 1, by omega⟩
    simp [ilog2_loop]
  | succ e ih =>
    intro f hf
    obtain ⟨f1, rfl⟩ : ∃ f1, f = f1 + 1 := ⟨f - 1, by omega⟩
    have hpos : 0 < 2 ^ e := by positivity
    have h2 : ¬ (2 ^ (e + 1) < 2) := by rw [pow_succ]; omega
    have hdiv : 2 ^ (e + 1) / 2 = 2 ^ e := by rw [pow_succ]; omega
    rw [ilog2_loop, if_neg h2, hdiv, ih f1 (by omega)]

/-- The binary64 quotient `1.0 / nb` is exact for every power of two `nb`. -/
theorem recip_binary64_pow2 (e : Nat) : recip_binary64 (2 ^ e) = 1 / 2 ^ e := by
  have hcast : ((2:Int) ^ e).toNat = 2 ^ e := by
    have : ((2:Int) ^ e) = ((2 ^ e : Nat) : Int) := by push_cast; rfl
    rw [this, Int.toNat_natCast]
  have hlog : ilog2 (2 ^ e) = e := ilog2_loop_pow e _ (Nat.lt_two_pow e)
  have hpos : 0 < 2 ^ e := by positivity
  have hdiv : div_round_even (2 ^ (e + 53)) (2 ^ e) = 2 ^ 53 := by
    have hmod : 2 ^ (e + 53) % 2 ^ e = 0 := by rw [pow_add]; exact Nat.mul_mod_right _ _
    have hq : 2 ^ (e + 53) / 2 ^ e = 2 ^ 53 := by
      rw [pow_add]; exact Nat.mul_div_cancel_left _ hpos
    unfold div_round_even
    rw [hmod, if_pos (by omega), hq]
  unfold recip_binary64
  rw [hcast, hlog, hdiv]
  push_cast
  rw [pow_add]
  field_simp
  norm_num
  ring

/-- The binary64 quotient `1.0 / 7`. -/
theorem recip_binary64_seven :
    recip_binary64 7 = 5146971002709138 / 36028797018963968 := by
  have h1 : ilog2 (7 : Int).toNat = 2 := by decide
  have h2 : div_round_even (2 ^ (2 + 53)) (7 : Int).toNat = 5146971002709138 := by decide
  unfold recip_binary64
  rw [h1, h2]
  norm_num

/-- C11 as stated fails for `n = 3`, `nb = 7 ≥ 2n - 1` with binary64 scalars:
`w[0] = (1, 0)` and `mktwiddle` hands the forward sub-plan the value
`w[0] * nbinv = 1.0 / 7` rounded to binary64 at index 0, which is not `w[0] / 7`.
It also fails for `n = 1`, `nb = 2^30`: the count `2 * nb` of the array `W` is not
representable, and `mktwiddle` hands the sub-plan nothing. -/
theorem mktwiddle_kernel_rounded :
    ∃ w : Nat → ℚ,
      bluestein_sequence 2 binary64_trig 3 (fun _ => 0) = some w ∧ w 0 = 1 ∧
      mktwiddle 2 binary64_trig { sample_plan ℚ with nb := 7 } (fun _ => 0) (fun _ => 0) =
        Outcome.done { sample_plan ℚ with
          nb := 7, w := some w,
          W := some (child_apply (sample_plan ℚ).cldf 7
            (mktwiddle_fill binary64_trig 3 7 w (fun _ => 0))) } ∧
      mktwiddle_fill binary64_trig 3 7 w (fun _ => 0) 0 =
        5146971002709138 / 36028797018963968 ∧
      mktwiddle_fill binary64_trig 3 7 w (fun _ => 0) 0 ≠ w 0 / 7 ∧
      mktwiddle 2 binary64_trig { sample_plan ℚ with n := 1, nb := 1073741824 }
        (fun _ => 0) (fun _ => 0) = Outcome.alloc_failed := by
  obtain ⟨w, hw, -, hv⟩ := bluestein_sequence_spec 2 binary64_trig 3 (le_refl 2)
    (by norm_num) (by norm_num) (fun _ => 0)
  have hw0 : w 0 = 1 := (hv 0 (by norm_num)).1
  have hok3 : malloc_ok 3 = true := by decide
  have hok7 : malloc_ok 7 = true := by decide
  have hok1 : malloc_ok 1 = true := by decide
  have hbig : malloc_ok 1073741824 = false := by decide
  have hfill : mktwiddle_fill binary64_trig 3 7 w (fun _ => 0) 0 =
      5146971002709138 / 36028797018963968 := by
    rw [mktwiddle_fill_eq binary64_trig 3 7 w (fun _ => 0) (by norm_num) (by norm_num)
      (by norm_num) 0 (by decide), if_pos (by decide), hw0, one_mul]
    exact recip_binary64_seven
  refine ⟨w, hw, hw0, ?_, hfill, ?_, ?_⟩
  · simp [mktwiddle, sample_plan, hw, hok3, hok7]
  · rw [hfill, hw0]
    norm_num
  · simp [mktwiddle, sample_plan, hok1, hbig]

/-- C11 (amended): for `n ≥ 1` and `nb ≥ 2n - 1` with representable `2 * nb` (the
array `W` is granted), `mktwiddle` returns, and the array it hands to the forward
sub-plan (`mktwiddle_fill`; `child_apply` passes its first `nb` complex entries to
`cldf`) has at each index `j` in `0..nb-1` the value `w[j] * nbinv` if `j < n`, the
value `w[nb-j] * nbinv` if `nb - n < j`, and `0` otherwise (real part `c = 0` and
imaginary part `c = 1` alike), where `nbinv` is the quotient `1.0 / nb` of the
machine; these are `w[j] / nb` and `w[nb-j] / nb` when that quotient is exact, as the
binary64 quotient is for every power of two. No index is in both ranges, the indices
`nb - i` that the second loop writes (`1 ≤ i < n`) are not `0` and not below `n`, and
the sequence is symmetric: entry `(nb - j) mod nb` equals entry `j`. -/
theorem mktwiddle_layout {K : Type} [Field K] (fuel : Nat) (T : trig K) (p : P K)
    (w w0 W0 : Nat → K) (hn : 1 ≤ p.n) (hnb : 2 * p.n - 1 ≤ p.nb)
    (hal : malloc_ok p.nb = true)
    (hw : bluestein_sequence fuel T p.n w0 = some w) :
    mktwiddle fuel T p w0 W0 = Outcome.done { p with
        w := some w,
        W := some (child_apply p.cldf p.nb.toNat (mktwiddle_fill T p.n p.nb w W0)) } ∧
    (∀ j c : Nat, j < p.nb.toNat → c < 2 →
      mktwiddle_fill T p.n p.nb w W0 (2 * j + c) =
        if j < p.n.toNat then w (2 * j + c) * T.recip p.nb
        else if p.nb.toNat - p.n.toNat < j then w (2 * (p.nb.toNat - j) + c) * T.recip p.nb
        else 0) ∧
    (T.recip p.nb = 1 / (p.nb : K) → ∀ j c : Nat, j < p.nb.toNat → c < 2 →
      mktwiddle_fill T p.n p.nb w W0 (2 * j + c) =
        if j < p.n.toNat then w (2 * j + c) / (p.nb : K)
        else if p.nb.toNat - p.n.toNat < j then w (2 * (p.nb.toNat - j) + c) / (p.nb : K)
        else 0) ∧
    (∀ e : Nat, recip_binary64 (2 ^ e) = 1 / 2 ^ e) ∧
    (∀ j : Nat, ¬ (j < p.n.toNat ∧ p.nb.toNat - p.n.toNat < j)) ∧
    (∀ i : Nat, 1 ≤ i → i < p.n.toNat →
      pos_re (wrap32 (p.nb - (i : Int))) = 2 * (p.nb.toNat - i) ∧
        pos_im (wrap32 (p.nb - (i : Int))) = 2 * (p.nb.toNat - i) + 1 ∧
        p.nb.toNat - i ≠ 0 ∧ p.n.toNat ≤ p.nb.toNat - i ∧ p.nb.toNat - i < p.nb.toNat) ∧
    (∀ j c : Nat, j < p.nb.toNat → c < 2 →
      mktwiddle_fill T p.n p.nb w W0 (2 * ((p.nb.toNat - j) % p.nb.toNat) + c) =
        mktwiddle_fill T p.n p.nb w W0 (2 * j + c)) := by
  have hal2 := ((malloc_ok_iff _).mp hal).2
  have hokn : malloc_ok p.n = true := (malloc_ok_iff _).mpr ⟨by omega, by omega⟩
  have hlay : ∀ j c : Nat, j < p.nb.toNat → c < 2 →
      mktwiddle_fill T p.n p.nb w W0 (2 * j + c) =
        if j < p.n.toNat then w (2 * j + c) * T.recip p.nb
        else if p.nb.toNat - p.n.toNat < j then w (2 * (p.nb.toNat - j) + c) * T.recip p.nb
        else 0 := by
    intro j c hj hc
    rw [mktwiddle_fill_eq T p.n p.nb w W0 hn hnb hal2 (2 * j + c) (by omega)]
    have hdiv : (2 * j + c) / 2 = j := by omega
    have hmod : (2 * j + c) % 2 = c := by omega
    by_cases h1 : j < p.n.toNat
    · rw [if_pos (by omega), if_pos h1]
    · rw [if_neg (by omega), if_neg h1]
      by_cases h2 : p.nb.toNat - p.n.toNat < j
      · rw [if_pos (by omega), if_pos h2, hdiv, hmod]
      · rw [if_neg (by omega), if_neg h2]
  refine ⟨by simp [mktwiddle, hw, hokn, hal], hlay, ?_, recip_binary64_pow2, ?_, ?_, ?_⟩
  · intro hrec j c hj hc
    rw [hlay j c hj hc, hrec]
    simp only [mul_one_div]
  · rintro j ⟨h1, h2⟩
    omega
  · intro i h1 h2
    exact ⟨pos_re_sub p.nb i (by omega) hal2, pos_im_sub p.nb i (by omega) hal2, by omega,
      by omega, by omega⟩
  · intro j c hj hc
    by_cases hj0 : j = 0
    · subst hj0
      rw [Nat.sub_zero, Nat.mod_self]
    · have hm : (p.nb.toNat - j) % p.nb.toNat = p.nb.toNat - j :=
        Nat.mod_eq_of_lt (by omega)
      have hback : p.nb.toNat - (p.nb.toNat - j) = j := by omega
      rw [hm, hlay (p.nb.toNat - j) c (by omega) hc, hlay j c hj hc]
      by_cases h1 : j < p.n.toNat
      · rw [if_pos h1, if_neg (by omega), if_pos (by omega), hback]
      · rw [if_neg h1]
        by_cases h2 : p.nb.toNat - p.n.toNat < j
        · rw [if_pos h2, if_pos (by omega)]
        · rw [if_neg h2, if_neg (by omega), if_neg (by omega)]

/-- C11 (amended) on the sample plan (`n = 3`, `nb = 8`) with binary64 scalars: index 1
holds `w[1]/8`, index 7 holds the same value, index 4 holds zero. -/
theorem mktwiddle_layout_witness :
    ∃ w : Nat → ℚ,
      bluestein_sequence 2 binary64_trig (sample_plan ℚ).n (fun _ => 5) = some w ∧
      mktwiddle_fill binary64_trig 3 8 w (fun _ => 7) (2 * 1 + 0) = w (2 * 1 + 0) / 8 ∧
      mktwiddle_fill binary64_trig 3 8 w (fun _ => 7) (2 * 7 + 0) = w (2 * 1 + 0) / 8 ∧
      mktwiddle_fill binary64_trig 3 8 w (fun _ => 7) (2 * 4 + 0) = 0 :=
  let ⟨w, hw, _⟩ := mktwiddle_some 2 binary64_trig (sample_plan ℚ)
    (fun _ => 5) (fun _ => 7) (le_refl 2) (by decide) (by decide) (by decide)
  have hrec : binary64_trig.recip (sample_plan ℚ).nb = 1 / (((sample_plan ℚ).nb : Int) : ℚ) := by
    have h := recip_binary64_pow2 3
    norm_num at h
    simpa [binary64_trig, sample_plan] using h
  have h := (mktwiddle_layout 2 binary64_trig (sample_plan ℚ) w (fun _ => 5)
    (fun _ => 7) (by decide) (by decide) (by decide) hw).2.2.1 hrec
  ⟨w, hw, by simpa [sample_plan] using h 1 0 (by decide) (by decide),
    by simpa [sample_plan] using h 7 0 (by decide) (by decide),
    by simpa [sample_plan] using h 4 0 (by decide) (by decide)⟩

/-! ## Frame -/

/-- C12: `apply` leaves the plan as it is, every field and the contents of `w` and
`W` included, it returns exactly when `w` and `W` are present and the allocator
grants its scratch array, and the memory after the
call differs from the memory before at most at the output positions `ro[i*os]`,
`io[i*os]` for `i` in `0..n-1`; `awake(plan, flg)`, for either flag, leaves `n`, `nb`,
`is`, `os` and the two sub-plans unchanged. -/
theorem apply_awake_frame {K : Type} [Field K] (fuel : Nat) (T : trig K) (ego : P K) :
    (∀ (mem : Int → K) (ri ii ro io : Int) (b0 : Nat → K) (s : P K),
      step fuel T ego (Op.apply mem ri ii ro io b0) = Outcome.done s → s = ego) ∧
    (∀ (mem : Int → K) (ri ii ro io : Int) (b0 : Nat → K),
      (∃ mem1, apply ego mem ri ii ro io b0 = some mem1) ↔
        (ego.w.isSome = true ∧ ego.W.isSome = true ∧ malloc_ok ego.nb = true)) ∧
    (∀ (mem mem1 : Int → K) (ri ii ro io : Int) (b0 : Nat → K),
      apply ego mem ri ii ro io b0 = some mem1 →
      ∀ a : Int, (∀ i : Nat, i < ego.n.toNat →
          a ≠ ro + wrap32 (i * ego.os) ∧ a ≠ io + wrap32 (i * ego.os)) →
        mem1 a = mem a) ∧
    (∀ (flg : Int) (w0 W0 : Nat → K) (s : P K),
      (awake fuel T ego flg w0 W0).2 = Outcome.done s →
      s.n = ego.n ∧ s.nb = ego.nb ∧ s.is = ego.is ∧ s.os = ego.os ∧
        s.cldf = ego.cldf ∧ s.cldb = ego.cldb) := by
  refine ⟨?_, ?_, ?_, ?_⟩
  · intro mem ri ii ro io b0 s h
    simp only [step] at h
    cases happ : apply ego mem ri ii ro io b0 with
    | none =>
      rw [happ] at h
      cases hok : malloc_ok ego.nb <;> simp [hok] at h
    | some m =>
      rw [happ] at h
      simp only [Outcome.done.injEq] at h
      exact h.symm
  · intro mem ri ii ro io b0
    cases hok : malloc_ok ego.nb with
    | false => simp [apply, hok]
    | true =>
      cases hw : ego.w with
      | none => simp [apply, hok, hw]
      | some w =>
        cases hW : ego.W with
        | none => simp [apply, hok, hw, hW]
        | some W => simp [apply, hok, hw, hW]
  · intro mem mem1 ri ii ro io b0 h a ha
    cases hok : malloc_ok ego.nb with
    | false => simp [apply, hok] at h
    | true =>
      cases hw : ego.w with
      | none => simp [apply, hok, hw] at h
      | some w =>
        cases hW : ego.W with
        | none => simp [apply, hok, hw, hW] at h
        | some W =>
          simp only [apply, hok, hw, hW, Bool.not_true, Bool.false_eq_true, if_false,
            Option.some.injEq] at h
          rw [← h]
          exact apply_unload_frame ego w _ mem ro io a ha
  · intro flg w0 W0 s h
    by_cases hflg : flg = 0
    · subst hflg
      rw [awake_sleep] at h
      simp only [Outcome.done.injEq] at h
      subst h
      exact ⟨rfl, rfl, rfl, rfl, rfl, rfl⟩
    · cases hw : ego.w.isSome with
      | true => simp [awake, hflg, hw] at h
      | false =>
        cases hn : malloc_ok ego.n with
        | false => simp [awake, hflg, hw, hn] at h
        | true =>
          simp only [awake, hflg, hw, hn, ne_eq, not_false_eq_true, if_true,
            Bool.false_eq_true, if_false, Bool.not_true] at h
          obtain ⟨h1, h2, h3, h4, h5, h6⟩ :=
            (mktwiddle_fields fuel T ego _ w0 W0 h).2.2
          exact ⟨h1, h2, h5, h6, h3, h4⟩

/-! ## The inverse transform by exchanging the arrays -/

/-- C14: let the child `cld` compute the unnormalised forward DFT `F` of length `nb`.
The call with the real and imaginary arrays exchanged on input and output, as `apply`
makes it with `cldb` on `(b+1, b, b+1, b)`, leaves in `b` the vector
`conj(F(conj(b)))` (the child run on the conjugated input, the result conjugated),
which is the unnormalised inverse DFT `sum_j b[j] exp(+2 pi i j k / nb)`; applied after
`F` it gives `nb` times the original vector. -/
theorem child_apply_swapped_inverse (nb : Nat) (hnb : 0 < nb) (cld : plan_dft ℝ)
    (hdft : computes_dft nb cld) (b : Nat → ℝ) (k : Nat) (hk : k < nb) :
    cpx (child_apply_swapped cld nb b) k =
        (starRingEnd ℂ)
          ⟨(cld.apply (fun j => if j < nb then b (2 * j) else 0)
              (fun j => -(if j < nb then b (2 * j + 1) else 0))).1 k,
            (cld.apply (fun j => if j < nb then b (2 * j) else 0)
              (fun j => -(if j < nb then b (2 * j + 1) else 0))).2 k⟩ ∧
      cpx (child_apply_swapped cld nb b) k =
        (starRingEnd ℂ) (∑ j in Finset.range nb,
          (starRingEnd ℂ) (cpx b j) * Complex.exp (-(2 * Real.pi * Complex.I * j * k / nb))) ∧
      cpx (child_apply_swapped cld nb b) k =
        ∑ j in Finset.range nb, cpx b j * Complex.exp (2 * Real.pi * Complex.I * j * k / nb) ∧
      cpx (child_apply_swapped cld nb (child_apply cld nb b)) k = nb * cpx b k := by
  have hinv := computes_dft_inverse_swapped nb cld hdft
  have hsw := child_apply_swapped_cpx cld nb hinv b k hk
  have hconj : ∀ j : Nat,
      (starRingEnd ℂ) (Complex.exp (-(2 * Real.pi * Complex.I * j * k / nb))) =
        Complex.exp (2 * Real.pi * Complex.I * j * k / nb) := by
    intro j
    rw [← Complex.exp_conj]
    congr 1
    simp only [map_neg, map_div₀, map_mul, Complex.conj_ofReal, Complex.conj_I, map_ofNat,
      map_natCast]
    ring
  have hsum : (starRingEnd ℂ) (∑ j in Finset.range nb,
      (starRingEnd ℂ) (cpx b j) * Complex.exp (-(2 * Real.pi * Complex.I * j * k / nb))) =
      ∑ j in Finset.range nb, cpx b j * Complex.exp (2 * Real.pi * Complex.I * j * k / nb) := by
    rw [map_sum]
    apply Finset.sum_congr rfl
    intro j _
    rw [map_mul, Complex.conj_conj, hconj]
  refine ⟨?_, ?_, hsw, ?_⟩
  · rw [hdft _ _ k hk, hsw, ← hsum]
    congr 1
    apply Finset.sum_congr rfl
    intro j hj
    rw [Finset.mem_range] at hj
    congr 1
    apply Complex.ext <;> simp [cpx, hj]
  · rw [hsw, hsum]
  · rw [child_apply_swapped_cpx cld nb hinv (child_apply cld nb b) k hk]
    have h1 : ∀ j ∈ Finset.range nb,
        cpx (child_apply cld nb b) j * Complex.exp (2 * Real.pi * Complex.I * j * k / nb) =
          (∑ l in Finset.range nb,
            cpx b l * Complex.exp (-(2 * Real.pi * Complex.I * l * j / nb))) *
            Complex.exp (2 * Real.pi * Complex.I * k * j / nb) := by
      intro j hj
      rw [Finset.mem_range] at hj
      rw [child_apply_cpx cld nb hdft b j hj]
      congr 2
      ring
    rw [Finset.sum_congr rfl h1]
    exact dft_inverse nb hnb (cpx b) k hk

/-- C14 at `nb = 4`, `k = 1`, for the child that evaluates the DFT sum directly and
`b[j] = (2j, 2j+1)`. -/
theorem child_apply_swapped_inverse_witness :
    cpx (child_apply_swapped ⟨fun re im =>
        (fun k => (∑ j in Finset.range 4,
            (⟨re j, im j⟩ : ℂ) * Complex.exp (-(2 * Real.pi * Complex.I * j * k / (4 : Nat)))).re,
          fun k => (∑ j in Finset.range 4,
            (⟨re j, im j⟩ : ℂ) * Complex.exp (-(2 * Real.pi * Complex.I * j * k / (4 : Nat)))).im)⟩
        4 (child_apply ⟨fun re im =>
        (fun k => (∑ j in Finset.range 4,
            (⟨re j, im j⟩ : ℂ) * Complex.exp (-(2 * Real.pi * Complex.I * j * k / (4 : Nat)))).re,
          fun k => (∑ j in Finset.range 4,
            (⟨re j, im j⟩ : ℂ) * Complex.exp (-(2 * Real.pi * Complex.I * j * k / (4 : Nat)))).im)⟩
        4 (fun m => (m : ℝ)))) 1 = (4 : Nat) * cpx (fun m => (m : ℝ)) 1 :=
  (child_apply_swapped_inverse 4 (by decide) _ (direct_sum_computes_dft 4) (fun m => (m : ℝ)) 1
    (by decide)).2.2.2

/-! ## Order of the calls of `awake` -/

/-- C15 as stated fails: on `awake(plan, 0)` of an awake plan the two sub-plans
receive their sleep calls first, while `w` and `W` are still present, and `w` and `W`
are released afterwards. -/
theorem awake_sleep_children_first :
    (sample_awake_plan ℚ).w.isSome = true ∧ (sample_awake_plan ℚ).W.isSome = true ∧
      (awake 2 (sample_trig ℚ) (sample_awake_plan ℚ) 0 (fun _ => 0)
          (fun _ => 0)).1 =
        [Event.child_awake Child.cldf 0, Event.child_awake Child.cldb 0,
          Event.ifree Obj.w, Event.ifree Obj.W] := by
  refine ⟨rfl, rfl, ?_⟩
  simp [awake, ifree0, sample_awake_plan]

/-- C15 (amended): on `awake(plan, 0)` the two owned sub-plans are put to sleep first
(`cldf`, then `cldb`), and only then are the chirp sequence `w` and the kernel `W`
released (each if present, `w` before `W`) and set to absent: the calls are exactly
the two sleep calls followed by the releases, and the plan returned has `w` and `W`
absent and is otherwise unchanged. -/
theorem awake_sleep_order {K : Type} [Field K] (fuel : Nat) (T : trig K) (ego : P K)
    (w0 W0 : Nat → K) :
    (awake fuel T ego 0 w0 W0).1 =
        [Event.child_awake Child.cldf 0, Event.child_awake Child.cldb 0]
          ++ ifree0 Obj.w ego.w ++ ifree0 Obj.W ego.W ∧
      (awake fuel T ego 0 w0 W0).2 = Outcome.done { ego with w := none, W := none } ∧
      (ego.w.isSome = true → ego.W.isSome = true →
        (awake fuel T ego 0 w0 W0).1 =
          [Event.child_awake Child.cldf 0, Event.child_awake Child.cldb 0,
            Event.ifree Obj.w, Event.ifree Obj.W]) := by
  refine ⟨by simp [awake], by simp [awake], ?_⟩
  intro hw hW
  obtain ⟨w, hw⟩ := Option.isSome_iff_exists.mp hw
  obtain ⟨W, hW⟩ := Option.isSome_iff_exists.mp hW
  simp [awake, ifree0, hw, hW]

end Bluestein
